import Mathlib

/-!
Verification model of the colchis in-memory JSON document store.

The definitions below are a shallow embedding of the Rust sources under
src/.  Pure data is modeled directly; byte strings are lists of naturals;
the deflate coder (flate2, external to the repository) is a lossless
stream compressor, so a compressed block is modeled by the buffer it
decompresses to; interior mutability (the RefCell-held LRU cache) is
modeled by explicit state passing.  Branches in which the Rust code
panics (expect, unreachable, slice indexing) are modeled as `none`.
-/


/-- A byte of stored text. -/
abbrev Byte := Nat

/-! ## Block-compressed text store (src/text/compressed_storage.rs) -/

/-- A compressed block (struct Block).  flate2 deflate is external and
lossless, so the model stores the uncompressed buffer; the source field
`original_size` always equals `data.length` (Block::compress sets it to
`data.len()`), and `compressed_data` is determined by `data`. -/
structure Block where
  data : List Byte
  start_text_id : Nat
  starts : List Nat
deriving DecidableEq

/-- The start offset that follows the current one: the next recorded
start, or the end of the buffer (Block::block_slices uses
`original_size` for the last range). -/
def nextStart (data : List Byte) : List Nat → Nat
  | [] => data.length
  | n :: _ => n

/-- Split a block buffer at its recorded string starts
(Block::block_slices): each string extends from its start to one byte
before the next start (that byte is the 0 sentinel appended after every
string), the last one to one byte before the end of the buffer. -/
def decodeStarts (data : List Byte) : List Nat → List (List Byte)
  | [] => []
  | s :: rest =>
    ((data.drop s).take (nextStart data rest - 1 - s)) :: decodeStarts data rest

/-- Block::block_slices : decompress and split at the starts. -/
def Block.block_slices (b : Block) : List (List Byte) :=
  decodeStarts b.data b.starts

/-- Block::heap_size, modeled: the sizes reported by the external
structures (compressed data, SparseRSVec) are functions of the block
content only. -/
def Block.heap_size (b : Block) : Nat :=
  b.data.length + 8 * b.starts.length

/-- TextUsageBuilder (compressed_storage.rs lines 107-207). -/
structure TextUsageBuilder where
  block_size : Nat
  cache_capacity : Nat
  current_block_buffer : List Byte
  current_block_starts : List Nat
  blocks : List Block
  texts : List Nat
deriving DecidableEq

/-- TextUsageBuilder::new. -/
def TextUsageBuilder.new (block_size cache_capacity : Nat) : TextUsageBuilder :=
  { block_size := block_size
    cache_capacity := cache_capacity
    current_block_buffer := []
    current_block_starts := []
    blocks := []
    texts := [] }

/-- The block that finalize_current_block would compress out of the
pending buffer: the blocks of the builder start at text id
`texts.length` (Block::compress applied to the current buffer). -/
def TextUsageBuilder.pendingBlock (b : TextUsageBuilder) : Block :=
  { data := b.current_block_buffer
    start_text_id := b.texts.length
    starts := b.current_block_starts }

/-- TextUsageBuilder::finalize_current_block: if nothing is pending do
nothing; otherwise map every pending string to the new block id, push the
compressed block and clear the buffers. -/
def TextUsageBuilder.finalize_current_block (b : TextUsageBuilder) : TextUsageBuilder :=
  if b.current_block_starts = [] then b
  else
    { b with
      texts := b.texts ++ List.replicate b.current_block_starts.length b.blocks.length
      blocks := b.blocks ++ [b.pendingBlock]
      current_block_buffer := []
      current_block_starts := [] }

/-- TextUsageBuilder::add_string: the text id is the running count; the
current block is finalized first exactly when appending would exceed
`block_size` and the buffer is non-empty; then the bytes plus a 0
sentinel are appended and the start offset recorded. -/
def TextUsageBuilder.add_string (b : TextUsageBuilder) (text : List Byte) :
    TextUsageBuilder × Nat :=
  let text_id := b.texts.length + b.current_block_starts.length
  let b :=
    if b.current_block_buffer.length + text.length > b.block_size ∧
        b.current_block_buffer ≠ [] then
      b.finalize_current_block
    else b
  let start := b.current_block_buffer.length
  ({ b with
     current_block_buffer := b.current_block_buffer ++ text ++ [0]
     current_block_starts := b.current_block_starts ++ [start] },
   text_id)

/-- The decoded string slices of one block. -/
abbrev Slices := List (List Byte)

/-- The LRU cache of decompressed blocks (lru::LruCache), most recently
used first. -/
structure LruCache where
  capacity : Nat
  entries : List (Nat × Slices)
deriving DecidableEq

/-- LruCache::get: on a hit the entry moves to the front. -/
def LruCache.getC (c : LruCache) (k : Nat) : Option Slices × LruCache :=
  match c.entries.find? (fun e => e.1 == k) with
  | none => (none, c)
  | some e => (some e.2, ⟨c.capacity, e :: c.entries.eraseP (fun x => x.1 == k)⟩)

/-- LruCache::put: insert at the front, evicting the least recently used
entry when over capacity. -/
def LruCache.put (c : LruCache) (k : Nat) (v : Slices) : LruCache :=
  ⟨c.capacity, (((k, v) :: c.entries.eraseP (fun x => x.1 == k))).take c.capacity⟩

/-- TextUsage (compressed_storage.rs lines 210-297).  The RefCell cache
is a plain field; queries return the updated state. -/
structure TextUsage where
  blocks : List Block
  texts : List Nat
  cache : LruCache
  cache_capacity : Nat
deriving DecidableEq

/-- TextUsage::new: the internal LruCache gets capacity
`max cache_capacity 1` (LruCache requires a non-zero capacity). -/
def TextUsage.new (cache_capacity : Nat) (blocks : List Block) (texts : List Nat) :
    TextUsage :=
  { blocks := blocks
    texts := texts
    cache := ⟨max cache_capacity 1, []⟩
    cache_capacity := cache_capacity }

/-- TextUsageBuilder::build: finalize a half-finished block and seal. -/
def TextUsageBuilder.build (b : TextUsageBuilder) : TextUsage :=
  let b := b.finalize_current_block
  TextUsage.new b.cache_capacity b.blocks b.texts

/-- TextUsage::heap_size: blocks plus text map; the cache is deliberately
ignored (it is not part of the persistent storage). -/
def TextUsage.heap_size (u : TextUsage) : Nat :=
  (u.blocks.map Block.heap_size).sum + 8 * u.texts.length

/-- TextUsage::get_string.  `none` in the first component models the
panicking branches (expect on a missing TextId or block, out-of-range
slice index); the second component is the state after the query, which
differs from the input only in the cache. -/
def TextUsage.get_string (u : TextUsage) (text_id : Nat) :
    Option (List Byte) × TextUsage :=
  match u.texts[text_id]? with
  | none => (none, u)
  | some block_id =>
    match u.blocks[block_id]? with
    | none => (none, u)
    | some block =>
      if u.cache_capacity > 0 then
        match u.cache.getC block_id with
        | (some cached, cache1) =>
          (cached[text_id - block.start_text_id]?, { u with cache := cache1 })
        | (none, cache1) =>
          let slices := block.block_slices
          (slices[text_id - block.start_text_id]?,
           { u with cache := cache1.put block_id slices })
      else
        (block.block_slices[text_id - block.start_text_id]?, u)

/-- The pure observation of get_string: what the slice lookup yields,
ignoring the cache.  Theorem get_string_fst_eq_lookup shows get_string
returns exactly this on every coherent cache. -/
def TextUsage.lookup (u : TextUsage) (text_id : Nat) : Option (List Byte) :=
  u.texts[text_id]?.bind fun block_id =>
    u.blocks[block_id]?.bind fun block =>
      block.block_slices[text_id - block.start_text_id]?

/-- The cache_size field of TextUsage::stats: reported as 0 whenever
caching is disabled. -/
def TextUsage.stats_cache_size (u : TextUsage) : Nat :=
  if u.cache_capacity = 0 then 0 else u.cache.entries.length

/-- Every cache entry holds exactly the decoded slices of the block it
is keyed by. -/
def TextUsage.CacheOK (u : TextUsage) : Prop :=
  ∀ k v, (k, v) ∈ u.cache.entries →
    ∃ blk, u.blocks[k]? = some blk ∧ v = blk.block_slices

/-! ## Correctness of the text store builder -/

/-- Pure retrieval over a block list and text map (the slice part of
TextUsage::get_string). -/
def blocksLookup (blocks : List Block) (texts : List Nat) (t : Nat) :
    Option (List Byte) :=
  texts[t]?.bind fun bid =>
    blocks[bid]?.bind fun blk =>
      blk.block_slices[t - blk.start_text_id]?

/-- The reachable-state invariant of TextUsageBuilder after the strings
`ss` have been added: the finalized blocks retrieve the first
`texts.length` strings, the pending buffer decodes to the rest, and the
recorded starts strictly increase and stay inside the buffer. -/
structure BuilderInv (b : TextUsageBuilder) (ss : List (List Byte)) : Prop where
  count : b.texts.length + b.current_block_starts.length = ss.length
  fin : ∀ t, t < b.texts.length →
    blocksLookup b.blocks b.texts t = some (ss.getD t [])
  pending : decodeStarts b.current_block_buffer b.current_block_starts =
    ss.drop b.texts.length
  chain : List.Chain' (· < ·)
    (b.current_block_starts ++ [b.current_block_buffer.length])
  empties : b.current_block_buffer = [] ↔ b.current_block_starts = []

/-- Fold add_string over a list of strings. -/
def TextUsageBuilder.addAll (b : TextUsageBuilder) (ss : List (List Byte)) :
    TextUsageBuilder :=
  ss.foldl (fun b s => (b.add_string s).1) b

/-- Fold get_string over a list of text ids, keeping only the state. -/
def applyGets (u : TextUsage) (ts : List Nat) : TextUsage :=
  ts.foldl (fun u t => (u.get_string t).2) u

/-! ## Sparse rank/select vectors and the usage index
(src/usage/elias_fano_index.rs) -/

/-- vers_vecs::SparseRSVec, the external Elias-Fano sparse bit vector,
modeled by its sorted list of one-positions over a universe of `len`
bits.  Its documented operations: rank1 i counts set positions below i;
select1 r yields the r-th (0-indexed) set position and the length of the
vector when r is out of bounds (the repository relies on exactly this in
EliasFanoUsageIndex::select); is_set is defined below len only. -/
structure SparseRSVec where
  positions : List Nat
  len : Nat
deriving DecidableEq

/-- rank1: number of set positions strictly below i. -/
def SparseRSVec.rank1 (v : SparseRSVec) (i : Nat) : Nat :=
  v.positions.countP (fun p => decide (p < i))

/-- select1: the r-th set position, or the vector length out of range. -/
def SparseRSVec.select1 (v : SparseRSVec) (r : Nat) : Nat :=
  v.positions.getD r v.len

/-- is_set: whether position i is set, None past the end. -/
def SparseRSVec.is_set (v : SparseRSVec) (i : Nat) : Option Bool :=
  if i < v.len then some (v.positions.contains i) else none

/-- Well-formedness of a sparse vector: strictly increasing positions
inside the universe (SparseRSVec::new is fed sorted distinct positions
below the universe size everywhere in the repository). -/
def SparseRSVec.WF (v : SparseRSVec) : Prop :=
  List.Pairwise (· < ·) v.positions ∧ ∀ p ∈ v.positions, p < v.len

/-- EliasFanoUsageIndex (elias_fano_index.rs lines 9-13): one sparse
vector per node-info id over the `len` node positions.  The node_lookup
field (the kind name table) plays no part in rank/select and is left
out of this model. -/
structure EliasFanoUsageIndex where
  sparse_rs_vecs : List SparseRSVec
  len : Nat
deriving DecidableEq

/-- EliasFanoUsageIndex::rank (lines 52-58): defined for i ≤ len.  The
source indexes sparse_rs_vecs directly (a panic out of range); the
claims quantify over kinds of the index, so the default of getD is
never reached there. -/
def EliasFanoUsageIndex.rank (u : EliasFanoUsageIndex) (i : Nat) (k : Nat) :
    Option Nat :=
  if i ≤ u.len then some ((u.sparse_rs_vecs.getD k ⟨[], u.len⟩).rank1 i)
  else none

/-- EliasFanoUsageIndex::select (lines 60-63): select1, turned into
None when it reports the out-of-range sentinel `len`. -/
def EliasFanoUsageIndex.select (u : EliasFanoUsageIndex) (r : Nat) (k : Nat) :
    Option Nat :=
  if u.len ≠ (u.sparse_rs_vecs.getD k ⟨[], u.len⟩).select1 r then
    some ((u.sparse_rs_vecs.getD k ⟨[], u.len⟩).select1 r)
  else none

/-- Well-formed usage index: every per-kind vector is well formed over
the common universe (how EliasFanoUsageIndex::new builds them). -/
def EliasFanoUsageIndex.WF (u : EliasFanoUsageIndex) : Prop :=
  ∀ v ∈ u.sparse_rs_vecs, v.WF ∧ v.len = u.len

/-- A small concrete usage index: one kind, occurring at position 2 of
a universe of 4 positions. -/
def c5exIndex : EliasFanoUsageIndex :=
  { sparse_rs_vecs := [{ positions := [2], len := 4 }], len := 4 }

/-! ## Value equality (src/document/value.rs, object.rs, array.rs) -/

/-- The Value enumeration (value.rs lines 10-18) with the provenance
that PartialEq consults: ObjectValue and ArrayValue carry a reference
to their Document and a node; the reference is modeled by a document
identity token (two distinct live Documents occupy distinct
addresses). -/
inductive PValue where
  | objectV (docId : Nat) (node : Nat)
  | arrayV (docId : Nat) (node : Nat)
  | stringV (s : List Byte)
  | numberV (x : Float)
  | booleanV (b : Bool)
  | nullV

/-- PartialEq for Value (value.rs lines 20-32), with ObjectValue
equality (object.rs lines 13-19) and ArrayValue equality (array.rs
lines 15-21): node equality plus document reference equality; strings
by content, numbers by f64 equality, booleans by value. -/
def PValue.eqv : PValue → PValue → Bool
  | .objectV d n, .objectV e m => n == m && d == e
  | .arrayV d n, .arrayV e m => n == m && d == e
  | .stringV a, .stringV b => a == b
  | .numberV a, .numberV b => a == b
  | .booleanV a, .booleanV b => a == b
  | .nullV, .nullV => true
  | _, _ => false

/-! ## Finalization order in Parser::parse (src/parser.rs lines 97-113) -/

/-- The three finalization actions that Parser::parse performs after
the event stream is consumed. -/
inductive FinalizeStep where
  | materializeUsageIndex
  | finalizeTextStore
  | assembleDocument
deriving DecidableEq

/-- The order of the finalization steps in Parser::parse, read off the
statement sequence of parser.rs lines 104-112: first
`Structure::<B::Index>::new(self.builder.tree_builder)` materializes
the usage index, then `self.builder.text_builder.build()` finalizes the
text store, and finally `Document::new(..)` assembles the document. -/
def parseFinalizeOrder : List FinalizeStep :=
  [FinalizeStep.materializeUsageIndex,
   FinalizeStep.finalizeTextStore,
   FinalizeStep.assembleDocument]

/-! ## Node kinds and the kind registry (src/info.rs, src/lookup.rs) -/

/-- NodeType (info.rs lines 27-36); field names are byte strings. -/
inductive NodeType where
  | objectT
  | arrayT
  | stringT
  | numberT
  | booleanT
  | nullT
  | fieldT (name : List Byte)
deriving DecidableEq

/-- NodeInfo (info.rs lines 38-58). -/
structure NodeInfo where
  node_type : NodeType
  is_open_tag : Bool
deriving DecidableEq

/-- NodeInfo::open. -/
def NodeInfo.openInfo (t : NodeType) : NodeInfo := ⟨t, true⟩

/-- NodeInfo::close. -/
def NodeInfo.closeInfo (t : NodeType) : NodeInfo := ⟨t, false⟩

/-- The twelve infos NodeLookup::new preregisters, in the fixed id order
OBJECT_OPEN_ID = 0 … NULL_CLOSE_ID = 11 (info.rs lines 14-25). -/
def initLookup : List NodeInfo :=
  [NodeInfo.openInfo NodeType.objectT, NodeInfo.closeInfo NodeType.objectT,
   NodeInfo.openInfo NodeType.arrayT, NodeInfo.closeInfo NodeType.arrayT,
   NodeInfo.openInfo NodeType.stringT, NodeInfo.closeInfo NodeType.stringT,
   NodeInfo.openInfo NodeType.numberT, NodeInfo.closeInfo NodeType.numberT,
   NodeInfo.openInfo NodeType.booleanT, NodeInfo.closeInfo NodeType.booleanT,
   NodeInfo.openInfo NodeType.nullT, NodeInfo.closeInfo NodeType.nullT]

/-- The id a NodeInfo resolves to: the index of its first occurrence in
the registry list (the hash map of NodeLookup maps each info to the
index at which register_lookup first pushed it; the twelve fast-path
constants coincide with the first twelve indices of initLookup). -/
def idOf (lookup : List NodeInfo) (info : NodeInfo) : Nat :=
  lookup.findIdx (fun x => x == info)

/-- NodeLookup::register / register_lookup: return the existing id or
append the info with the next id. -/
def registerInfo (lookup : List NodeInfo) (info : NodeInfo) :
    List NodeInfo × Nat :=
  match lookup.findIdx? (fun x => x == info) with
  | some i => (lookup, i)
  | none => (lookup ++ [info], lookup.length)

/-- NodeLookup::register_field_ids: register the open and close infos of
a field name together, returning both ids. -/
def registerFieldIds (lookup : List NodeInfo) (name : List Byte) :
    List NodeInfo × Nat × Nat :=
  let r1 := registerInfo lookup (NodeInfo.openInfo (NodeType.fieldT name))
  let r2 := registerInfo r1.1 (NodeInfo.closeInfo (NodeType.fieldT name))
  (r2.1, r1.2, r2.2)

/-! ## Parse events

The streaming tokenizer (struson, external) hands the parser a
depth-first event stream; the emitter consumes the same events on
serialize.  The byte text ⇄ event translation lives entirely in the
external crate (including f64 parsing and shortest round-trip rendering,
which re-reads to the same f64), so documents are compared through the
event interface. -/

/-- One tokenizer event. -/
inductive JsonEvent where
  | beginArray
  | endArray
  | beginObject
  | endObject
  | nameE (k : List Byte)
  | stringE (s : List Byte)
  | numberE (x : Float)
  | booleanE (b : Bool)
  | nullE

/-! ## The build-time state driven by Parser::parse_item
(src/parser.rs, src/tree_builder.rs, src/usage/traits.rs) -/

/-- TEXT_USAGE_BLOCK_SIZE (parser.rs line 15). -/
def TEXT_USAGE_BLOCK_SIZE : Nat := 1024 * 1024

/-- TEXT_USAGE_CACHE_BLOCKS (parser.rs line 16). -/
def TEXT_USAGE_CACHE_BLOCKS : Nat := 10

/-- The parse-time builder: the node registry, the parentheses bit
vector (true = open), the per-id position lists gathered by the usage
builder, the text store builder, and the number/boolean side stores
(struct Builder in parser.rs plus TreeBuilder). -/
structure Builder where
  lookup : List NodeInfo
  parens : List Bool
  usage : List (List Nat)
  text_builder : TextUsageBuilder
  numbers : List Float
  booleans : List Bool

/-- Builder::new: preregistered registry, everything else empty. -/
def Builder.new : Builder :=
  { lookup := initLookup
    parens := []
    usage := []
    text_builder := TextUsageBuilder.new TEXT_USAGE_BLOCK_SIZE TEXT_USAGE_CACHE_BLOCKS
    numbers := []
    booleans := [] }

/-- The usage append (RoaringUsageBuilder::append / TreeBuilder::
append_usage): grow the per-id vector list up to the id, then push the
position. -/
def appendUsage (usage : List (List Nat)) (id : Nat) (pos : Nat) :
    List (List Nat) :=
  let usage :=
    if usage.length ≤ id then usage ++ List.replicate (id + 1 - usage.length) []
    else usage
  usage.set id (usage.getD id [] ++ [pos])

/-- TreeBuilder::open: register the open info, record its position,
push an open parenthesis. -/
def Builder.openNode (b : Builder) (t : NodeType) : Builder :=
  let r := registerInfo b.lookup (NodeInfo.openInfo t)
  { b with
    lookup := r.1
    usage := appendUsage b.usage r.2 b.parens.length
    parens := b.parens ++ [true] }

/-- TreeBuilder::close. -/
def Builder.closeNode (b : Builder) (t : NodeType) : Builder :=
  let r := registerInfo b.lookup (NodeInfo.closeInfo t)
  { b with
    lookup := r.1
    usage := appendUsage b.usage r.2 b.parens.length
    parens := b.parens ++ [false] }

/-- UsageBuilder::open_field: register the open/close pair for the
name, record the open, and hand back the close id for close_field. -/
def Builder.openField (b : Builder) (name : List Byte) : Builder × Nat :=
  let r := registerFieldIds b.lookup name
  ({ b with
     lookup := r.1
     usage := appendUsage b.usage r.2.1 b.parens.length
     parens := b.parens ++ [true] }, r.2.2)

/-- UsageBuilder::close_field: record the previously returned close id. -/
def Builder.closeField (b : Builder) (cid : Nat) : Builder :=
  { b with
    usage := appendUsage b.usage cid b.parens.length
    parens := b.parens ++ [false] }

/-- Builder step for a string value (parser.rs lines 144-149). -/
def Builder.addStringItem (b : Builder) (s : List Byte) : Builder :=
  let b1 := b.openNode NodeType.stringT
  let b2 := { b1 with text_builder := (b1.text_builder.add_string s).1 }
  b2.closeNode NodeType.stringT

/-- Builder step for a number value (parser.rs lines 150-155). -/
def Builder.addNumberItem (b : Builder) (x : Float) : Builder :=
  let b1 := b.openNode NodeType.numberT
  let b2 := { b1 with numbers := b1.numbers ++ [x] }
  b2.closeNode NodeType.numberT

/-- Builder step for a boolean value (parser.rs lines 156-161). -/
def Builder.addBooleanItem (b : Builder) (v : Bool) : Builder :=
  let b1 := b.openNode NodeType.booleanT
  let b2 := { b1 with booleans := b1.booleans ++ [v] }
  b2.closeNode NodeType.booleanT

/-- Builder step for a null value (parser.rs lines 162-166). -/
def Builder.addNullItem (b : Builder) : Builder :=
  (b.openNode NodeType.nullT).closeNode NodeType.nullT

/-! ## Parser::parse_item over the event stream (parser.rs lines 115-169)

The three mutually recursive functions mirror parse_item and its two
has_next loops.  Fuel makes the recursion structural; parse supplies
more fuel than events, which always suffices (each call consumes at
least one event).  `none` covers tokenizer errors: an event that cannot
occur at this position. -/

mutual

def parseItem : Nat → List JsonEvent → Builder →
    Option (Builder × List JsonEvent)
  | 0, _, _ => none
  | fuel + 1, es, b =>
    match es with
    | JsonEvent.beginArray :: rest =>
      match parseElems fuel rest (b.openNode NodeType.arrayT) with
      | some (b1, rest1) => some (b1.closeNode NodeType.arrayT, rest1)
      | none => none
    | JsonEvent.beginObject :: rest =>
      match parseFields fuel rest (b.openNode NodeType.objectT) with
      | some (b1, rest1) => some (b1.closeNode NodeType.objectT, rest1)
      | none => none
    | JsonEvent.stringE s :: rest => some (b.addStringItem s, rest)
    | JsonEvent.numberE x :: rest => some (b.addNumberItem x, rest)
    | JsonEvent.booleanE v :: rest => some (b.addBooleanItem v, rest)
    | JsonEvent.nullE :: rest => some (b.addNullItem, rest)
    | _ => none

def parseElems : Nat → List JsonEvent → Builder →
    Option (Builder × List JsonEvent)
  | 0, _, _ => none
  | fuel + 1, es, b =>
    match es with
    | JsonEvent.endArray :: rest => some (b, rest)
    | _ =>
      match parseItem fuel es b with
      | some (b1, rest1) => parseElems fuel rest1 b1
      | none => none

def parseFields : Nat → List JsonEvent → Builder →
    Option (Builder × List JsonEvent)
  | 0, _, _ => none
  | fuel + 1, es, b =>
    match es with
    | JsonEvent.endObject :: rest => some (b, rest)
    | JsonEvent.nameE k :: rest =>
      match parseItem fuel rest (b.openField k).1 with
      | some (b2, rest2) => parseFields fuel rest2 (b2.closeField (b.openField k).2)
      | none => none
    | _ => none

end

/-! ## The frozen Document (src/document/core.rs, src/structure.rs,
src/node_info_vec.rs) -/

/-- The built Document: registry, parentheses (BpTree bit vector), the
per-id sparse position vectors (NodeInfoVec over a universe of
parens.length positions), the sealed text store, and the side stores. -/
structure Document where
  lookup : List NodeInfo
  parens : List Bool
  usage : List (List Nat)
  text : TextUsage
  numbers : List Float
  booleans : List Bool

/-- The finalization tail of Parser::parse (lines 104-112): materialize
the structure, build the text store, assemble the Document (in the
order recorded by parseFinalizeOrder). -/
def Document.build (b : Builder) : Document :=
  { lookup := b.lookup
    parens := b.parens
    usage := b.usage
    text := b.text_builder.build
    numbers := b.numbers
    booleans := b.booleans }

/-- Parser::parse driving parse_item once from a fresh builder; the
fuel exceeds the event count, and parse keeps whatever events follow
the first item (the source never reads past it). -/
def parseJson (es : List JsonEvent) : Option Document :=
  match parseItem (es.length + 1) es Builder.new with
  | some (b, _) => some (Document.build b)
  | none => none

/-! ## Balanced-parentheses navigation (vers_vecs::BpTree, consumed
through Document::primitive_first_child / primitive_next_sibling in
src/document/nav.rs) -/

/-- The scan behind find_close: walk right of the open, tracking excess
depth; the matching close is the first close reached at depth zero. -/
def findCloseGo : List Bool → Nat → Nat → Option Nat
  | [], _, _ => none
  | bit :: rest, idx, d =>
    if bit then findCloseGo rest (idx + 1) (d + 1)
    else
      match d with
      | 0 => some idx
      | d + 1 => findCloseGo rest (idx + 1) d

/-- BpTree find_close: the matching close of the open at i. -/
def findClose (bits : List Bool) (i : Nat) : Option Nat :=
  findCloseGo (bits.drop (i + 1)) (i + 1) 0

/-- BpTree::root (nav.rs Document::root): position 0 of a non-empty
parentheses sequence. -/
def Document.root (doc : Document) : Option Nat :=
  if doc.parens = [] then none else some 0

/-- Document::primitive_first_child: a first child sits right after its
parent's open parenthesis. -/
def Document.first_child (doc : Document) (i : Nat) : Option Nat :=
  match doc.parens[i + 1]? with
  | some true => some (i + 1)
  | _ => none

/-- Document::primitive_next_sibling: skip to the matching close; the
next sibling starts right after it if that position opens. -/
def Document.next_sibling (doc : Document) (i : Nat) : Option Nat :=
  match findClose doc.parens i with
  | some j =>
    match doc.parens[j + 1]? with
    | some true => some (j + 1)
    | _ => none
  | none => none

/-- NodeInfoVec::node_info_id: scan the per-id sparse vectors for the
one whose bit at i is set (is_set is defined only below the universe
size, the parentheses length). -/
def Document.node_info_id (doc : Document) (i : Nat) : Option Nat :=
  if i < doc.parens.length then
    doc.usage.findIdx? (fun ps => ps.contains i)
  else none

/-- Structure::node_info: resolve the id through the registry (the
expect on a missing id is `none`). -/
def Document.node_info (doc : Document) (i : Nat) : Option NodeInfo :=
  (doc.node_info_id i).bind fun id => doc.lookup[id]?

/-- Document::node_type. -/
def Document.node_type (doc : Document) (i : Nat) : Option NodeType :=
  (doc.node_info i).map NodeInfo.node_type

/-- NodeInfoVec::text_id: the rank of position i in the STRING_OPEN_ID
(= 4) sparse vector, defined for i ≤ len; indexing a missing vector
(a document in which no id ≥ 4 was ever appended) panics in the source
and is `none` here. -/
def Document.text_id (doc : Document) (i : Nat) : Option Nat :=
  if i ≤ doc.parens.length then
    doc.usage[4]?.map fun ps => ps.countP (fun p => decide (p < i))
  else none

/-- NodeInfoVec::number_id: rank in the NUMBER_OPEN_ID (= 6) vector. -/
def Document.number_id (doc : Document) (i : Nat) : Option Nat :=
  if i ≤ doc.parens.length then
    doc.usage[6]?.map fun ps => ps.countP (fun p => decide (p < i))
  else none

/-- NodeInfoVec::boolean_id: rank in the BOOLEAN_OPEN_ID (= 8) vector. -/
def Document.boolean_id (doc : Document) (i : Nat) : Option Nat :=
  if i ≤ doc.parens.length then
    doc.usage[8]?.map fun ps => ps.countP (fun p => decide (p < i))
  else none

/-! ## Typed value extraction (src/document/value.rs, core.rs) -/

/-- Value (value.rs lines 10-18), for one fixed document: Object and
Array carry the node index (the document reference is the document the
accessor was called on).  PValue above adds the document identity for
the PartialEq claim. -/
inductive DocValue where
  | objectV (node : Nat)
  | arrayV (node : Nat)
  | stringV (s : List Byte)
  | numberV (x : Float)
  | booleanV (b : Bool)
  | nullV

/-- Document::string_value: text id, then the text store.  The source
goes through get_string and its cache; by get_string_fst_eq_lookup the
bytes returned equal this pure lookup on every coherent cache state
(Document.string_value_q below is the cache-threading form). -/
def Document.string_value (doc : Document) (node : Nat) : Option (List Byte) :=
  (doc.text_id node).bind fun tid => doc.text.lookup tid

/-- Document::number_value: numbers[number_id], panic out of range. -/
def Document.number_value (doc : Document) (node : Nat) : Option Float :=
  (doc.number_id node).bind fun nid => doc.numbers[nid]?

/-- Document::boolean_value: booleans[boolean_id]. -/
def Document.boolean_value (doc : Document) (node : Nat) : Option Bool :=
  (doc.boolean_id node).bind fun bid => doc.booleans[bid]?

/-- Document::value (core.rs lines 56-77); a Field node is
unreachable!(). -/
def Document.value (doc : Document) (node : Nat) : Option DocValue :=
  match doc.node_type node with
  | some NodeType.objectT => some (DocValue.objectV node)
  | some NodeType.arrayT => some (DocValue.arrayV node)
  | some NodeType.stringT => (doc.string_value node).map DocValue.stringV
  | some NodeType.numberT => (doc.number_value node).map DocValue.numberV
  | some NodeType.booleanT => (doc.boolean_value node).map DocValue.booleanV
  | some NodeType.nullT => some DocValue.nullV
  | some (NodeType.fieldT _) => none
  | none => none

/-- Document::string_value through the cache (the form the running code
takes): threads the text store state. -/
def Document.string_value_q (doc : Document) (node : Nat) :
    Option (List Byte) × Document :=
  match doc.text_id node with
  | none => (none, doc)
  | some tid =>
    let r := doc.text.get_string tid
    (r.1, { doc with text := r.2 })

/-- A sequence of string-value queries (the only mutating reads). -/
def applyStringQueries (doc : Document) (nodes : List Nat) : Document :=
  nodes.foldl (fun d n => (d.string_value_q n).2) doc

/-- Document::heap_size (core.rs lines 49-54): structure + text store +
numbers + booleans.  The component sizes of the external succinct
structures are modeled as functions of the frozen content; the text
store size is TextUsage.heap_size, which excludes the cache. -/
def Document.heap_size (doc : Document) : Nat :=
  (doc.parens.length + 8 * doc.lookup.length +
    (doc.usage.map (fun ps => 8 * ps.length)).sum) +
  doc.text.heap_size + 8 * doc.numbers.length + doc.booleans.length

/-! ## Serialization (src/document/serialize.rs, object.rs, array.rs,
value.rs), emitting events to the external writer -/

mutual

/-- Value::serialize (value.rs lines 34-53). -/
def serializeValue : Nat → Document → DocValue → Option (List JsonEvent)
  | 0, _, _ => none
  | fuel + 1, doc, v =>
    match v with
    | DocValue.objectV node =>
      match serializeFields fuel doc (doc.first_child node) with
      | some evs => some (JsonEvent.beginObject :: evs ++ [JsonEvent.endObject])
      | none => none
    | DocValue.arrayV node =>
      match serializeElems fuel doc (doc.first_child node) with
      | some evs => some (JsonEvent.beginArray :: evs ++ [JsonEvent.endArray])
      | none => none
    | DocValue.stringV s => some [JsonEvent.stringE s]
    | DocValue.numberV x => some [JsonEvent.numberE x]
    | DocValue.booleanV b => some [JsonEvent.booleanE b]
    | DocValue.nullV => some [JsonEvent.nullE]

/-- ObjectValue::serialize through FieldEntryIterator (object.rs lines
60-71 and 122-141): each field node yields its name and the value of
its single child; a non-field node is unreachable!(), a childless field
is an unwrap panic. -/
def serializeFields : Nat → Document → Option Nat → Option (List JsonEvent)
  | 0, _, _ => none
  | _ + 1, _, none => some []
  | fuel + 1, doc, some f =>
    match doc.node_type f with
    | some (NodeType.fieldT key) =>
      match doc.first_child f with
      | some vn =>
        match doc.value vn with
        | some v =>
          match serializeValue fuel doc v with
          | some evs1 =>
            match serializeFields fuel doc (doc.next_sibling f) with
            | some evs2 => some (JsonEvent.nameE key :: evs1 ++ evs2)
            | none => none
          | none => none
        | none => none
      | none => none
    | _ => none

/-- ArrayValue::serialize through ArrayIterator (array.rs lines 44-51
and 58-69). -/
def serializeElems : Nat → Document → Option Nat → Option (List JsonEvent)
  | 0, _, _ => none
  | _ + 1, _, none => some []
  | fuel + 1, doc, some n =>
    match doc.value n with
    | some v =>
      match serializeValue fuel doc v with
      | some evs1 =>
        match serializeElems fuel doc (doc.next_sibling n) with
        | some evs2 => some (evs1 ++ evs2)
        | none => none
      | none => none
    | none => none

end

/-- Document::serialize (serialize.rs lines 10-17): the root value,
emitted depth first. -/
def Document.serialize (doc : Document) : Option (List JsonEvent) :=
  doc.root.bind fun r =>
    (doc.value r).bind fun v =>
      serializeValue (doc.parens.length + 1) doc v

/-- ObjectValue::get = iter().find(|(k, _)| k == key) (object.rs lines
35-37): walk the field entries in source order, materializing each
entry (key and child value) as FieldEntryIterator does, and return the
value at the first key match. -/
def objectGetGo : Nat → Document → Option Nat → List Byte → Option DocValue
  | 0, _, _, _ => none
  | _ + 1, _, none, _ => none
  | fuel + 1, doc, some f, key =>
    match doc.node_type f with
    | some (NodeType.fieldT k) =>
      match doc.first_child f with
      | some vn =>
        match doc.value vn with
        | some v =>
          if k = key then some v
          else objectGetGo fuel doc (doc.next_sibling f) key
        | none => none
      | none => none
    | _ => none

/-- ObjectValue::get on the object node. -/
def Document.objectGet (doc : Document) (node : Nat) (key : List Byte) :
    Option DocValue :=
  objectGetGo (doc.parens.length + 1) doc (doc.first_child node) key

/-! ## Abstract JSON trees

The semantic bridge for the round-trip proof: the canonical event
stream of a tree, the node-info labels its parse lays down, and the
three side-store traces.  These are specification devices; the code
under proof is the parser/serializer above. -/

mutual

inductive Json where
  | obj (fs : JsonFields)
  | arr (es : JsonElems)
  | str (s : List Byte)
  | num (x : Float)
  | bool (b : Bool)
  | null

inductive JsonFields where
  | nil
  | cons (key : List Byte) (value : Json) (rest : JsonFields)

inductive JsonElems where
  | nil
  | cons (value : Json) (rest : JsonElems)

end

mutual

/-- The canonical event stream of a tree. -/
def eventsOf : Json → List JsonEvent
  | Json.obj fs => JsonEvent.beginObject :: eventsOfFields fs ++ [JsonEvent.endObject]
  | Json.arr es => JsonEvent.beginArray :: eventsOfElems es ++ [JsonEvent.endArray]
  | Json.str s => [JsonEvent.stringE s]
  | Json.num x => [JsonEvent.numberE x]
  | Json.bool b => [JsonEvent.booleanE b]
  | Json.null => [JsonEvent.nullE]

def eventsOfFields : JsonFields → List JsonEvent
  | JsonFields.nil => []
  | JsonFields.cons k v rest =>
    JsonEvent.nameE k :: eventsOf v ++ eventsOfFields rest

def eventsOfElems : JsonElems → List JsonEvent
  | JsonElems.nil => []
  | JsonElems.cons v rest => eventsOf v ++ eventsOfElems rest

end

mutual

/-- The node-info labels of the positions a parse of this tree appends,
in order. -/
def labelsOf : Json → List NodeInfo
  | Json.obj fs =>
    NodeInfo.openInfo NodeType.objectT :: labelsOfFields fs ++
      [NodeInfo.closeInfo NodeType.objectT]
  | Json.arr es =>
    NodeInfo.openInfo NodeType.arrayT :: labelsOfElems es ++
      [NodeInfo.closeInfo NodeType.arrayT]
  | Json.str _ => [NodeInfo.openInfo NodeType.stringT, NodeInfo.closeInfo NodeType.stringT]
  | Json.num _ => [NodeInfo.openInfo NodeType.numberT, NodeInfo.closeInfo NodeType.numberT]
  | Json.bool _ => [NodeInfo.openInfo NodeType.booleanT, NodeInfo.closeInfo NodeType.booleanT]
  | Json.null => [NodeInfo.openInfo NodeType.nullT, NodeInfo.closeInfo NodeType.nullT]

def labelsOfFields : JsonFields → List NodeInfo
  | JsonFields.nil => []
  | JsonFields.cons k v rest =>
    NodeInfo.openInfo (NodeType.fieldT k) :: labelsOf v ++
      (NodeInfo.closeInfo (NodeType.fieldT k) :: labelsOfFields rest)

def labelsOfElems : JsonElems → List NodeInfo
  | JsonElems.nil => []
  | JsonElems.cons v rest => labelsOf v ++ labelsOfElems rest

end

mutual

/-- The strings a parse of this tree adds to the text store, in order. -/
def stringsOf : Json → List (List Byte)
  | Json.obj fs => stringsOfFields fs
  | Json.arr es => stringsOfElems es
  | Json.str s => [s]
  | Json.num _ => []
  | Json.bool _ => []
  | Json.null => []

def stringsOfFields : JsonFields → List (List Byte)
  | JsonFields.nil => []
  | JsonFields.cons _ v rest => stringsOf v ++ stringsOfFields rest

def stringsOfElems : JsonElems → List (List Byte)
  | JsonElems.nil => []
  | JsonElems.cons v rest => stringsOf v ++ stringsOfElems rest

end

mutual

/-- The numbers a parse of this tree pushes, in order. -/
def numbersOf : Json → List Float
  | Json.obj fs => numbersOfFields fs
  | Json.arr es => numbersOfElems es
  | Json.str _ => []
  | Json.num x => [x]
  | Json.bool _ => []
  | Json.null => []

def numbersOfFields : JsonFields → List Float
  | JsonFields.nil => []
  | JsonFields.cons _ v rest => numbersOf v ++ numbersOfFields rest

def numbersOfElems : JsonElems → List Float
  | JsonElems.nil => []
  | JsonElems.cons v rest => numbersOf v ++ numbersOfElems rest

end

mutual

/-- The booleans a parse of this tree appends, in order. -/
def boolsOf : Json → List Bool
  | Json.obj fs => boolsOfFields fs
  | Json.arr es => boolsOfElems es
  | Json.str _ => []
  | Json.num _ => []
  | Json.bool b => [b]
  | Json.null => []

def boolsOfFields : JsonFields → List Bool
  | JsonFields.nil => []
  | JsonFields.cons _ v rest => boolsOf v ++ boolsOfFields rest

def boolsOfElems : JsonElems → List Bool
  | JsonElems.nil => []
  | JsonElems.cons v rest => boolsOf v ++ boolsOfElems rest

end

mutual

/-- The builder state a successful parse of this tree leaves behind:
the fold of the builder calls parse_item makes. -/
def applyJson : Json → Builder → Builder
  | Json.obj fs, b =>
    (applyFields fs (b.openNode NodeType.objectT)).closeNode NodeType.objectT
  | Json.arr es, b =>
    (applyElems es (b.openNode NodeType.arrayT)).closeNode NodeType.arrayT
  | Json.str s, b => b.addStringItem s
  | Json.num x, b => b.addNumberItem x
  | Json.bool v, b => b.addBooleanItem v
  | Json.null, b => b.addNullItem

def applyFields : JsonFields → Builder → Builder
  | JsonFields.nil, b => b
  | JsonFields.cons k v rest, b =>
    applyFields rest ((applyJson v (b.openField k).1).closeField (b.openField k).2)

def applyElems : JsonElems → Builder → Builder
  | JsonElems.nil, b => b
  | JsonElems.cons v rest, b => applyElems rest (applyJson v b)

end

/-- The DocValue a node holding this tree yields from Document::value. -/
def dvOf : Json → Nat → DocValue
  | Json.obj _, p => DocValue.objectV p
  | Json.arr _, p => DocValue.arrayV p
  | Json.str s, _ => DocValue.stringV s
  | Json.num x, _ => DocValue.numberV x
  | Json.bool b, _ => DocValue.booleanV b
  | Json.null, _ => DocValue.nullV

/-- The first field of fs whose key matches, together with the position
of its value node, starting the field chain at position q. -/
def findFieldPos : JsonFields → List Byte → Nat → Option (Json × Nat)
  | JsonFields.nil, _, _ => none
  | JsonFields.cons k v rest, key, q =>
    if k = key then some (v, q + 1)
    else findFieldPos rest key (q + 1 + (labelsOf v).length + 1)

/-- Depth tracking over a parenthesis segment: the resulting depth, or
none if the segment dips below the starting level. -/
def walk : List Bool → Nat → Option Nat
  | [], d => some d
  | true :: r, d => walk r (d + 1)
  | false :: r, d =>
    match d with
    | 0 => none
    | d + 1 => walk r d

/-- The positions (starting at offset p) of the labels in T that the
registry resolves to id i: the ghost description of one per-id usage
vector. -/
def posOfAux (lookup : List NodeInfo) (i : Nat) : List NodeInfo → Nat → List Nat
  | [], _ => []
  | info :: rest, p =>
    (if idOf lookup info = i then [p] else []) ++ posOfAux lookup i rest (p + 1)

/-- The id-i positions of the whole label trace. -/
def posOf (T lookup : List NodeInfo) (i : Nat) : List Nat :=
  posOfAux lookup i T 0

/-- The builder-state invariant relative to the trace T of node infos
appended so far: the parentheses are the open/close tags of T, the
registry extends the twelve fixed entries without duplicates and covers
T, and each per-id usage vector holds exactly the positions of the
labels with that id. -/
structure BRep (b : Builder) (T : List NodeInfo) : Prop where
  parens : b.parens = T.map NodeInfo.is_open_tag
  lkPrefix : ∃ ext, b.lookup = initLookup ++ ext
  nodup : b.lookup.Nodup
  mem : ∀ info ∈ T, info ∈ b.lookup
  usage : ∀ i, b.usage.getD i [] = posOf T b.lookup i
  ulen : ∀ info ∈ T, idOf b.lookup info < b.usage.length

/-- The context the serialization proof reads off a built document:
parentheses, node types, kind ranks, and the three side stores, all as
functions of the label trace T and the traces S (strings), N (numbers),
BL (booleans). -/
structure DocCtx (doc : Document) (T : List NodeInfo) (S : List (List Byte))
    (N : List Float) (BL : List Bool) : Prop where
  parens : doc.parens = T.map NodeInfo.is_open_tag
  nt : ∀ (p : Nat) (hp : p < T.length),
    doc.node_type p = some ((T.get ⟨p, hp⟩).node_type)
  tid : ∀ p, p ≤ T.length → NodeInfo.openInfo NodeType.stringT ∈ T →
    doc.text_id p =
      some ((T.take p).countP (fun x => x == NodeInfo.openInfo NodeType.stringT))
  nid : ∀ p, p ≤ T.length → NodeInfo.openInfo NodeType.numberT ∈ T →
    doc.number_id p =
      some ((T.take p).countP (fun x => x == NodeInfo.openInfo NodeType.numberT))
  bid : ∀ p, p ≤ T.length → NodeInfo.openInfo NodeType.booleanT ∈ T →
    doc.boolean_id p =
      some ((T.take p).countP (fun x => x == NodeInfo.openInfo NodeType.booleanT))
  text : ∀ t, t < S.length → doc.text.lookup t = some (S.getD t [])
  numbers : doc.numbers = N
  booleans : doc.booleans = BL

/-- Where a field chain starts: none for no fields, else the given
position (the first field node). -/
def headPosF : JsonFields → Nat → Option Nat
  | JsonFields.nil, _ => none
  | JsonFields.cons _ _ _, p => some p

/-- Where an element chain starts. -/
def headPosE : JsonElems → Nat → Option Nat
  | JsonElems.nil, _ => none
  | JsonElems.cons _ _, p => some p

/-! ## Theorems -/

theorem getC_fst (c : LruCache) (k : Nat) (P : Slices → Prop)
    (h : ∀ e ∈ c.entries, e.1 = k → P e.2) :
    ∀ v, (c.getC k).1 = some v → P v := by
  intro v hv
  unfold LruCache.getC at hv
  cases hfind : c.entries.find? (fun e => e.1 == k) with
  | none => simp [hfind] at hv
  | some e =>
    simp only [hfind] at hv
    cases hv
    have hmem := List.mem_of_find?_eq_some hfind
    have hk : e.1 = k := by
      have := List.find?_some hfind
      simpa using this
    exact h e hmem hk

theorem getC_snd_entries (c : LruCache) (k : Nat) :
    ∀ e ∈ ((c.getC k).2).entries, e ∈ c.entries := by
  intro e he
  unfold LruCache.getC at he
  cases hfind : c.entries.find? (fun x => x.1 == k) with
  | none => simpa [hfind] using he
  | some x =>
    simp only [hfind] at he
    rcases List.mem_cons.mp he with he | he
    · subst he; exact List.mem_of_find?_eq_some hfind
    · exact List.mem_of_mem_eraseP he

theorem put_entries (c : LruCache) (k : Nat) (v : Slices) :
    ∀ e ∈ (c.put k v).entries, e = (k, v) ∨ e ∈ c.entries := by
  intro e he
  unfold LruCache.put at he
  have he2 := List.mem_of_mem_take he
  rcases List.mem_cons.mp he2 with he3 | he3
  · exact Or.inl he3
  · exact Or.inr (List.mem_of_mem_eraseP he3)

/-- On a coherent cache, get_string returns the pure slice lookup. -/
theorem get_string_fst_eq_lookup (u : TextUsage) (t : Nat) (h : u.CacheOK) :
    (u.get_string t).1 = u.lookup t := by
  cases htex : u.texts[t]? with
  | none => simp [TextUsage.get_string, TextUsage.lookup, htex]
  | some bid =>
    cases hblk : u.blocks[bid]? with
    | none => simp [TextUsage.get_string, TextUsage.lookup, htex, hblk]
    | some blk =>
      by_cases hc : u.cache_capacity > 0
      · cases hg : u.cache.getC bid with
        | mk fst snd =>
          cases fst with
          | none =>
            simp [TextUsage.get_string, TextUsage.lookup, htex, hblk, hc, hg]
          | some cached =>
            have hcc : cached = blk.block_slices := by
              refine getC_fst u.cache bid (fun v => v = blk.block_slices) ?_ cached ?_
              · intro e he hk
                rcases h e.1 e.2 he with ⟨blk2, hb2, hv2⟩
                rw [hk, hblk] at hb2
                cases hb2
                exact hv2
              · rw [hg]
            subst hcc
            simp [TextUsage.get_string, TextUsage.lookup, htex, hblk, hc, hg]
      · simp [TextUsage.get_string, TextUsage.lookup, htex, hblk, hc]

/-- get_string touches only the cache. -/
theorem get_string_frame (u : TextUsage) (t : Nat) :
    (u.get_string t).2.blocks = u.blocks ∧
    (u.get_string t).2.texts = u.texts ∧
    (u.get_string t).2.cache_capacity = u.cache_capacity := by
  cases htex : u.texts[t]? with
  | none => simp [TextUsage.get_string, htex]
  | some bid =>
    cases hblk : u.blocks[bid]? with
    | none => simp [TextUsage.get_string, htex, hblk]
    | some blk =>
      by_cases hc : u.cache_capacity > 0
      · cases hg : u.cache.getC bid with
        | mk fst snd =>
          cases fst with
          | none => simp [TextUsage.get_string, htex, hblk, hc, hg]
          | some cached => simp [TextUsage.get_string, htex, hblk, hc, hg]
      · simp [TextUsage.get_string, htex, hblk, hc]

/-- Cache coherence is preserved by get_string. -/
theorem get_string_cacheOK (u : TextUsage) (t : Nat) (h : u.CacheOK) :
    (u.get_string t).2.CacheOK := by
  cases htex : u.texts[t]? with
  | none => simpa [TextUsage.get_string, htex] using h
  | some bid =>
    cases hblk : u.blocks[bid]? with
    | none => simpa [TextUsage.get_string, htex, hblk] using h
    | some blk =>
      by_cases hc : u.cache_capacity > 0
      · cases hg : u.cache.getC bid with
        | mk fst snd =>
          have hsnd : ∀ e ∈ snd.entries, e ∈ u.cache.entries := by
            intro e he
            have h2 := getC_snd_entries u.cache bid e
            rw [hg] at h2
            exact h2 he
          cases fst with
          | none =>
            simp only [TextUsage.get_string, htex, hblk, hc, hg, if_true]
            intro k v hkv
            simp only at hkv
            rcases put_entries snd bid blk.block_slices (k, v) hkv with he | he
            · cases he
              exact ⟨blk, hblk, rfl⟩
            · exact h k v (hsnd _ he)
          | some cached =>
            simp only [TextUsage.get_string, htex, hblk, hc, hg, if_true]
            intro k v hkv
            simp only at hkv
            exact h k v (hsnd _ hkv)
      · simpa [TextUsage.get_string, htex, hblk, hc] using h

theorem lookup_eq_blocksLookup (u : TextUsage) (t : Nat) :
    u.lookup t = blocksLookup u.blocks u.texts t := rfl

theorem nextStart_append (data s : List Byte) (rest : List Nat) :
    nextStart (data ++ s ++ [0]) (rest ++ [data.length]) = nextStart data rest := by
  cases rest <;> simp [nextStart]

theorem drop_take_of_le (l₁ l₂ : List Byte) (a k : Nat) (h : a + k ≤ l₁.length) :
    ((l₁ ++ l₂).drop a).take k = (l₁.drop a).take k := by
  rw [List.drop_append_of_le_length (by omega)]
  rw [List.take_append_of_le_length (by simp [List.length_drop]; omega)]

/-- Appending one more string (its bytes, a sentinel, and its start
offset) to a block buffer decodes to the old strings followed by the new
one. -/
theorem decodeStarts_snoc (data s : List Byte) (starts : List Nat)
    (h : List.Chain' (· < ·) (starts ++ [data.length])) :
    decodeStarts (data ++ s ++ [0]) (starts ++ [data.length]) =
      decodeStarts data starts ++ [s] := by
  induction starts with
  | nil =>
    simp only [List.nil_append, decodeStarts, nextStart]
    have hd : (data ++ s ++ [0]).drop data.length = s ++ [0] := by
      rw [List.append_assoc, List.drop_left]
    have hl : (data ++ s ++ [0]).length - 1 - data.length = s.length := by
      simp [List.length_append]
    rw [hd, hl]
    simp [List.take_left]
  | cons a rest ih =>
    have hpw := List.chain'_iff_pairwise.mp h
    rcases List.pairwise_cons.mp hpw with ⟨hpw1, hpw2⟩
    simp only [List.cons_append, decodeStarts, List.append_eq] at *
    congr 1
    · rw [nextStart_append]
      have ha : a < nextStart data rest := by
        cases rest with
        | nil =>
          simp only [nextStart]
          simpa using hpw1 data.length (by simp)
        | cons r rs =>
          simp only [nextStart]
          exact hpw1 r (by simp)
      have hle : nextStart data rest ≤ data.length := by
        cases rest with
        | nil => simp [nextStart]
        | cons r rs =>
          simp only [nextStart]
          have hr : r < data.length :=
            (List.pairwise_cons.mp hpw2).1 data.length (by simp)
          omega
      rw [List.append_assoc]
      apply drop_take_of_le
      omega
    · exact ih (List.chain'_iff_pairwise.mpr hpw2)

theorem new_inv (bs cc : Nat) : BuilderInv (TextUsageBuilder.new bs cc) [] := by
  refine ⟨rfl, ?_, rfl, ?_, by simp [TextUsageBuilder.new]⟩
  · intro t ht; simp [TextUsageBuilder.new] at ht
  · simp [TextUsageBuilder.new]

theorem finalize_fields (b : TextUsageBuilder) :
    b.finalize_current_block.block_size = b.block_size ∧
    b.finalize_current_block.cache_capacity = b.cache_capacity := by
  unfold TextUsageBuilder.finalize_current_block
  split <;> exact ⟨rfl, rfl⟩

theorem blocksLookup_mono (blocks nb : List Block) (texts nt : List Nat)
    (t : Nat) (ht : t < texts.length) (v : List Byte)
    (h : blocksLookup blocks texts t = some v) :
    blocksLookup (blocks ++ nb) (texts ++ nt) t = some v := by
  unfold blocksLookup at *
  cases htex : texts[t]? with
  | none => rw [htex] at h; simp at h
  | some bid =>
    have htex2 : (texts ++ nt)[t]? = some bid := by
      simp [List.getElem?_append, ht, htex]
    rw [htex2]
    rw [htex] at h
    simp only [Option.bind_eq_bind, Option.some_bind] at h ⊢
    cases hblk : blocks[bid]? with
    | none => rw [hblk] at h; simp at h
    | some blk =>
      have hbid : bid < blocks.length := (List.getElem?_eq_some_iff.mp hblk).1
      have hblk2 : (blocks ++ nb)[bid]? = some blk := by
        simp [List.getElem?_append, hbid, hblk]
      rw [hblk2]
      rw [hblk] at h
      exact h

theorem finalize_inv (b : TextUsageBuilder) (ss : List (List Byte))
    (h : BuilderInv b ss) :
    BuilderInv b.finalize_current_block ss ∧
      b.finalize_current_block.texts.length = ss.length := by
  by_cases hs : b.current_block_starts = []
  · have hb : b.current_block_buffer = [] := h.empties.mpr hs
    have hlen : b.texts.length = ss.length := by
      have := h.count
      rw [hs] at this
      simpa using this
    unfold TextUsageBuilder.finalize_current_block
    rw [if_pos hs]
    exact ⟨h, hlen⟩
  · unfold TextUsageBuilder.finalize_current_block
    rw [if_neg hs]
    have hlen : b.texts.length + b.current_block_starts.length = ss.length := h.count
    refine ⟨⟨?_, ?_, ?_, ?_, ?_⟩, ?_⟩
    · dsimp only
      simp [hlen]
    · dsimp only
      intro t ht
      simp only [List.length_append, List.length_replicate] at ht
      by_cases htl : t < b.texts.length
      · exact blocksLookup_mono _ _ _ _ t htl _ (h.fin t htl)
      · push_neg at htl
        unfold blocksLookup
        rw [List.getElem?_append_right htl]
        have hti : t - b.texts.length < b.current_block_starts.length := by omega
        rw [List.getElem?_replicate]
        rw [if_pos hti]
        simp only [Option.bind_eq_bind, Option.some_bind]
        rw [List.getElem?_append_right (le_refl _)]
        simp only [Nat.sub_self, List.getElem?_cons_zero, Option.some_bind]
        have hsl : b.pendingBlock.block_slices = ss.drop b.texts.length := by
          unfold Block.block_slices TextUsageBuilder.pendingBlock
          exact h.pending
        rw [hsl]
        rw [List.getElem?_drop]
        simp only [TextUsageBuilder.pendingBlock]
        have hidx : b.texts.length + (t - b.texts.length) = t := by omega
        rw [hidx]
        have htss : t < ss.length := by omega
        simp [List.getD_eq_getElem?_getD, List.getElem?_eq_getElem htss]
    · dsimp only
      simp [hlen, decodeStarts]
    · dsimp only
      simp
    · dsimp only
      simp
    · dsimp only
      simp [hlen]

theorem add_string_fields (b : TextUsageBuilder) (s : List Byte) :
    (b.add_string s).1.block_size = b.block_size ∧
    (b.add_string s).1.cache_capacity = b.cache_capacity := by
  unfold TextUsageBuilder.add_string
  have hf := finalize_fields b
  by_cases hg : b.current_block_buffer.length + s.length > b.block_size ∧
      b.current_block_buffer ≠ []
  · rw [if_pos hg]
    exact ⟨hf.1, hf.2⟩
  · rw [if_neg hg]
    exact ⟨rfl, rfl⟩

/-- The common tail of add_string (after the optional finalize)
preserves the invariant, extending the string list by `s`. -/
theorem append_step_inv (b : TextUsageBuilder) (ss : List (List Byte))
    (s : List Byte) (h : BuilderInv b ss) :
    BuilderInv
      { b with
        current_block_buffer := b.current_block_buffer ++ s ++ [0],
        current_block_starts :=
          b.current_block_starts ++ [b.current_block_buffer.length] }
      (ss ++ [s]) := by
  refine ⟨?_, ?_, ?_, ?_, ?_⟩
  · dsimp only
    have := h.count
    simp only [List.length_append, List.length_cons, List.length_nil]
    omega
  · dsimp only
    intro t ht
    have hss : t < ss.length := by
      have := h.count
      omega
    have hold := h.fin t ht
    have : (ss ++ [s]).getD t [] = ss.getD t [] := by
      simp [List.getD_eq_getElem?_getD, List.getElem?_append, hss]
    rw [this]
    exact hold
  · dsimp only
    rw [decodeStarts_snoc _ _ _ h.chain]
    rw [h.pending]
    rw [List.drop_append_of_le_length]
    have := h.count
    omega
  · dsimp only
    have hch := h.chain
    rw [List.append_assoc]
    rw [List.chain'_append]
    refine ⟨(List.chain'_append.mp hch).1, ?_, ?_⟩
    · simp only [List.length_append, List.length_cons, List.length_nil]
      constructor
      · omega
      · simp
    · intro x hx y hy
      have h2 := (List.chain'_append.mp hch).2.2
      have hy2 : y = b.current_block_buffer.length := by
        simpa using hy.symm
      subst hy2
      exact h2 x hx b.current_block_buffer.length (by simp)
  · dsimp only
    constructor
    · intro hcb
      exact absurd hcb (by simp)
    · intro hcs
      exact absurd hcs (by simp)

theorem add_string_inv (b : TextUsageBuilder) (ss : List (List Byte))
    (s : List Byte) (h : BuilderInv b ss) :
    BuilderInv (b.add_string s).1 (ss ++ [s]) ∧ (b.add_string s).2 = ss.length := by
  unfold TextUsageBuilder.add_string
  by_cases hg : b.current_block_buffer.length + s.length > b.block_size ∧
      b.current_block_buffer ≠ []
  · rw [if_pos hg]
    have hfin := finalize_inv b ss h
    constructor
    · exact append_step_inv _ ss s hfin.1
    · simpa using h.count
  · rw [if_neg hg]
    constructor
    · exact append_step_inv b ss s h
    · simpa using h.count

theorem addAll_inv (ss : List (List Byte)) :
    ∀ (b : TextUsageBuilder) (acc : List (List Byte)), BuilderInv b acc →
      BuilderInv (b.addAll ss) (acc ++ ss) := by
  induction ss with
  | nil => intro b acc h; simpa [TextUsageBuilder.addAll] using h
  | cons s rest ih =>
    intro b acc h
    have h1 := (add_string_inv b acc s h).1
    have h2 := ih (b.add_string s).1 (acc ++ [s]) h1
    simpa [TextUsageBuilder.addAll, List.append_assoc] using h2

/-- The storage built by adding the strings `ss` retrieves every one of
them through the pure slice lookup, and stores exactly `ss.length`
strings. -/
theorem build_lookup (bs cc : Nat) (ss : List (List Byte)) :
    (((TextUsageBuilder.new bs cc).addAll ss).build.texts.length = ss.length) ∧
    ∀ t, t < ss.length →
      ((TextUsageBuilder.new bs cc).addAll ss).build.lookup t =
        some (ss.getD t []) := by
  have hinv : BuilderInv ((TextUsageBuilder.new bs cc).addAll ss) ss := by
    simpa using addAll_inv ss (TextUsageBuilder.new bs cc) [] (new_inv bs cc)
  have hfin := finalize_inv _ ss hinv
  unfold TextUsageBuilder.build
  constructor
  · simpa [TextUsage.new] using hfin.2
  · intro t ht
    rw [lookup_eq_blocksLookup]
    have := hfin.1.fin t (by rw [hfin.2]; exact ht)
    simpa [TextUsage.new] using this

theorem build_cacheOK (b : TextUsageBuilder) : b.build.CacheOK := by
  intro k v hkv
  simp [TextUsageBuilder.build, TextUsage.new] at hkv

theorem build_cache_capacity (b : TextUsageBuilder) :
    b.build.cache_capacity = b.cache_capacity ∧
    b.build.cache.capacity = max b.cache_capacity 1 ∧
    b.build.cache.entries = [] := by
  simp only [TextUsageBuilder.build, TextUsage.new]
  rw [(finalize_fields b).2]
  exact ⟨rfl, rfl, trivial⟩

/-- C2 claim theorem.  For every sequence of add_string calls (any
block_size, any cache_capacity, strings may be empty) and every text id
below the number of strings added, get_string on the built TextUsage
returns exactly the bytes of that string, wherever the block boundaries
fell; moreover exactly that many strings are stored. -/
theorem text_store_get_string_roundtrip (bs cc : Nat) (ss : List (List Byte))
    (t : Nat) (ht : t < ss.length) :
    (((TextUsageBuilder.new bs cc).addAll ss).build.get_string t).1 =
      some (ss.getD t []) ∧
    ((TextUsageBuilder.new bs cc).addAll ss).build.texts.length = ss.length := by
  have hb := build_lookup bs cc ss
  constructor
  · rw [get_string_fst_eq_lookup _ _ (build_cacheOK _)]
    exact hb.2 t ht
  · exact hb.1

theorem text_store_get_string_roundtrip_witness :
    (2 < 3 ∧
      ((((TextUsageBuilder.new 3 0).addAll [[1, 2], [], [7, 0, 9]]).build.get_string
        2).1 = some [7, 0, 9])) :=
  ⟨by decide,
   (text_store_get_string_roundtrip 3 0 [[1, 2], [], [7, 0, 9]] 2 (by decide)).1⟩

theorem decodeStarts_single (s : List Byte) :
    decodeStarts (s ++ [0]) [0] = [s] := by
  simp only [decodeStarts, nextStart, List.drop_zero, Nat.sub_zero,
    List.length_append, List.length_cons, List.length_nil]
  rw [Nat.add_sub_cancel]
  rw [List.take_left]

/-- C3 claim theorem.  In add_string the current block is finalized
before appending the string s exactly when
`current_block_buffer.length + s.length > block_size` and the buffer is
non-empty; a single string longer than block_size still gets a block of
its own (whatever is added next seals that block around exactly s); and
with block_size = 0 every non-empty add starts a fresh block holding
just s.  The hypothesis is the builder well-formedness that the pending
buffer and its starts are empty together (true in every reachable
state). -/
theorem add_string_finalize_guard (b : TextUsageBuilder) (s : List Byte)
    (hwf : b.current_block_buffer = [] ↔ b.current_block_starts = []) :
    ((b.add_string s).1.blocks =
      if b.current_block_buffer.length + s.length > b.block_size ∧
          b.current_block_buffer ≠ [] then
        b.blocks ++ [b.pendingBlock]
      else b.blocks) ∧
    (b.current_block_buffer = [] → s.length > b.block_size →
      (b.add_string s).1.blocks = b.blocks ∧
      (b.add_string s).1.pendingBlock.block_slices = [s] ∧
      ∀ t2 : List Byte,
        ((b.add_string s).1.add_string t2).1.blocks =
          b.blocks ++ [(b.add_string s).1.pendingBlock]) ∧
    (b.block_size = 0 → s ≠ [] →
      decodeStarts (b.add_string s).1.current_block_buffer
        (b.add_string s).1.current_block_starts = [s]) := by
  refine ⟨?_, ?_, ?_⟩
  · by_cases hg : b.current_block_buffer.length + s.length > b.block_size ∧
        b.current_block_buffer ≠ []
    · rw [if_pos hg]
      simp only [TextUsageBuilder.add_string]
      rw [if_pos hg]
      have hs : ¬ b.current_block_starts = [] := fun hcs => hg.2 (hwf.mpr hcs)
      simp only [TextUsageBuilder.finalize_current_block]
      rw [if_neg hs]
    · rw [if_neg hg]
      simp only [TextUsageBuilder.add_string]
      rw [if_neg hg]
  · intro hbe hlong
    have hg : ¬ (b.current_block_buffer.length + s.length > b.block_size ∧
        b.current_block_buffer ≠ []) := by
      intro hg
      exact hg.2 hbe
    have hse : b.current_block_starts = [] := hwf.mp hbe
    have hadd : (b.add_string s).1.current_block_buffer = s ++ [0] ∧
        (b.add_string s).1.current_block_starts = [0] ∧
        (b.add_string s).1.blocks = b.blocks ∧
        (b.add_string s).1.texts = b.texts ∧
        (b.add_string s).1.block_size = b.block_size := by
      simp only [TextUsageBuilder.add_string]
      rw [if_neg hg]
      simp [hbe, hse]
    refine ⟨hadd.2.2.1, ?_, ?_⟩
    · unfold Block.block_slices TextUsageBuilder.pendingBlock
      rw [hadd.1, hadd.2.1]
      exact decodeStarts_single s
    · intro t2
      set b1 := (b.add_string s).1 with hb1
      have hg2 : (b1.current_block_buffer.length + t2.length > b1.block_size ∧
          b1.current_block_buffer ≠ []) := by
        rw [hadd.1, hadd.2.2.2.2]
        constructor
        · simp only [List.length_append, List.length_cons, List.length_nil]
          omega
        · simp
      show (b1.add_string t2).1.blocks = b.blocks ++ [b1.pendingBlock]
      simp only [TextUsageBuilder.add_string]
      rw [if_pos hg2]
      have hs2 : ¬ b1.current_block_starts = [] := by
        rw [hadd.2.1]
        simp
      simp only [TextUsageBuilder.finalize_current_block]
      rw [if_neg hs2]
      rw [hadd.2.2.1]
  · intro h0 _
    by_cases hg : b.current_block_buffer.length + s.length > b.block_size ∧
        b.current_block_buffer ≠ []
    · simp only [TextUsageBuilder.add_string]
      rw [if_pos hg]
      have hs : ¬ b.current_block_starts = [] := fun hcs => hg.2 (hwf.mpr hcs)
      simp only [TextUsageBuilder.finalize_current_block]
      rw [if_neg hs]
      dsimp only
      exact decodeStarts_single s
    · have hbe : b.current_block_buffer = [] := by
        rcases Decidable.not_and_iff_or_not.mp hg with hg1 | hg2
        · by_contra hne
          apply hg1
          have : 0 < b.current_block_buffer.length := List.length_pos.mpr hne
          omega
        · exact Decidable.not_not.mp hg2
      simp only [TextUsageBuilder.add_string]
      rw [if_neg hg]
      rw [hbe, hwf.mp hbe]
      simpa using decodeStarts_single s

theorem add_string_finalize_guard_witness :
    (([] : List Byte) = [] ↔ ([] : List Nat) = []) ∧
    ((TextUsageBuilder.new 2 1).add_string [9, 9, 9]).1.blocks =
      (TextUsageBuilder.new 2 1).blocks := by
  refine ⟨by simp, ?_⟩
  exact ((add_string_finalize_guard (TextUsageBuilder.new 2 1) [9, 9, 9]
    (by simp [TextUsageBuilder.new])).2.1 (by simp [TextUsageBuilder.new])
    (by simp [TextUsageBuilder.new])).1

/-- get_string with caching disabled: the state is untouched and the
value is the pure slice lookup (the block is decompressed afresh). -/
theorem get_string_nocache (u : TextUsage) (t : Nat) (h0 : u.cache_capacity = 0) :
    (u.get_string t).2 = u ∧ (u.get_string t).1 = u.lookup t := by
  cases htex : u.texts[t]? with
  | none => simp [TextUsage.get_string, TextUsage.lookup, htex]
  | some bid =>
    cases hblk : u.blocks[bid]? with
    | none => simp [TextUsage.get_string, TextUsage.lookup, htex, hblk]
    | some blk =>
      simp [TextUsage.get_string, TextUsage.lookup, htex, hblk, h0]

theorem applyGets_nocache (u : TextUsage) (ts : List Nat)
    (h0 : u.cache_capacity = 0) : applyGets u ts = u := by
  induction ts with
  | nil => rfl
  | cons t rest ih =>
    have h1 := (get_string_nocache u t h0).1
    show applyGets (u.get_string t).2 rest = u
    rw [h1, ih]

/-- C6 claim theorem.  When the store is built with cache_capacity 0, no
get_string call makes any block resident: the state after any sequence
of get_string calls is unchanged, the reported cache size stays 0, and
each call returns the freshly decompressed slice; internally the LRU
cache instance still exists with capacity max(cache_capacity, 1) = 1. -/
theorem cache_capacity_zero_no_residency (b : TextUsageBuilder) (t : Nat)
    (ts : List Nat) (h0 : b.cache_capacity = 0) :
    (b.build.get_string t).2 = b.build ∧
    (b.build.get_string t).1 = b.build.lookup t ∧
    applyGets b.build ts = b.build ∧
    b.build.stats_cache_size = 0 ∧
    b.build.cache.capacity = max b.cache_capacity 1 := by
  have hcc : b.build.cache_capacity = 0 := by
    rw [(build_cache_capacity b).1, h0]
  refine ⟨(get_string_nocache _ t hcc).1, (get_string_nocache _ t hcc).2,
    applyGets_nocache _ ts hcc, ?_, (build_cache_capacity b).2.1⟩
  unfold TextUsage.stats_cache_size
  rw [if_pos hcc]

theorem cache_capacity_zero_no_residency_witness :
    (TextUsageBuilder.new 4 0).cache_capacity = 0 ∧
    (((TextUsageBuilder.new 4 0).addAll [[1, 2, 3], [4, 5, 6]]).build.get_string
      1).2 = ((TextUsageBuilder.new 4 0).addAll [[1, 2, 3], [4, 5, 6]]).build := by
  refine ⟨by decide, ?_⟩
  exact (cache_capacity_zero_no_residency
    ((TextUsageBuilder.new 4 0).addAll [[1, 2, 3], [4, 5, 6]]) 1 []
    (by decide)).1

/-- C9 claim theorem.  On a built store holding `ss.length` strings,
get_string with an id at or past the end reaches the expect "TextId
should exist" branch (modeled `none`, the only failure channel of the
non-fallible signature), and with an id in range no panicking branch is
reachable: the call returns a value. -/
theorem get_string_out_of_range_panics (bs cc : Nat) (ss : List (List Byte))
    (t : Nat) :
    (ss.length ≤ t →
      (((TextUsageBuilder.new bs cc).addAll ss).build.get_string t).1 = none) ∧
    (t < ss.length →
      (((TextUsageBuilder.new bs cc).addAll ss).build.get_string t).1.isSome) := by
  have hb := build_lookup bs cc ss
  constructor
  · intro hge
    have htex : ((TextUsageBuilder.new bs cc).addAll ss).build.texts[t]? = none := by
      rw [List.getElem?_eq_none_iff]
      rw [hb.1]
      exact hge
    simp [TextUsage.get_string, htex]
  · intro hlt
    rw [get_string_fst_eq_lookup _ _ (build_cacheOK _)]
    rw [hb.2 t hlt]
    rfl

theorem get_string_out_of_range_panics_witness :
    ((((TextUsageBuilder.new 1 1).addAll [[5]]).build.get_string 1).1 = none) ∧
    ((((TextUsageBuilder.new 1 1).addAll [[5]]).build.get_string 0).1.isSome) :=
  ⟨(get_string_out_of_range_panics 1 1 [[5]] 1).1 (by decide),
   (get_string_out_of_range_panics 1 1 [[5]] 0).2 (by decide)⟩

/-- In a strictly sorted list, the number of entries below the entry at
index r is exactly r. -/
theorem countP_lt_getElem (l : List Nat) (hs : List.Pairwise (· < ·) l) :
    ∀ r, (hr : r < l.length) → l.countP (fun p => decide (p < l[r])) = r := by
  induction l with
  | nil => intro r hr; simp at hr
  | cons a t ih =>
    rcases List.pairwise_cons.mp hs with ⟨ha, ht⟩
    intro r hr
    cases r with
    | zero =>
      rw [List.countP_cons]
      simp only [List.getElem_cons_zero, decide_eq_true_eq]
      rw [if_neg (by omega)]
      rw [List.countP_eq_zero.mpr]
      intro x hx
      have := ha x hx
      simp only [decide_eq_true_eq]
      omega
    | succ r =>
      have hrt : r < t.length := by simpa using hr
      rw [List.countP_cons]
      simp only [List.getElem_cons_succ]
      rw [ih ht r hrt]
      rw [if_pos (by simp only [decide_eq_true_eq]; exact ha _ (List.getElem_mem hrt))]

theorem getD_vec (u : EliasFanoUsageIndex) (k : Nat)
    (hk : k < u.sparse_rs_vecs.length) :
    u.sparse_rs_vecs.getD k ⟨[], u.len⟩ = u.sparse_rs_vecs[k] :=
  List.getD_eq_getElem _ _ hk

/-- C5 amended claim theorem.  On every well-formed usage index and
registered kind k: rank(select(r, k), k) = r whenever select(r, k) is
defined; and for every position i of kind k,
select(rank(i, k) - 1, k) is defined and at most i (the subtrahend is
the bracket [i-is-of-k] of the claim, which equals one on such i;
subtraction is truncated). -/
theorem usage_rank_select_laws (u : EliasFanoUsageIndex) (hwf : u.WF)
    (k : Nat) (hk : k < u.sparse_rs_vecs.length) :
    (∀ r p, u.select r k = some p → u.rank p k = some r) ∧
    (∀ i, i ∈ (u.sparse_rs_vecs.getD k ⟨[], u.len⟩).positions →
      ∃ p, u.select ((u.rank i k).getD 0 - 1) k = some p ∧ p ≤ i) := by
  have hv := getD_vec u k hk
  rcases hwf u.sparse_rs_vecs[k] (List.getElem_mem hk) with ⟨⟨hsort, hbound⟩, hlen⟩
  constructor
  · intro r p hsel
    unfold EliasFanoUsageIndex.select at hsel
    by_cases hne : u.len ≠ (u.sparse_rs_vecs.getD k ⟨[], u.len⟩).select1 r
    · rw [if_pos hne] at hsel
      cases hsel
      rw [hv] at hne ⊢
      unfold SparseRSVec.select1 at hne ⊢
      by_cases hr : r < u.sparse_rs_vecs[k].positions.length
      · rw [List.getD_eq_getElem _ _ hr] at hne ⊢
        have hpk : u.sparse_rs_vecs[k].positions[r] < u.len := by
          rw [← hlen]
          exact hbound _ (List.getElem_mem hr)
        unfold EliasFanoUsageIndex.rank
        rw [if_pos (by omega)]
        rw [hv]
        unfold SparseRSVec.rank1
        rw [countP_lt_getElem _ hsort r hr]
      · exfalso
        apply hne
        rw [List.getD_eq_default _ _ (by omega)]
        exact hlen.symm
    · rw [if_neg hne] at hsel
      cases hsel
  · intro i hi
    rw [hv] at hi
    rcases List.getElem_of_mem hi with ⟨ri, hri, hgi⟩
    have hiu : i < u.len := by
      rw [← hlen]
      exact hbound i hi
    have hrank : u.rank i k = some ri := by
      unfold EliasFanoUsageIndex.rank
      rw [if_pos (by omega)]
      rw [hv]
      unfold SparseRSVec.rank1
      rw [← hgi]
      rw [countP_lt_getElem _ hsort ri hri]
    rw [hrank]
    simp only [Option.getD_some]
    cases ri with
    | zero =>
      refine ⟨i, ?_, le_refl i⟩
      unfold EliasFanoUsageIndex.select
      rw [hv]
      unfold SparseRSVec.select1
      simp only [Nat.zero_sub]
      rw [List.getD_eq_getElem _ _ hri, hgi]
      rw [if_pos (by omega)]
    | succ m =>
      have hm : m < u.sparse_rs_vecs[k].positions.length := by omega
      have hlt : u.sparse_rs_vecs[k].positions[m] < i := by
        rw [← hgi]
        exact List.pairwise_iff_getElem.mp hsort m (m + 1) hm hri (by omega)
      have hpu : u.sparse_rs_vecs[k].positions[m] < u.len := by
        rw [← hlen]
        exact hbound _ (List.getElem_mem hm)
      refine ⟨u.sparse_rs_vecs[k].positions[m], ?_, le_of_lt hlt⟩
      unfold EliasFanoUsageIndex.select
      rw [hv]
      unfold SparseRSVec.select1
      simp only [Nat.succ_sub_one]
      rw [List.getD_eq_getElem _ _ hm]
      rw [if_pos (by omega)]

theorem c5exIndex_wf : c5exIndex.WF := by
  intro v hv
  simp only [c5exIndex, List.mem_singleton] at hv
  subst hv
  refine ⟨⟨?_, ?_⟩, rfl⟩
  · simp
  · intro p hp
    simp only [List.mem_singleton] at hp
    subst hp
    decide

theorem usage_rank_select_laws_witness :
    c5exIndex.WF ∧ 0 < c5exIndex.sparse_rs_vecs.length ∧
    c5exIndex.rank 2 0 = some 0 ∧
    (∃ p, c5exIndex.select ((c5exIndex.rank 2 0).getD 0 - 1) 0 = some p ∧
      p ≤ 2) := by
  refine ⟨c5exIndex_wf, by decide, by decide, ?_⟩
  exact (usage_rank_select_laws c5exIndex c5exIndex_wf 0 (by decide)).2 2 (by decide)

/-- C5 counterexample.  The claim as stated also asserts
select(rank(i, k) - [i-is-of-k], k) ≤ i for positions i that are NOT of
kind k; at i = 0 on a well-formed index whose kind-0 positions are
exactly \x7b2\x7d (universe 4), rank(0,0) = 0, the bracket is 0, and
select(0, 0) = 2, which is not at most 0. -/
theorem usage_rank_select_claim_cex :
    c5exIndex.WF ∧ (0 : Nat) ≤ c5exIndex.len ∧
    (c5exIndex.sparse_rs_vecs.getD 0 ⟨[], c5exIndex.len⟩).is_set 0 =
      some false ∧
    c5exIndex.rank 0 0 = some 0 ∧
    c5exIndex.select (((c5exIndex.rank 0 0).getD 0) - 0) 0 = some 2 ∧
    ¬ ((2 : Nat) ≤ 0) := by
  exact ⟨c5exIndex_wf, by decide, by decide, by decide, by decide, by decide⟩

/-- C10 claim theorem.  PartialEq on Value compares the Object and
Array variants by document identity plus node index, so two such values
are equal exactly when they reference the same Document and node; in
particular structurally identical objects or arrays from two distinct
(separately parsed) Documents compare unequal. -/
theorem value_eq_by_document_identity (d e n m : Nat) :
    (PValue.eqv (PValue.objectV d n) (PValue.objectV e m) = true ↔
      (d = e ∧ n = m)) ∧
    (PValue.eqv (PValue.arrayV d n) (PValue.arrayV e m) = true ↔
      (d = e ∧ n = m)) ∧
    (d ≠ e →
      PValue.eqv (PValue.objectV d n) (PValue.objectV e n) = false ∧
      PValue.eqv (PValue.arrayV d n) (PValue.arrayV e n) = false) := by
  refine ⟨?_, ?_, ?_⟩
  · simp [PValue.eqv, and_comm]
  · simp [PValue.eqv, and_comm]
  · intro hne
    constructor
    · simp [PValue.eqv, hne]
    · simp [PValue.eqv, hne]

theorem value_eq_by_document_identity_witness :
    PValue.eqv (PValue.objectV 0 2) (PValue.objectV 1 2) = false ∧
    PValue.eqv (PValue.arrayV 0 2) (PValue.arrayV 1 2) = false :=
  (value_eq_by_document_identity 0 1 2 2).2.2 (by decide)

/-- C7 counterexample.  The order claimed by the specification (text
store finalized first, then the usage index materialized) is not the
statement order of Parser::parse. -/
theorem parse_finalize_order_claim_cex :
    parseFinalizeOrder ≠
      [FinalizeStep.finalizeTextStore, FinalizeStep.materializeUsageIndex,
       FinalizeStep.assembleDocument] := by decide

/-- C7 amended claim theorem.  After the event stream is consumed,
Parser::parse materializes the usage index first
(Structure::new, parser.rs line 104), then finalizes the text store
(text_builder.build(), line 106), then assembles the Document
(lines 107-112). -/
theorem parse_finalize_order_actual :
    parseFinalizeOrder =
      [FinalizeStep.materializeUsageIndex, FinalizeStep.finalizeTextStore,
       FinalizeStep.assembleDocument] := rfl

theorem walk_append (M R : List Bool) :
    ∀ d, walk (M ++ R) d = (walk M d).bind (walk R) := by
  induction M with
  | nil => intro d; simp [walk]
  | cons bit r ih =>
    intro d
    cases bit with
    | true => simpa [walk] using ih (d + 1)
    | false =>
      cases d with
      | zero => simp [walk]
      | succ d => simpa [walk] using ih d

theorem walk_mono (M : List Bool) :
    ∀ d e c, walk M d = some e → walk M (d + c) = some (e + c) := by
  induction M with
  | nil =>
    intro d e c h
    simp [walk] at h
    subst h
    simp [walk]
  | cons bit r ih =>
    intro d e c h
    cases bit with
    | true =>
      simp only [walk] at h ⊢
      have := ih (d + 1) e c h
      have harith : d + c + 1 = d + 1 + c := by omega
      rw [harith]
      exact this
    | false =>
      cases d with
      | zero => simp [walk] at h
      | succ d =>
        simp only [walk] at h ⊢
        have := ih d e c h
        have harith : d + 1 + c = (d + c) + 1 := by omega
        rw [harith]
        simpa [walk] using this

theorem findCloseGo_skip (M : List Bool) :
    ∀ R idx d e, walk M d = some e →
      findCloseGo (M ++ R) idx d = findCloseGo R (idx + M.length) e := by
  induction M with
  | nil =>
    intro R idx d e h
    simp [walk] at h
    subst h
    simp
  | cons bit r ih =>
    intro R idx d e h
    cases bit with
    | true =>
      simp only [walk] at h
      simp only [List.cons_append, findCloseGo, if_true, List.append_eq]
      rw [ih R (idx + 1) (d + 1) e h]
      congr 1
      simp
      omega
    | false =>
      cases d with
      | zero => simp [walk] at h
      | succ d =>
        simp only [walk] at h
        simp only [List.cons_append, findCloseGo, if_false, Bool.false_eq_true,
          List.append_eq]
        rw [ih R (idx + 1) d e h]
        congr 1
        simp
        omega

theorem findClose_at (A M B : List Bool) (hM : walk M 0 = some 0) :
    findClose (A ++ (true :: M ++ [false]) ++ B) A.length =
      some (A.length + M.length + 1) := by
  unfold findClose
  have hshape : A ++ (true :: M ++ [false]) ++ B =
      (A ++ [true]) ++ (M ++ (false :: B)) := by
    simp
  rw [hshape]
  have hlen : A.length + 1 = (A ++ [true]).length := by simp
  rw [hlen, List.drop_left]
  rw [findCloseGo_skip M (false :: B) ((A ++ [true]).length) 0 0 hM]
  simp only [findCloseGo, if_false, Bool.false_eq_true]
  congr 1
  simp
  omega

mutual

theorem labels_walk (j : Json) :
    walk ((labelsOf j).map NodeInfo.is_open_tag) 0 = some 0 := by
  cases j with
  | obj fs =>
    simp only [labelsOf, List.map_cons, List.map_append, List.map_cons,
      List.map_nil, walk, List.append_eq]
    rw [walk_append]
    rw [walk_mono _ 0 0 1 (labelsFields_walk fs)]
    simp [walk]
  | arr es =>
    simp only [labelsOf, List.map_cons, List.map_append, List.map_cons,
      List.map_nil, walk, List.append_eq]
    rw [walk_append]
    rw [walk_mono _ 0 0 1 (labelsElems_walk es)]
    simp [walk]
  | str s => simp [labelsOf, walk, NodeInfo.openInfo, NodeInfo.closeInfo]
  | num x => simp [labelsOf, walk, NodeInfo.openInfo, NodeInfo.closeInfo]
  | bool b => simp [labelsOf, walk, NodeInfo.openInfo, NodeInfo.closeInfo]
  | null => simp [labelsOf, walk, NodeInfo.openInfo, NodeInfo.closeInfo]

theorem labelsFields_walk (fs : JsonFields) :
    walk ((labelsOfFields fs).map NodeInfo.is_open_tag) 0 = some 0 := by
  cases fs with
  | nil => simp [labelsOfFields, walk]
  | cons k v rest =>
    simp only [labelsOfFields, List.map_cons, List.map_append, walk,
      NodeInfo.openInfo, NodeInfo.closeInfo, List.append_eq]
    rw [walk_append]
    rw [walk_mono _ 0 0 1 (labels_walk v)]
    simpa [walk] using labelsFields_walk rest

theorem labelsElems_walk (es : JsonElems) :
    walk ((labelsOfElems es).map NodeInfo.is_open_tag) 0 = some 0 := by
  cases es with
  | nil => simp [labelsOfElems, walk]
  | cons v rest =>
    simp only [labelsOfElems, List.map_append, List.append_eq]
    rw [walk_append]
    rw [labels_walk v]
    simpa [walk] using labelsElems_walk rest

end

/-- Every subtree lays down an open bit, a balanced interior, and a
close bit. -/
theorem labels_shape (j : Json) :
    ∃ inner, (labelsOf j).map NodeInfo.is_open_tag = true :: inner ++ [false] ∧
      walk inner 0 = some 0 ∧ (labelsOf j).length = inner.length + 2 := by
  cases j with
  | obj fs =>
    refine ⟨(labelsOfFields fs).map NodeInfo.is_open_tag, ?_, labelsFields_walk fs, ?_⟩
    · simp [labelsOf, NodeInfo.openInfo, NodeInfo.closeInfo]
    · simp [labelsOf]
  | arr es =>
    refine ⟨(labelsOfElems es).map NodeInfo.is_open_tag, ?_, labelsElems_walk es, ?_⟩
    · simp [labelsOf, NodeInfo.openInfo, NodeInfo.closeInfo]
    · simp [labelsOf]
  | str s => exact ⟨[], by simp [labelsOf, NodeInfo.openInfo, NodeInfo.closeInfo], by simp [walk], by simp [labelsOf]⟩
  | num x => exact ⟨[], by simp [labelsOf, NodeInfo.openInfo, NodeInfo.closeInfo], by simp [walk], by simp [labelsOf]⟩
  | bool b => exact ⟨[], by simp [labelsOf, NodeInfo.openInfo, NodeInfo.closeInfo], by simp [walk], by simp [labelsOf]⟩
  | null => exact ⟨[], by simp [labelsOf, NodeInfo.openInfo, NodeInfo.closeInfo], by simp [walk], by simp [labelsOf]⟩

theorem eventsOf_length_pos (j : Json) : 1 ≤ (eventsOf j).length := by
  cases j <;> simp [eventsOf]

theorem parseElems_cons_step (fuel : Nat) (j : Json) (L : List JsonEvent)
    (b : Builder) :
    parseElems (fuel + 1) (eventsOf j ++ L) b =
      match parseItem fuel (eventsOf j ++ L) b with
      | some (b1, r1) => parseElems fuel r1 b1
      | none => none := by
  cases j <;> rfl

mutual

theorem parse_sound (j : Json) :
    ∀ fuel b rest, (eventsOf j).length < fuel →
      parseItem fuel (eventsOf j ++ rest) b = some (applyJson j b, rest) := by
  cases j with
  | obj fs =>
    intro fuel b rest h
    cases fuel with
    | zero => simp [eventsOf] at h
    | succ f =>
      have harr : eventsOf (Json.obj fs) ++ rest =
          JsonEvent.beginObject :: (eventsOfFields fs ++ JsonEvent.endObject :: rest) := by
        simp [eventsOf]
      rw [harr]
      simp only [parseItem]
      rw [parse_sound_fields fs f (b.openNode NodeType.objectT) rest
        (by simp [eventsOf] at h; omega)]
      rfl
  | arr es =>
    intro fuel b rest h
    cases fuel with
    | zero => simp [eventsOf] at h
    | succ f =>
      have harr : eventsOf (Json.arr es) ++ rest =
          JsonEvent.beginArray :: (eventsOfElems es ++ JsonEvent.endArray :: rest) := by
        simp [eventsOf]
      rw [harr]
      simp only [parseItem]
      rw [parse_sound_elems es f (b.openNode NodeType.arrayT) rest
        (by simp [eventsOf] at h; omega)]
      rfl
  | str s =>
    intro fuel b rest h
    cases fuel with
    | zero => simp [eventsOf] at h
    | succ f => rfl
  | num x =>
    intro fuel b rest h
    cases fuel with
    | zero => simp [eventsOf] at h
    | succ f => rfl
  | bool v =>
    intro fuel b rest h
    cases fuel with
    | zero => simp [eventsOf] at h
    | succ f => rfl
  | null =>
    intro fuel b rest h
    cases fuel with
    | zero => simp [eventsOf] at h
    | succ f => rfl

theorem parse_sound_fields (fs : JsonFields) :
    ∀ fuel b rest, (eventsOfFields fs).length + 1 < fuel →
      parseFields fuel (eventsOfFields fs ++ JsonEvent.endObject :: rest) b =
        some (applyFields fs b, rest) := by
  cases fs with
  | nil =>
    intro fuel b rest h
    cases fuel with
    | zero => simp at h
    | succ f => rfl
  | cons k v fr =>
    intro fuel b rest h
    cases fuel with
    | zero => simp at h
    | succ f =>
      have hv1 : 1 ≤ (eventsOf v).length := eventsOf_length_pos v
      have hlen : (eventsOfFields (JsonFields.cons k v fr)).length =
          1 + (eventsOf v).length + (eventsOfFields fr).length := by
        simp [eventsOfFields]
        omega
      rw [hlen] at h
      have hshape : eventsOfFields (JsonFields.cons k v fr) ++
          JsonEvent.endObject :: rest =
          JsonEvent.nameE k :: (eventsOf v ++
            (eventsOfFields fr ++ JsonEvent.endObject :: rest)) := by
        simp [eventsOfFields]
      rw [hshape]
      simp only [parseFields]
      rw [parse_sound v f (b.openField k).1
        (eventsOfFields fr ++ JsonEvent.endObject :: rest) (by omega)]
      show parseFields f (eventsOfFields fr ++ JsonEvent.endObject :: rest)
          ((applyJson v (b.openField k).1).closeField (b.openField k).2) =
        some (applyFields (JsonFields.cons k v fr) b, rest)
      exact parse_sound_fields fr f _ rest (by omega)

theorem parse_sound_elems (es : JsonElems) :
    ∀ fuel b rest, (eventsOfElems es).length + 1 < fuel →
      parseElems fuel (eventsOfElems es ++ JsonEvent.endArray :: rest) b =
        some (applyElems es b, rest) := by
  cases es with
  | nil =>
    intro fuel b rest h
    cases fuel with
    | zero => simp at h
    | succ f => rfl
  | cons v er =>
    intro fuel b rest h
    cases fuel with
    | zero => simp at h
    | succ f =>
      have hv1 : 1 ≤ (eventsOf v).length := eventsOf_length_pos v
      have hlen : (eventsOfElems (JsonElems.cons v er)).length =
          (eventsOf v).length + (eventsOfElems er).length := by
        simp [eventsOfElems]
      rw [hlen] at h
      have hshape : eventsOfElems (JsonElems.cons v er) ++
          JsonEvent.endArray :: rest =
          eventsOf v ++ (eventsOfElems er ++ JsonEvent.endArray :: rest) := by
        simp [eventsOfElems]
      rw [hshape]
      rw [parseElems_cons_step f v _ b]
      rw [parse_sound v f b (eventsOfElems er ++ JsonEvent.endArray :: rest)
        (by omega)]
      exact parse_sound_elems er f (applyJson v b) rest (by omega)

end

theorem parseItem_nil (f : Nat) (b : Builder) : parseItem f [] b = none := by
  cases f <;> rfl

/-- Inversion of a successful parse: the consumed events are the
canonical stream of a tree, and the builder is its fold. -/
theorem parse_complete (fuel : Nat) :
    (∀ es b b1 rest, parseItem fuel es b = some (b1, rest) →
      ∃ j, es = eventsOf j ++ rest ∧ b1 = applyJson j b) ∧
    (∀ es b b1 rest, parseElems fuel es b = some (b1, rest) →
      ∃ els, es = eventsOfElems els ++ JsonEvent.endArray :: rest ∧
        b1 = applyElems els b) ∧
    (∀ es b b1 rest, parseFields fuel es b = some (b1, rest) →
      ∃ fls, es = eventsOfFields fls ++ JsonEvent.endObject :: rest ∧
        b1 = applyFields fls b) := by
  induction fuel with
  | zero =>
    refine ⟨?_, ?_, ?_⟩ <;>
      (intro es b b1 rest h; simp [parseItem, parseElems, parseFields] at h)
  | succ f ih =>
    obtain ⟨ihI, ihE, ihF⟩ := ih
    refine ⟨?_, ?_, ?_⟩
    · intro es b b1 rest h
      rcases es with _ | ⟨e, r⟩
      · simp [parseItem] at h
      · cases e with
        | beginArray =>
          simp only [parseItem] at h
          cases hpe : parseElems f r (b.openNode NodeType.arrayT) with
          | none => rw [hpe] at h; simp at h
          | some pr =>
            obtain ⟨b2, r2⟩ := pr
            rw [hpe] at h
            simp only [Option.some.injEq, Prod.mk.injEq] at h
            obtain ⟨hb1, hrest⟩ := h
            rcases ihE r _ b2 r2 hpe with ⟨els, hr, hb2⟩
            refine ⟨Json.arr els, ?_, ?_⟩
            · rw [hr, ← hrest]
              simp [eventsOf]
            · rw [← hb1, hb2]
              rfl
        | beginObject =>
          simp only [parseItem] at h
          cases hpe : parseFields f r (b.openNode NodeType.objectT) with
          | none => rw [hpe] at h; simp at h
          | some pr =>
            obtain ⟨b2, r2⟩ := pr
            rw [hpe] at h
            simp only [Option.some.injEq, Prod.mk.injEq] at h
            obtain ⟨hb1, hrest⟩ := h
            rcases ihF r _ b2 r2 hpe with ⟨fls, hr, hb2⟩
            refine ⟨Json.obj fls, ?_, ?_⟩
            · rw [hr, ← hrest]
              simp [eventsOf]
            · rw [← hb1, hb2]
              rfl
        | stringE s =>
          simp only [parseItem, Option.some.injEq, Prod.mk.injEq] at h
          exact ⟨Json.str s, by simp [eventsOf, h.2], by rw [← h.1]; rfl⟩
        | numberE x =>
          simp only [parseItem, Option.some.injEq, Prod.mk.injEq] at h
          exact ⟨Json.num x, by simp [eventsOf, h.2], by rw [← h.1]; rfl⟩
        | booleanE v =>
          simp only [parseItem, Option.some.injEq, Prod.mk.injEq] at h
          exact ⟨Json.bool v, by simp [eventsOf, h.2], by rw [← h.1]; rfl⟩
        | nullE =>
          simp only [parseItem, Option.some.injEq, Prod.mk.injEq] at h
          exact ⟨Json.null, by simp [eventsOf, h.2], by rw [← h.1]; rfl⟩
        | endArray => simp [parseItem] at h
        | endObject => simp [parseItem] at h
        | nameE k => simp [parseItem] at h
    · intro es b b1 rest h
      by_cases hea : ∃ r', es = JsonEvent.endArray :: r'
      · rcases hea with ⟨r', rfl⟩
        simp only [parseElems, Option.some.injEq, Prod.mk.injEq] at h
        exact ⟨JsonElems.nil, by simp [eventsOfElems, h.2], by rw [h.1]; rfl⟩
      · have hstep : parseElems (f + 1) es b =
            (match parseItem f es b with
             | some (b2, r2) => parseElems f r2 b2
             | none => none) := by
          rcases es with _ | ⟨e, r⟩
          · rfl
          · cases e with
            | endArray => exact absurd ⟨r, rfl⟩ hea
            | beginArray => rfl
            | beginObject => rfl
            | endObject => rfl
            | nameE k => rfl
            | stringE s => rfl
            | numberE x => rfl
            | booleanE v => rfl
            | nullE => rfl
        rw [hstep] at h
        cases hpi : parseItem f es b with
        | none => rw [hpi] at h; simp at h
        | some pr =>
          obtain ⟨b2, r2⟩ := pr
          rw [hpi] at h
          rcases ihI es b b2 r2 hpi with ⟨j, hev, hb2⟩
          rcases ihE r2 b2 b1 rest h with ⟨els, hr2, hb1⟩
          refine ⟨JsonElems.cons j els, ?_, ?_⟩
          · rw [hev, hr2]
            simp [eventsOfElems]
          · rw [hb1, hb2]
            rfl
    · intro es b b1 rest h
      rcases es with _ | ⟨e, r⟩
      · simp [parseFields] at h
      · cases e with
        | endObject =>
          simp only [parseFields, Option.some.injEq, Prod.mk.injEq] at h
          exact ⟨JsonFields.nil, by simp [eventsOfFields, h.2], by rw [h.1]; rfl⟩
        | nameE k =>
          simp only [parseFields] at h
          cases hpi : parseItem f r (b.openField k).1 with
          | none => rw [hpi] at h; simp at h
          | some pr =>
            obtain ⟨b2, r2⟩ := pr
            rw [hpi] at h
            rcases ihI r _ b2 r2 hpi with ⟨j, hev, hb2⟩
            rcases ihF r2 _ b1 rest h with ⟨fls, hr2, hb1⟩
            refine ⟨JsonFields.cons k j fls, ?_, ?_⟩
            · rw [hev, hr2]
              simp [eventsOfFields]
            · rw [hb1, hb2]
              rfl
        | beginArray => simp [parseFields] at h
        | beginObject => simp [parseFields] at h
        | endArray => simp [parseFields] at h
        | stringE s => simp [parseFields] at h
        | numberE x => simp [parseFields] at h
        | booleanE v => simp [parseFields] at h
        | nullE => simp [parseFields] at h

theorem findIdx?_go_spec {α} (p : α → Bool) :
    ∀ (l : List α) (j i : Nat), List.findIdx? p l j = some i →
      j ≤ i ∧ ∃ hi : i - j < l.length,
        p (l.get ⟨i - j, hi⟩) = true ∧ l.findIdx p + j = i := by
  intro l
  induction l with
  | nil => intro j i h; simp [List.findIdx?] at h
  | cons a t ih =>
    intro j i h
    rw [List.findIdx?_cons] at h
    by_cases hpa : p a = true
    · rw [if_pos hpa] at h
      cases h
      refine ⟨le_refl _, ?_⟩
      refine ⟨by simp, ?_, ?_⟩
      · simpa using hpa
      · simp [List.findIdx_cons, hpa]
    · rw [if_neg hpa] at h
      rcases ih (j + 1) i h with ⟨hji, hlt, hp, hidx⟩
      refine ⟨by omega, ?_⟩
      have hij : i - j = (i - (j + 1)) + 1 := by omega
      have h1 : ∀ (hb2 : i - j < (a :: t).length),
          (a :: t).get ⟨i - j, hb2⟩ = t.get ⟨i - (j + 1), hlt⟩ := by
        rw [hij]
        intro hb2
        simp [List.get_eq_getElem]
      refine ⟨by simp only [List.length_cons]; omega, ?_, ?_⟩
      · rw [h1]
        exact hp
      · simp only [List.findIdx_cons, hpa, cond_false]
        omega

theorem idOf_lt (l : List NodeInfo) (info : NodeInfo) (h : info ∈ l) :
    idOf l info < l.length :=
  List.findIdx_lt_length_of_exists ⟨info, h, by simp⟩

theorem idOf_getElem (l : List NodeInfo) (info : NodeInfo) (h : info ∈ l) :
    l.get ⟨idOf l info, idOf_lt l info h⟩ = info := by
  have := @List.findIdx_get _ (fun x => x == info) l (idOf_lt l info h)
  simpa [idOf] using this

theorem idOf_append (l e : List NodeInfo) (info : NodeInfo) (h : info ∈ l) :
    idOf (l ++ e) info = idOf l info := by
  unfold idOf
  rw [List.findIdx_append]
  rw [if_pos (show List.findIdx (fun x => x == info) l < l.length from idOf_lt l info h)]

theorem idOf_extend (l l' : List NodeInfo) (info : NodeInfo) (h : info ∈ l)
    (hpre : l <+: l') : idOf l' info = idOf l info := by
  rcases hpre with ⟨e, rfl⟩
  exact idOf_append l e info h

theorem idOf_getElem? (l : List NodeInfo) (info : NodeInfo) (h : info ∈ l) :
    l[idOf l info]? = some info := by
  rw [List.getElem?_eq_getElem (idOf_lt l info h)]
  have := idOf_getElem l info h
  rw [List.get_eq_getElem] at this
  rw [this]

theorem idOf_not_mem (l : List NodeInfo) (info : NodeInfo) (h : info ∉ l) :
    idOf l info = l.length := by
  have hle := @List.findIdx_le_length _ (fun x => x == info) l
  rcases Nat.lt_or_ge (idOf l info) l.length with hlt | hge
  · exfalso
    have := @List.findIdx_get _ (fun x => x == info) l hlt
    simp only [beq_iff_eq] at this
    exact h (this ▸ List.get_mem l _ hlt)
  · unfold idOf at *
    omega

theorem idOf_append_self (l : List NodeInfo) (info : NodeInfo) (h : info ∉ l) :
    idOf (l ++ [info]) info = l.length := by
  unfold idOf
  rw [List.findIdx_append]
  rw [if_neg (by rw [show List.findIdx (fun x => x == info) l = l.length from idOf_not_mem l info h]; omega)]
  simp [List.findIdx_cons]

theorem registerInfo_spec (l : List NodeInfo) (info : NodeInfo) :
    (registerInfo l info).1 = (if info ∈ l then l else l ++ [info]) ∧
    (registerInfo l info).2 = idOf (registerInfo l info).1 info ∧
    info ∈ (registerInfo l info).1 ∧
    l <+: (registerInfo l info).1 := by
  unfold registerInfo
  cases hf : List.findIdx? (fun x => x == info) l with
  | none =>
    have hnm : info ∉ l := by
      intro hmem
      have := List.findIdx?_eq_none_iff.mp hf info hmem
      simp at this
    simp only
    refine ⟨by rw [if_neg hnm], ?_, by simp, ⟨[info], rfl⟩⟩
    rw [idOf_append_self l info hnm]
  | some i =>
    rcases findIdx?_go_spec (fun x => x == info) l 0 i hf with ⟨_, hlt, hp, hidx⟩
    have hmem : info ∈ l := by
      have : l.get ⟨i - 0, hlt⟩ = info := by simpa using hp
      rw [← this]
      exact List.get_mem l _ hlt
    simp only
    refine ⟨by rw [if_pos hmem], ?_, hmem, List.prefix_refl l⟩
    unfold idOf
    omega

theorem padded_getD (usage : List (List Nat)) (id j : Nat) :
    ((if usage.length ≤ id then
        usage ++ List.replicate (id + 1 - usage.length) []
      else usage)).getD j [] = usage.getD j [] := by
  by_cases hle : usage.length ≤ id
  · rw [if_pos hle]
    by_cases hj : j < usage.length
    · simp [List.getD_eq_getElem?_getD, List.getElem?_append, hj]
    · push_neg at hj
      have hr : usage[j]? = none := List.getElem?_eq_none_iff.mpr (by omega)
      rw [List.getD_eq_getElem?_getD, List.getD_eq_getElem?_getD]
      rw [List.getElem?_append_right hj, hr]
      rw [List.getElem?_replicate]
      by_cases hj2 : j - usage.length < id + 1 - usage.length
      · rw [if_pos hj2]
        rfl
      · rw [if_neg hj2]
  · rw [if_neg hle]

theorem padded_length (usage : List (List Nat)) (id : Nat) :
    ((if usage.length ≤ id then
        usage ++ List.replicate (id + 1 - usage.length) []
      else usage)).length = max usage.length (id + 1) := by
  by_cases hle : usage.length ≤ id
  · rw [if_pos hle]
    simp
    omega
  · rw [if_neg hle]
    omega

theorem appendUsage_getD (usage : List (List Nat)) (id pos i : Nat) :
    (appendUsage usage id pos).getD i [] =
      (if i = id then usage.getD id [] ++ [pos] else usage.getD i []) := by
  simp only [appendUsage]
  set u2 := (if usage.length ≤ id then
      usage ++ List.replicate (id + 1 - usage.length) []
    else usage) with hu2
  have hlen : u2.length = max usage.length (id + 1) := by
    rw [hu2]
    exact padded_length usage id
  have hgd : ∀ j, u2.getD j [] = usage.getD j [] := by
    intro j
    rw [hu2]
    exact padded_getD usage id j
  rw [List.getD_eq_getElem?_getD]
  rw [List.getElem?_set]
  by_cases hi : id = i
  · subst hi
    have hid : id < u2.length := by omega
    simp only [if_pos rfl, hid, if_true, Option.getD_some, hgd]
  · rw [if_neg hi]
    rw [← List.getD_eq_getElem?_getD, hgd]
    rw [if_neg (fun he => hi he.symm)]

theorem appendUsage_length (usage : List (List Nat)) (id pos : Nat) :
    (appendUsage usage id pos).length = max usage.length (id + 1) := by
  simp only [appendUsage]
  rw [List.length_set]
  exact padded_length usage id

theorem posOfAux_append (lookup : List NodeInfo) (i : Nat)
    (T1 T2 : List NodeInfo) :
    ∀ p, posOfAux lookup i (T1 ++ T2) p =
      posOfAux lookup i T1 p ++ posOfAux lookup i T2 (p + T1.length) := by
  induction T1 with
  | nil => intro p; simp [posOfAux]
  | cons info rest ih =>
    intro p
    simp only [List.cons_append, posOfAux, List.append_eq, ih (p + 1),
      List.append_assoc, List.length_cons]
    have harith : p + 1 + rest.length = p + (rest.length + 1) := by omega
    rw [harith]

theorem posOfAux_stable (lookup lookup' : List NodeInfo) (i : Nat)
    (T : List NodeInfo) (hpre : lookup <+: lookup')
    (hmem : ∀ x ∈ T, x ∈ lookup) :
    ∀ p, posOfAux lookup' i T p = posOfAux lookup i T p := by
  induction T with
  | nil => intro p; rfl
  | cons info rest ih =>
    intro p
    simp only [posOfAux]
    rw [idOf_extend lookup lookup' info (hmem info (by simp)) hpre]
    rw [ih (fun x hx => hmem x (by simp [hx])) (p + 1)]

theorem posOfAux_ge (lookup : List NodeInfo) (i : Nat) (T : List NodeInfo) :
    ∀ p q, q ∈ posOfAux lookup i T p → p ≤ q ∧ q < p + T.length := by
  induction T with
  | nil => intro p q hq; simp [posOfAux] at hq
  | cons info rest ih =>
    intro p q hq
    simp only [posOfAux, List.mem_append] at hq
    rcases hq with hq | hq
    · by_cases hid : idOf lookup info = i
      · rw [if_pos hid] at hq
        simp at hq
        subst hq
        refine ⟨le_refl _, ?_⟩
        simp only [List.length_cons]
        omega
      · rw [if_neg hid] at hq
        simp at hq
    · rcases ih (p + 1) q hq with ⟨h1, h2⟩
      constructor
      · omega
      · simp only [List.length_cons]
        omega

theorem posOfAux_countP (lookup : List NodeInfo) (i : Nat)
    (T : List NodeInfo) :
    ∀ p m, (posOfAux lookup i T p).countP (fun q => decide (q < p + m)) =
      (T.take m).countP (fun x => idOf lookup x == i) := by
  induction T with
  | nil => intro p m; simp [posOfAux]
  | cons info rest ih =>
    intro p m
    cases m with
    | zero =>
      simp only [List.take_zero, List.countP_nil]
      rw [List.countP_eq_zero.mpr]
      intro q hq
      simp only [posOfAux, List.mem_append] at hq
      have hge : p ≤ q := by
        rcases hq with hq | hq
        · by_cases hid : idOf lookup info = i
          · rw [if_pos hid] at hq; simp at hq; omega
          · rw [if_neg hid] at hq; simp at hq
        · exact (posOfAux_ge lookup i rest (p + 1) q hq).1.trans' (by omega)
      simp only [decide_eq_true_eq]
      omega
    | succ m =>
      simp only [posOfAux, List.countP_append, List.take_succ_cons,
        List.countP_cons]
      have harith : p + (m + 1) = (p + 1) + m := by omega
      rw [harith, ih (p + 1) m]
      by_cases hid : idOf lookup info = i
      · rw [if_pos hid]
        simp only [List.countP_cons, List.countP_nil, decide_eq_true_eq]
        rw [if_pos (by omega)]
        rw [if_pos (by simp [hid])]
        omega
      · rw [if_neg hid]
        simp only [List.countP_nil]
        rw [if_neg (by simp [hid])]
        omega

theorem registerInfo_nodup (l : List NodeInfo) (info : NodeInfo)
    (h : l.Nodup) : (registerInfo l info).1.Nodup := by
  rw [(registerInfo_spec l info).1]
  by_cases hm : info ∈ l
  · rw [if_pos hm]; exact h
  · rw [if_neg hm]
    simp [List.nodup_append, h, hm]

theorem registerInfo_init (l : List NodeInfo) (info : NodeInfo)
    (h : ∃ ext, l = initLookup ++ ext) :
    ∃ ext, (registerInfo l info).1 = initLookup ++ ext := by
  rcases h with ⟨ext, hext⟩
  rw [(registerInfo_spec l info).1]
  by_cases hm : info ∈ l
  · rw [if_pos hm]; exact ⟨ext, hext⟩
  · rw [if_neg hm]
    exact ⟨ext ++ [info], by rw [hext, List.append_assoc]⟩

theorem brep_extend (b : Builder) (T : List NodeInfo) (l' : List NodeInfo)
    (h : BRep b T) (hpre : b.lookup <+: l') (hnd : l'.Nodup)
    (hinit : ∃ ext, l' = initLookup ++ ext) :
    BRep { b with lookup := l' } T := by
  refine ⟨h.parens, hinit, hnd, ?_, ?_, ?_⟩
  · intro info hi
    exact hpre.subset (h.mem info hi)
  · intro i
    show b.usage.getD i [] = posOf T l' i
    unfold posOf
    rw [posOfAux_stable b.lookup l' i T hpre h.mem 0]
    exact h.usage i
  · intro info hi
    show idOf l' info < b.usage.length
    rw [idOf_extend b.lookup l' info (h.mem info hi) hpre]
    exact h.ulen info hi

theorem brep_append (b : Builder) (T : List NodeInfo) (info : NodeInfo)
    (h : BRep b T) (hm : info ∈ b.lookup) :
    BRep { b with
           usage := appendUsage b.usage (idOf b.lookup info) b.parens.length,
           parens := b.parens ++ [info.is_open_tag] } (T ++ [info]) := by
  have hplen : b.parens.length = T.length := by
    rw [h.parens, List.length_map]
  refine ⟨?_, h.lkPrefix, h.nodup, ?_, ?_, ?_⟩
  · show b.parens ++ [info.is_open_tag] = (T ++ [info]).map NodeInfo.is_open_tag
    rw [h.parens, List.map_append, List.map_cons, List.map_nil]
  · intro x hx
    rcases List.mem_append.mp hx with hx | hx
    · exact h.mem x hx
    · simp at hx
      subst hx
      exact hm
  · intro i
    show (appendUsage b.usage (idOf b.lookup info) b.parens.length).getD i [] =
      posOf (T ++ [info]) b.lookup i
    rw [appendUsage_getD]
    unfold posOf
    rw [posOfAux_append b.lookup i T [info] 0]
    simp only [Nat.zero_add]
    by_cases hi : i = idOf b.lookup info
    · rw [if_pos hi]
      rw [h.usage (idOf b.lookup info)]
      subst hi
      simp only [posOfAux, if_pos rfl, List.append_nil, List.nil_append]
      rw [hplen]
      rfl
    · rw [if_neg hi]
      rw [h.usage i]
      simp only [posOfAux]
      rw [if_neg (fun he => hi (by rw [he]))]
      simp [posOf]
  · intro x hx
    show idOf b.lookup x <
      (appendUsage b.usage (idOf b.lookup info) b.parens.length).length
    rw [appendUsage_length]
    rcases List.mem_append.mp hx with hx | hx
    · have := h.ulen x hx
      omega
    · simp at hx
      subst hx
      omega

theorem brep_openNode (b : Builder) (T : List NodeInfo) (t : NodeType)
    (h : BRep b T) :
    BRep (b.openNode t) (T ++ [NodeInfo.openInfo t]) ∧
    b.lookup <+: (b.openNode t).lookup ∧
    (b.openNode t).text_builder = b.text_builder ∧
    (b.openNode t).numbers = b.numbers ∧
    (b.openNode t).booleans = b.booleans := by
  rcases registerInfo_spec b.lookup (NodeInfo.openInfo t) with ⟨_, hid, hmem, hpre⟩
  have hb' : BRep { b with lookup := (registerInfo b.lookup (NodeInfo.openInfo t)).1 } T :=
    brep_extend b T _ h hpre (registerInfo_nodup _ _ h.nodup)
      (registerInfo_init _ _ h.lkPrefix)
  have happ := brep_append _ T (NodeInfo.openInfo t) hb' hmem
  refine ⟨?_, hpre, rfl, rfl, rfl⟩
  show BRep { b with
      lookup := (registerInfo b.lookup (NodeInfo.openInfo t)).1,
      usage := appendUsage b.usage (registerInfo b.lookup (NodeInfo.openInfo t)).2 b.parens.length,
      parens := b.parens ++ [true] } (T ++ [NodeInfo.openInfo t])
  rw [hid]
  exact happ

theorem brep_closeNode (b : Builder) (T : List NodeInfo) (t : NodeType)
    (h : BRep b T) :
    BRep (b.closeNode t) (T ++ [NodeInfo.closeInfo t]) ∧
    b.lookup <+: (b.closeNode t).lookup ∧
    (b.closeNode t).text_builder = b.text_builder ∧
    (b.closeNode t).numbers = b.numbers ∧
    (b.closeNode t).booleans = b.booleans := by
  rcases registerInfo_spec b.lookup (NodeInfo.closeInfo t) with ⟨_, hid, hmem, hpre⟩
  have hb' : BRep { b with lookup := (registerInfo b.lookup (NodeInfo.closeInfo t)).1 } T :=
    brep_extend b T _ h hpre (registerInfo_nodup _ _ h.nodup)
      (registerInfo_init _ _ h.lkPrefix)
  have happ := brep_append _ T (NodeInfo.closeInfo t) hb' hmem
  refine ⟨?_, hpre, rfl, rfl, rfl⟩
  show BRep { b with
      lookup := (registerInfo b.lookup (NodeInfo.closeInfo t)).1,
      usage := appendUsage b.usage (registerInfo b.lookup (NodeInfo.closeInfo t)).2 b.parens.length,
      parens := b.parens ++ [false] } (T ++ [NodeInfo.closeInfo t])
  rw [hid]
  exact happ

theorem brep_openField (b : Builder) (T : List NodeInfo) (name : List Byte)
    (h : BRep b T) :
    BRep (b.openField name).1 (T ++ [NodeInfo.openInfo (NodeType.fieldT name)]) ∧
    b.lookup <+: (b.openField name).1.lookup ∧
    (b.openField name).1.text_builder = b.text_builder ∧
    (b.openField name).1.numbers = b.numbers ∧
    (b.openField name).1.booleans = b.booleans ∧
    NodeInfo.closeInfo (NodeType.fieldT name) ∈ (b.openField name).1.lookup ∧
    (b.openField name).2 =
      idOf (b.openField name).1.lookup (NodeInfo.closeInfo (NodeType.fieldT name)) := by
  rcases registerInfo_spec b.lookup (NodeInfo.openInfo (NodeType.fieldT name)) with
    ⟨_, hid1, hmem1, hpre1⟩
  rcases registerInfo_spec (registerInfo b.lookup (NodeInfo.openInfo (NodeType.fieldT name))).1
    (NodeInfo.closeInfo (NodeType.fieldT name)) with ⟨_, hid2, hmem2, hpre2⟩
  have hnd1 := registerInfo_nodup b.lookup (NodeInfo.openInfo (NodeType.fieldT name)) h.nodup
  have hin1 := registerInfo_init b.lookup (NodeInfo.openInfo (NodeType.fieldT name)) h.lkPrefix
  have hnd2 := registerInfo_nodup _ (NodeInfo.closeInfo (NodeType.fieldT name)) hnd1
  have hin2 := registerInfo_init _ (NodeInfo.closeInfo (NodeType.fieldT name)) hin1
  have hpre12 : b.lookup <+:
      (registerInfo (registerInfo b.lookup (NodeInfo.openInfo (NodeType.fieldT name))).1
        (NodeInfo.closeInfo (NodeType.fieldT name))).1 :=
    hpre1.trans hpre2
  have hb' : BRep { b with lookup :=
      (registerInfo (registerInfo b.lookup (NodeInfo.openInfo (NodeType.fieldT name))).1
        (NodeInfo.closeInfo (NodeType.fieldT name))).1 } T :=
    brep_extend b T _ h hpre12 hnd2 hin2
  have hmem1' : NodeInfo.openInfo (NodeType.fieldT name) ∈
      (registerInfo (registerInfo b.lookup (NodeInfo.openInfo (NodeType.fieldT name))).1
        (NodeInfo.closeInfo (NodeType.fieldT name))).1 :=
    hpre2.subset hmem1
  have happ := brep_append _ T (NodeInfo.openInfo (NodeType.fieldT name)) hb' hmem1'
  refine ⟨?_, hpre12, rfl, rfl, rfl, hmem2, ?_⟩
  · show BRep { b with
        lookup := (registerFieldIds b.lookup name).1,
        usage := appendUsage b.usage (registerFieldIds b.lookup name).2.1 b.parens.length,
        parens := b.parens ++ [true] }
      (T ++ [NodeInfo.openInfo (NodeType.fieldT name)])
    have hid1' : (registerFieldIds b.lookup name).2.1 =
        idOf (registerFieldIds b.lookup name).1
          (NodeInfo.openInfo (NodeType.fieldT name)) := by
      show (registerInfo b.lookup (NodeInfo.openInfo (NodeType.fieldT name))).2 =
        idOf (registerInfo (registerInfo b.lookup (NodeInfo.openInfo (NodeType.fieldT name))).1
          (NodeInfo.closeInfo (NodeType.fieldT name))).1
          (NodeInfo.openInfo (NodeType.fieldT name))
      rw [idOf_extend _ _ _ hmem1 hpre2]
      exact hid1
    rw [hid1']
    exact happ
  · exact hid2

theorem brep_closeField (b : Builder) (T : List NodeInfo) (info : NodeInfo)
    (cid : Nat) (h : BRep b T) (hm : info ∈ b.lookup)
    (hcid : cid = idOf b.lookup info) (htag : info.is_open_tag = false) :
    BRep (b.closeField cid) (T ++ [info]) := by
  show BRep { b with
      usage := appendUsage b.usage cid b.parens.length,
      parens := b.parens ++ [false] } (T ++ [info])
  rw [hcid, ← htag]
  exact brep_append b T info h hm

theorem brep_new : BRep Builder.new [] := by
  refine ⟨rfl, ⟨[], by simp [Builder.new]⟩, by decide, ?_, ?_, ?_⟩
  · intro info hi
    simp at hi
  · intro i
    rfl
  · intro info hi
    simp at hi

theorem brep_copy (b b' : Builder) (T : List NodeInfo) (h : BRep b T)
    (hl : b'.lookup = b.lookup) (hp : b'.parens = b.parens)
    (hu : b'.usage = b.usage) : BRep b' T := by
  refine ⟨?_, ?_, ?_, ?_, ?_, ?_⟩
  · rw [hp]; exact h.parens
  · rw [hl]; exact h.lkPrefix
  · rw [hl]; exact h.nodup
  · intro info hi; rw [hl]; exact h.mem info hi
  · intro i; rw [hu, hl]; exact h.usage i
  · intro info hi; rw [hl, hu]; exact h.ulen info hi

theorem addAll_append (b : TextUsageBuilder) (xs ys : List (List Byte)) :
    b.addAll (xs ++ ys) = (b.addAll xs).addAll ys := by
  simp [TextUsageBuilder.addAll, List.foldl_append]

theorem brep_addStringItem (b : Builder) (T : List NodeInfo) (s : List Byte)
    (h : BRep b T) :
    BRep (b.addStringItem s) (T ++ labelsOf (Json.str s)) ∧
    b.lookup <+: (b.addStringItem s).lookup ∧
    (b.addStringItem s).text_builder = b.text_builder.addAll (stringsOf (Json.str s)) ∧
    (b.addStringItem s).numbers = b.numbers ++ numbersOf (Json.str s) ∧
    (b.addStringItem s).booleans = b.booleans ++ boolsOf (Json.str s) := by
  obtain ⟨h1, hp1, ht1, hn1, hb1⟩ := brep_openNode b T NodeType.stringT h
  have h2 : BRep { b.openNode NodeType.stringT with text_builder := ((b.openNode NodeType.stringT).text_builder.add_string s).1 } (T ++ [NodeInfo.openInfo NodeType.stringT]) :=
    brep_copy _ _ _ h1 rfl rfl rfl
  obtain ⟨h3, hp3, ht3, hn3, hb3⟩ := brep_closeNode _ _ NodeType.stringT h2
  refine ⟨?_, ?_, ?_, ?_, ?_⟩
  · have hT : T ++ labelsOf (Json.str s) =
        (T ++ [NodeInfo.openInfo NodeType.stringT]) ++ [NodeInfo.closeInfo NodeType.stringT] := by
      simp [labelsOf]
    rw [hT]
    exact h3
  · exact hp1.trans hp3
  · have htb : (b.addStringItem s).text_builder =
        ((b.openNode NodeType.stringT).text_builder.add_string s).1 := ht3
    rw [htb, ht1]
    rfl
  · have hnb : (b.addStringItem s).numbers = (b.openNode NodeType.stringT).numbers := hn3
    rw [hnb, hn1]
    simp [numbersOf]
  · have hbb : (b.addStringItem s).booleans = (b.openNode NodeType.stringT).booleans := hb3
    rw [hbb, hb1]
    simp [boolsOf]

theorem brep_addNumberItem (b : Builder) (T : List NodeInfo) (x : Float)
    (h : BRep b T) :
    BRep (b.addNumberItem x) (T ++ labelsOf (Json.num x)) ∧
    b.lookup <+: (b.addNumberItem x).lookup ∧
    (b.addNumberItem x).text_builder = b.text_builder.addAll (stringsOf (Json.num x)) ∧
    (b.addNumberItem x).numbers = b.numbers ++ numbersOf (Json.num x) ∧
    (b.addNumberItem x).booleans = b.booleans ++ boolsOf (Json.num x) := by
  obtain ⟨h1, hp1, ht1, hn1, hb1⟩ := brep_openNode b T NodeType.numberT h
  have h2 : BRep { b.openNode NodeType.numberT with numbers := (b.openNode NodeType.numberT).numbers ++ [x] } (T ++ [NodeInfo.openInfo NodeType.numberT]) :=
    brep_copy _ _ _ h1 rfl rfl rfl
  obtain ⟨h3, hp3, ht3, hn3, hb3⟩ := brep_closeNode _ _ NodeType.numberT h2
  refine ⟨?_, ?_, ?_, ?_, ?_⟩
  · have hT : T ++ labelsOf (Json.num x) =
        (T ++ [NodeInfo.openInfo NodeType.numberT]) ++ [NodeInfo.closeInfo NodeType.numberT] := by
      simp [labelsOf]
    rw [hT]
    exact h3
  · exact hp1.trans hp3
  · have htb : (b.addNumberItem x).text_builder =
        (b.openNode NodeType.numberT).text_builder := ht3
    rw [htb, ht1]
    rfl
  · have hnb : (b.addNumberItem x).numbers =
        (b.openNode NodeType.numberT).numbers ++ [x] := hn3
    rw [hnb, hn1]
    rfl
  · have hbb : (b.addNumberItem x).booleans = (b.openNode NodeType.numberT).booleans := hb3
    rw [hbb, hb1]
    simp [boolsOf]

theorem brep_addBooleanItem (b : Builder) (T : List NodeInfo) (v : Bool)
    (h : BRep b T) :
    BRep (b.addBooleanItem v) (T ++ labelsOf (Json.bool v)) ∧
    b.lookup <+: (b.addBooleanItem v).lookup ∧
    (b.addBooleanItem v).text_builder = b.text_builder.addAll (stringsOf (Json.bool v)) ∧
    (b.addBooleanItem v).numbers = b.numbers ++ numbersOf (Json.bool v) ∧
    (b.addBooleanItem v).booleans = b.booleans ++ boolsOf (Json.bool v) := by
  obtain ⟨h1, hp1, ht1, hn1, hb1⟩ := brep_openNode b T NodeType.booleanT h
  have h2 : BRep { b.openNode NodeType.booleanT with booleans := (b.openNode NodeType.booleanT).booleans ++ [v] } (T ++ [NodeInfo.openInfo NodeType.booleanT]) :=
    brep_copy _ _ _ h1 rfl rfl rfl
  obtain ⟨h3, hp3, ht3, hn3, hb3⟩ := brep_closeNode _ _ NodeType.booleanT h2
  refine ⟨?_, ?_, ?_, ?_, ?_⟩
  · have hT : T ++ labelsOf (Json.bool v) =
        (T ++ [NodeInfo.openInfo NodeType.booleanT]) ++ [NodeInfo.closeInfo NodeType.booleanT] := by
      simp [labelsOf]
    rw [hT]
    exact h3
  · exact hp1.trans hp3
  · have htb : (b.addBooleanItem v).text_builder =
        (b.openNode NodeType.booleanT).text_builder := ht3
    rw [htb, ht1]
    rfl
  · have hnb : (b.addBooleanItem v).numbers = (b.openNode NodeType.booleanT).numbers := hn3
    rw [hnb, hn1]
    simp [numbersOf]
  · have hbb : (b.addBooleanItem v).booleans =
        (b.openNode NodeType.booleanT).booleans ++ [v] := hb3
    rw [hbb, hb1]
    rfl

theorem brep_addNullItem (b : Builder) (T : List NodeInfo) (h : BRep b T) :
    BRep b.addNullItem (T ++ labelsOf Json.null) ∧
    b.lookup <+: b.addNullItem.lookup ∧
    b.addNullItem.text_builder = b.text_builder.addAll (stringsOf Json.null) ∧
    b.addNullItem.numbers = b.numbers ++ numbersOf Json.null ∧
    b.addNullItem.booleans = b.booleans ++ boolsOf Json.null := by
  obtain ⟨h1, hp1, ht1, hn1, hb1⟩ := brep_openNode b T NodeType.nullT h
  obtain ⟨h3, hp3, ht3, hn3, hb3⟩ := brep_closeNode _ _ NodeType.nullT h1
  refine ⟨?_, ?_, ?_, ?_, ?_⟩
  · have hT : T ++ labelsOf Json.null =
        (T ++ [NodeInfo.openInfo NodeType.nullT]) ++ [NodeInfo.closeInfo NodeType.nullT] := by
      simp [labelsOf]
    rw [hT]
    exact h3
  · exact hp1.trans hp3
  · have htb : b.addNullItem.text_builder = (b.openNode NodeType.nullT).text_builder := ht3
    rw [htb, ht1]
    rfl
  · have hnb : b.addNullItem.numbers = (b.openNode NodeType.nullT).numbers := hn3
    rw [hnb, hn1]
    simp [numbersOf]
  · have hbb : b.addNullItem.booleans = (b.openNode NodeType.nullT).booleans := hb3
    rw [hbb, hb1]
    simp [boolsOf]

mutual

theorem applyJson_spec (j : Json) (b : Builder) (T : List NodeInfo)
    (h : BRep b T) :
    BRep (applyJson j b) (T ++ labelsOf j) ∧
    b.lookup <+: (applyJson j b).lookup ∧
    (applyJson j b).text_builder = b.text_builder.addAll (stringsOf j) ∧
    (applyJson j b).numbers = b.numbers ++ numbersOf j ∧
    (applyJson j b).booleans = b.booleans ++ boolsOf j := by
  cases j with
  | obj fs =>
    obtain ⟨h1, hp1, ht1, hn1, hb1⟩ := brep_openNode b T NodeType.objectT h
    obtain ⟨h2, hp2, ht2, hn2, hb2⟩ :=
      applyFields_spec fs (b.openNode NodeType.objectT)
        (T ++ [NodeInfo.openInfo NodeType.objectT]) h1
    obtain ⟨h3, hp3, ht3, hn3, hb3⟩ :=
      brep_closeNode (applyFields fs (b.openNode NodeType.objectT)) _ NodeType.objectT h2
    refine ⟨?_, ?_, ?_, ?_, ?_⟩
    · have hT : T ++ labelsOf (Json.obj fs) =
          ((T ++ [NodeInfo.openInfo NodeType.objectT]) ++ labelsOfFields fs) ++
            [NodeInfo.closeInfo NodeType.objectT] := by
        simp [labelsOf]
      rw [hT]
      exact h3
    · exact hp1.trans (hp2.trans hp3)
    · show ((applyFields fs (b.openNode NodeType.objectT)).closeNode NodeType.objectT).text_builder =
        b.text_builder.addAll (stringsOfFields fs)
      rw [ht3, ht2, ht1]
    · show ((applyFields fs (b.openNode NodeType.objectT)).closeNode NodeType.objectT).numbers =
        b.numbers ++ numbersOfFields fs
      rw [hn3, hn2, hn1]
    · show ((applyFields fs (b.openNode NodeType.objectT)).closeNode NodeType.objectT).booleans =
        b.booleans ++ boolsOfFields fs
      rw [hb3, hb2, hb1]
  | arr es =>
    obtain ⟨h1, hp1, ht1, hn1, hb1⟩ := brep_openNode b T NodeType.arrayT h
    obtain ⟨h2, hp2, ht2, hn2, hb2⟩ :=
      applyElems_spec es (b.openNode NodeType.arrayT)
        (T ++ [NodeInfo.openInfo NodeType.arrayT]) h1
    obtain ⟨h3, hp3, ht3, hn3, hb3⟩ :=
      brep_closeNode (applyElems es (b.openNode NodeType.arrayT)) _ NodeType.arrayT h2
    refine ⟨?_, ?_, ?_, ?_, ?_⟩
    · have hT : T ++ labelsOf (Json.arr es) =
          ((T ++ [NodeInfo.openInfo NodeType.arrayT]) ++ labelsOfElems es) ++
            [NodeInfo.closeInfo NodeType.arrayT] := by
        simp [labelsOf]
      rw [hT]
      exact h3
    · exact hp1.trans (hp2.trans hp3)
    · show ((applyElems es (b.openNode NodeType.arrayT)).closeNode NodeType.arrayT).text_builder =
        b.text_builder.addAll (stringsOfElems es)
      rw [ht3, ht2, ht1]
    · show ((applyElems es (b.openNode NodeType.arrayT)).closeNode NodeType.arrayT).numbers =
        b.numbers ++ numbersOfElems es
      rw [hn3, hn2, hn1]
    · show ((applyElems es (b.openNode NodeType.arrayT)).closeNode NodeType.arrayT).booleans =
        b.booleans ++ boolsOfElems es
      rw [hb3, hb2, hb1]
  | str s => exact brep_addStringItem b T s h
  | num x => exact brep_addNumberItem b T x h
  | bool v => exact brep_addBooleanItem b T v h
  | null => exact brep_addNullItem b T h

theorem applyFields_spec (fs : JsonFields) (b : Builder) (T : List NodeInfo)
    (h : BRep b T) :
    BRep (applyFields fs b) (T ++ labelsOfFields fs) ∧
    b.lookup <+: (applyFields fs b).lookup ∧
    (applyFields fs b).text_builder = b.text_builder.addAll (stringsOfFields fs) ∧
    (applyFields fs b).numbers = b.numbers ++ numbersOfFields fs ∧
    (applyFields fs b).booleans = b.booleans ++ boolsOfFields fs := by
  cases fs with
  | nil =>
    refine ⟨?_, List.prefix_rfl, rfl, ?_, ?_⟩
    · simpa [labelsOfFields] using h
    · simp only [numbersOfFields, List.append_nil]
      rfl
    · simp only [boolsOfFields, List.append_nil]
      rfl
  | cons k v rest =>
    obtain ⟨h1, hp1, ht1, hn1, hb1, hmemc, hcid⟩ := brep_openField b T k h
    obtain ⟨h2, hp2, ht2, hn2, hb2⟩ :=
      applyJson_spec v (b.openField k).1
        (T ++ [NodeInfo.openInfo (NodeType.fieldT k)]) h1
    have hmemc2 : NodeInfo.closeInfo (NodeType.fieldT k) ∈
        (applyJson v (b.openField k).1).lookup := hp2.subset hmemc
    have hcid2 : (b.openField k).2 =
        idOf (applyJson v (b.openField k).1).lookup
          (NodeInfo.closeInfo (NodeType.fieldT k)) := by
      rw [hcid]
      exact (idOf_extend _ _ _ hmemc hp2).symm
    have h3 : BRep ((applyJson v (b.openField k).1).closeField (b.openField k).2)
        (((T ++ [NodeInfo.openInfo (NodeType.fieldT k)]) ++ labelsOf v) ++
          [NodeInfo.closeInfo (NodeType.fieldT k)]) :=
      brep_closeField _ _ _ _ h2 hmemc2 hcid2 rfl
    obtain ⟨h4, hp4, ht4, hn4, hb4⟩ :=
      applyFields_spec rest
        ((applyJson v (b.openField k).1).closeField (b.openField k).2) _ h3
    have hcl : ((applyJson v (b.openField k).1).closeField (b.openField k).2).lookup =
        (applyJson v (b.openField k).1).lookup := rfl
    have hct : ((applyJson v (b.openField k).1).closeField (b.openField k).2).text_builder =
        (applyJson v (b.openField k).1).text_builder := rfl
    have hcn : ((applyJson v (b.openField k).1).closeField (b.openField k).2).numbers =
        (applyJson v (b.openField k).1).numbers := rfl
    have hcb : ((applyJson v (b.openField k).1).closeField (b.openField k).2).booleans =
        (applyJson v (b.openField k).1).booleans := rfl
    refine ⟨?_, ?_, ?_, ?_, ?_⟩
    · have hT : T ++ labelsOfFields (JsonFields.cons k v rest) =
          (((T ++ [NodeInfo.openInfo (NodeType.fieldT k)]) ++ labelsOf v) ++
            [NodeInfo.closeInfo (NodeType.fieldT k)]) ++ labelsOfFields rest := by
        simp [labelsOfFields]
      rw [hT]
      exact h4
    · have hp4' : (applyJson v (b.openField k).1).lookup <+:
          (applyFields rest
            ((applyJson v (b.openField k).1).closeField (b.openField k).2)).lookup := by
        rw [← hcl]
        exact hp4
      exact hp1.trans (hp2.trans hp4')
    · show (applyFields rest
          ((applyJson v (b.openField k).1).closeField (b.openField k).2)).text_builder =
        b.text_builder.addAll (stringsOfFields (JsonFields.cons k v rest))
      rw [ht4, hct, ht2, ht1]
      show (b.text_builder.addAll (stringsOf v)).addAll (stringsOfFields rest) =
        b.text_builder.addAll (stringsOf v ++ stringsOfFields rest)
      rw [addAll_append]
    · show (applyFields rest
          ((applyJson v (b.openField k).1).closeField (b.openField k).2)).numbers =
        b.numbers ++ numbersOfFields (JsonFields.cons k v rest)
      rw [hn4, hcn, hn2, hn1]
      show (b.numbers ++ numbersOf v) ++ numbersOfFields rest =
        b.numbers ++ (numbersOf v ++ numbersOfFields rest)
      rw [List.append_assoc]
    · show (applyFields rest
          ((applyJson v (b.openField k).1).closeField (b.openField k).2)).booleans =
        b.booleans ++ boolsOfFields (JsonFields.cons k v rest)
      rw [hb4, hcb, hb2, hb1]
      show (b.booleans ++ boolsOf v) ++ boolsOfFields rest =
        b.booleans ++ (boolsOf v ++ boolsOfFields rest)
      rw [List.append_assoc]

theorem applyElems_spec (es : JsonElems) (b : Builder) (T : List NodeInfo)
    (h : BRep b T) :
    BRep (applyElems es b) (T ++ labelsOfElems es) ∧
    b.lookup <+: (applyElems es b).lookup ∧
    (applyElems es b).text_builder = b.text_builder.addAll (stringsOfElems es) ∧
    (applyElems es b).numbers = b.numbers ++ numbersOfElems es ∧
    (applyElems es b).booleans = b.booleans ++ boolsOfElems es := by
  cases es with
  | nil =>
    refine ⟨?_, List.prefix_rfl, rfl, ?_, ?_⟩
    · simpa [labelsOfElems] using h
    · simp only [numbersOfElems, List.append_nil]
      rfl
    · simp only [boolsOfElems, List.append_nil]
      rfl
  | cons v rest =>
    obtain ⟨h1, hp1, ht1, hn1, hb1⟩ := applyJson_spec v b T h
    obtain ⟨h2, hp2, ht2, hn2, hb2⟩ :=
      applyElems_spec rest (applyJson v b) _ h1
    refine ⟨?_, ?_, ?_, ?_, ?_⟩
    · have hT : T ++ labelsOfElems (JsonElems.cons v rest) =
          (T ++ labelsOf v) ++ labelsOfElems rest := by
        simp [labelsOfElems]
      rw [hT]
      exact h2
    · exact hp1.trans hp2
    · show (applyElems rest (applyJson v b)).text_builder =
        b.text_builder.addAll (stringsOfElems (JsonElems.cons v rest))
      rw [ht2, ht1]
      show (b.text_builder.addAll (stringsOf v)).addAll (stringsOfElems rest) =
        b.text_builder.addAll (stringsOf v ++ stringsOfElems rest)
      rw [addAll_append]
    · show (applyElems rest (applyJson v b)).numbers =
        b.numbers ++ numbersOfElems (JsonElems.cons v rest)
      rw [hn2, hn1]
      show (b.numbers ++ numbersOf v) ++ numbersOfElems rest =
        b.numbers ++ (numbersOf v ++ numbersOfElems rest)
      rw [List.append_assoc]
    · show (applyElems rest (applyJson v b)).booleans =
        b.booleans ++ boolsOfElems (JsonElems.cons v rest)
      rw [hb2, hb1]
      show (b.booleans ++ boolsOf v) ++ boolsOfElems rest =
        b.booleans ++ (boolsOf v ++ boolsOfElems rest)
      rw [List.append_assoc]

end

theorem get?_at_len {α} (A : List α) (x : α) (r : List α) :
    (A ++ x :: r)[A.length]? = some x := by
  induction A with
  | nil => simp
  | cons a t ih => simpa using ih

theorem get_at_len {α} (A : List α) (x : α) (r : List α)
    (h : A.length < (A ++ x :: r).length) :
    (A ++ x :: r).get ⟨A.length, h⟩ = x := by
  have h2 := get?_at_len A x r
  rw [List.getElem?_eq_getElem h] at h2
  simpa [List.get_eq_getElem] using h2

theorem getD_at_len {α} (A : List α) (x : α) (r : List α) (d : α) :
    (A ++ x :: r).getD A.length d = x := by
  rw [List.getD_eq_getElem?_getD, get?_at_len]
  rfl

theorem findIdx?_eq_some {α} (q : α → Bool) :
    ∀ (l : List α) (i : Nat) (hi : i < l.length),
      q (l.get ⟨i, hi⟩) = true →
      (∀ j (hj : j < l.length), j < i → q (l.get ⟨j, hj⟩) = false) →
      ∀ k, List.findIdx? q l k = some (i + k) := by
  intro l
  induction l with
  | nil => intro i hi; simp at hi
  | cons a t ih =>
    intro i hi hq hmin k
    cases i with
    | zero =>
      have hqa : q a = true := hq
      simp [List.findIdx?, hqa]
    | succ i' =>
      have hqa : q a = false := hmin 0 (by simp) (Nat.succ_pos i')
      have hi' : i' < t.length := by
        simp only [List.length_cons] at hi
        omega
      have hq' : q (t.get ⟨i', hi'⟩) = true := hq
      have hmin' : ∀ j (hj : j < t.length), j < i' → q (t.get ⟨j, hj⟩) = false := by
        intro j hj hji
        exact hmin (j + 1) (by simp only [List.length_cons]; omega) (by omega)
      have := ih i' hi' hq' hmin' (k + 1)
      simp only [List.findIdx?, hqa]
      rw [if_neg (by simp [hqa])]
      rw [this]
      congr 1
      omega

theorem posOf_mem_self (lookup T : List NodeInfo) (p : Nat) (hp : p < T.length) :
    p ∈ posOf T lookup (idOf lookup (T.get ⟨p, hp⟩)) := by
  obtain ⟨x, hx⟩ : ∃ x, T.get ⟨p, hp⟩ = x := ⟨_, rfl⟩
  rw [hx]
  have hdec : T = T.take p ++ x :: T.drop (p + 1) := by
    conv_lhs => rw [← List.take_append_drop p T]
    congr 1
    rw [List.drop_eq_getElem_cons hp]
    rw [← hx]
    rfl
  unfold posOf
  rw [hdec]
  rw [posOfAux_append]
  have hlen : (T.take p).length = p := by
    rw [List.length_take]
    omega
  rw [List.mem_append]
  right
  rw [hlen]
  simp only [posOfAux, if_pos rfl, Nat.zero_add]
  simp

theorem posOfAux_mem_idOf (lookup : List NodeInfo) (i : Nat) (T : List NodeInfo) :
    ∀ p q, q ∈ posOfAux lookup i T p →
      ∃ hq : q - p < T.length, idOf lookup (T.get ⟨q - p, hq⟩) = i := by
  induction T with
  | nil => intro p q hq; simp [posOfAux] at hq
  | cons info rest ih =>
    intro p q hq
    simp only [posOfAux, List.mem_append] at hq
    rcases hq with hq | hq
    · by_cases hid : idOf lookup info = i
      · rw [if_pos hid] at hq
        simp at hq
        subst hq
        refine ⟨by simp, ?_⟩
        simpa [Nat.sub_self] using hid
      · rw [if_neg hid] at hq
        simp at hq
    · have hge := (posOfAux_ge lookup i rest (p + 1) q hq).1
      obtain ⟨hq', hidq⟩ := ih (p + 1) q hq
      have hidx : q - p = (q - (p + 1)) + 1 := by omega
      have hb : q - p < (info :: rest).length := by
        simp only [List.length_cons]
        omega
      refine ⟨hb, ?_⟩
      have hgen : (info :: rest).get ⟨q - p, hb⟩ = rest.get ⟨q - (p + 1), hq'⟩ := by
        have : ∀ (h2 : q - p < (info :: rest).length),
            (info :: rest).get ⟨q - p, h2⟩ = rest.get ⟨q - (p + 1), hq'⟩ := by
          rw [hidx]
          intro h2
          rfl
        exact this hb
      rw [hgen]
      exact hidq

theorem idOf_inj (l : List NodeInfo) (x y : NodeInfo) (hx : x ∈ l) (hy : y ∈ l)
    (h : idOf l x = idOf l y) : x = y := by
  have h1 := idOf_getElem l x hx
  have h2 := idOf_getElem l y hy
  have h3 : l.get ⟨idOf l y, idOf_lt l y hy⟩ = x := by
    rw [← h1]
    congr 1
    exact Fin.ext h.symm
  exact h3.symm.trans h2

theorem countP_eq_of_idOf (lookup : List NodeInfo) (L : List NodeInfo)
    (hmem : ∀ x ∈ L, x ∈ lookup) (info : NodeInfo) (hinfo : info ∈ lookup) :
    L.countP (fun x => idOf lookup x == idOf lookup info) =
      L.countP (fun x => x == info) := by
  apply List.countP_congr
  intro a ha
  by_cases he : a = info
  · subst he; simp
  · have hne : ¬(idOf lookup a = idOf lookup info) := fun hid =>
      he (idOf_inj lookup a info (hmem a ha) hinfo hid)
    simp [he, hne]

theorem brep_node_info_id (b : Builder) (T : List NodeInfo) (h : BRep b T)
    (p : Nat) (hp : p < T.length) :
    (Document.build b).node_info_id p =
      some (idOf b.lookup (T.get ⟨p, hp⟩)) := by
  have hplen : b.parens.length = T.length := by
    rw [h.parens, List.length_map]
  unfold Document.node_info_id
  rw [if_pos (show p < (Document.build b).parens.length from hplen ▸ hp)]
  show b.usage.findIdx? (fun ps => ps.contains p) =
    some (idOf b.lookup (T.get ⟨p, hp⟩))
  have hmemT : T.get ⟨p, hp⟩ ∈ T := List.get_mem T _ hp
  have hidlt : idOf b.lookup (T.get ⟨p, hp⟩) < b.usage.length := h.ulen _ hmemT
  have htrue : (fun ps : List Nat => ps.contains p)
      (b.usage.get ⟨idOf b.lookup (T.get ⟨p, hp⟩), hidlt⟩) = true := by
    show (b.usage.get ⟨idOf b.lookup (T.get ⟨p, hp⟩), hidlt⟩).contains p = true
    have hval : b.usage.get ⟨idOf b.lookup (T.get ⟨p, hp⟩), hidlt⟩ =
        posOf T b.lookup (idOf b.lookup (T.get ⟨p, hp⟩)) := by
      rw [List.get_eq_getElem, ← List.getD_eq_getElem b.usage [] hidlt]
      exact h.usage _
    rw [hval]
    have := posOf_mem_self b.lookup T p hp
    simpa using this
  have hfalse : ∀ j (hj : j < b.usage.length),
      j < idOf b.lookup (T.get ⟨p, hp⟩) →
      (fun ps : List Nat => ps.contains p) (b.usage.get ⟨j, hj⟩) = false := by
    intro j hj hji
    show (b.usage.get ⟨j, hj⟩).contains p = false
    have hval : b.usage.get ⟨j, hj⟩ = posOf T b.lookup j := by
      rw [List.get_eq_getElem, ← List.getD_eq_getElem b.usage [] hj]
      exact h.usage _
    rw [hval]
    by_contra hc
    have hmem : p ∈ posOf T b.lookup j := by
      have := Bool.eq_true_of_ne_false hc
      simpa using this
    obtain ⟨hq, hidq⟩ := posOfAux_mem_idOf b.lookup j T 0 p hmem
    have hne : T.get ⟨p - 0, hq⟩ = T.get ⟨p, hp⟩ := rfl
    rw [hne] at hidq
    omega
  have := findIdx?_eq_some (fun ps : List Nat => ps.contains p) b.usage
    (idOf b.lookup (T.get ⟨p, hp⟩)) hidlt htrue hfalse 0
  rw [Nat.add_zero] at this
  exact this

theorem brep_node_type (b : Builder) (T : List NodeInfo) (h : BRep b T)
    (p : Nat) (hp : p < T.length) :
    (Document.build b).node_type p = some ((T.get ⟨p, hp⟩).node_type) := by
  unfold Document.node_type Document.node_info
  rw [brep_node_info_id b T h p hp]
  have hmeml : T.get ⟨p, hp⟩ ∈ b.lookup := h.mem _ (List.get_mem T _ hp)
  have hlt := idOf_lt b.lookup _ hmeml
  have hget : (Document.build b).lookup[idOf b.lookup (T.get ⟨p, hp⟩)]? =
      some (T.get ⟨p, hp⟩) := by
    show b.lookup[idOf b.lookup (T.get ⟨p, hp⟩)]? = some (T.get ⟨p, hp⟩)
    rw [List.getElem?_eq_getElem hlt]
    have hg := idOf_getElem b.lookup _ hmeml
    rw [List.get_eq_getElem] at hg
    rw [hg]
  simp only [Option.some_bind]
  rw [hget]
  rfl

theorem brep_rank_vec (b : Builder) (T : List NodeInfo) (h : BRep b T)
    (info : NodeInfo) (hK : info ∈ initLookup) (hinT : info ∈ T)
    (p : Nat) :
    b.usage[idOf initLookup info]?.map
      (fun ps => ps.countP (fun q => decide (q < p))) =
      some ((T.take p).countP (fun x => x == info)) := by
  have hmeml : info ∈ b.lookup := h.mem _ hinT
  have hidEq : idOf b.lookup info = idOf initLookup info := by
    rcases h.lkPrefix with ⟨ext, hext⟩
    rw [hext]
    exact idOf_append _ _ _ hK
  have hlt : idOf initLookup info < b.usage.length := hidEq ▸ h.ulen info hinT
  rw [List.getElem?_eq_getElem hlt]
  have hval : b.usage[idOf initLookup info] =
      posOf T b.lookup (idOf initLookup info) := by
    rw [← List.getD_eq_getElem b.usage [] hlt]
    exact h.usage _
  rw [hval]
  simp only [Option.map_some']
  congr 1
  have hcount := posOfAux_countP b.lookup (idOf initLookup info) T 0 p
  simp only [Nat.zero_add] at hcount
  show (posOfAux b.lookup (idOf initLookup info) T 0).countP
    (fun q => decide (q < p)) = (T.take p).countP (fun x => x == info)
  rw [hcount]
  rw [← hidEq]
  apply countP_eq_of_idOf
  · intro x hx
    exact h.mem x (List.mem_of_mem_take hx)
  · exact hmeml

theorem brep_text_id (b : Builder) (T : List NodeInfo) (h : BRep b T)
    (p : Nat) (hp : p ≤ T.length)
    (hs : NodeInfo.openInfo NodeType.stringT ∈ T) :
    (Document.build b).text_id p =
      some ((T.take p).countP (fun x => x == NodeInfo.openInfo NodeType.stringT)) := by
  have hplen : b.parens.length = T.length := by
    rw [h.parens, List.length_map]
  unfold Document.text_id
  rw [if_pos (show p ≤ (Document.build b).parens.length from hplen ▸ hp)]
  have h4 : idOf initLookup (NodeInfo.openInfo NodeType.stringT) = 4 := by decide
  have := brep_rank_vec b T h (NodeInfo.openInfo NodeType.stringT) (by decide) hs p
  rw [h4] at this
  exact this

theorem brep_number_id (b : Builder) (T : List NodeInfo) (h : BRep b T)
    (p : Nat) (hp : p ≤ T.length)
    (hs : NodeInfo.openInfo NodeType.numberT ∈ T) :
    (Document.build b).number_id p =
      some ((T.take p).countP (fun x => x == NodeInfo.openInfo NodeType.numberT)) := by
  have hplen : b.parens.length = T.length := by
    rw [h.parens, List.length_map]
  unfold Document.number_id
  rw [if_pos (show p ≤ (Document.build b).parens.length from hplen ▸ hp)]
  have h6 : idOf initLookup (NodeInfo.openInfo NodeType.numberT) = 6 := by decide
  have := brep_rank_vec b T h (NodeInfo.openInfo NodeType.numberT) (by decide) hs p
  rw [h6] at this
  exact this

theorem brep_boolean_id (b : Builder) (T : List NodeInfo) (h : BRep b T)
    (p : Nat) (hp : p ≤ T.length)
    (hs : NodeInfo.openInfo NodeType.booleanT ∈ T) :
    (Document.build b).boolean_id p =
      some ((T.take p).countP (fun x => x == NodeInfo.openInfo NodeType.booleanT)) := by
  have hplen : b.parens.length = T.length := by
    rw [h.parens, List.length_map]
  unfold Document.boolean_id
  rw [if_pos (show p ≤ (Document.build b).parens.length from hplen ▸ hp)]
  have h8 : idOf initLookup (NodeInfo.openInfo NodeType.booleanT) = 8 := by decide
  have := brep_rank_vec b T h (NodeInfo.openInfo NodeType.booleanT) (by decide) hs p
  rw [h8] at this
  exact this


mutual

theorem labels_count_str (j : Json) :
    (labelsOf j).countP (fun x => x == NodeInfo.openInfo NodeType.stringT) =
      (stringsOf j).length := by
  cases j with
  | obj fs =>
    have h2 := labelsFields_count_str fs
    have e1 : (NodeInfo.openInfo NodeType.objectT == NodeInfo.openInfo NodeType.stringT) = false := by
      decide
    have e2 : (NodeInfo.closeInfo NodeType.objectT == NodeInfo.openInfo NodeType.stringT) = false := by
      decide
    simp only [labelsOf, stringsOf, List.countP_cons, List.countP_append]
    simp [e1, e2, h2]
  | arr es =>
    have h2 := labelsElems_count_str es
    have e1 : (NodeInfo.openInfo NodeType.arrayT == NodeInfo.openInfo NodeType.stringT) = false := by
      decide
    have e2 : (NodeInfo.closeInfo NodeType.arrayT == NodeInfo.openInfo NodeType.stringT) = false := by
      decide
    simp only [labelsOf, stringsOf, List.countP_cons, List.countP_append]
    simp [e1, e2, h2]
  | str s => simp [labelsOf, stringsOf, List.countP_cons, NodeInfo.openInfo, NodeInfo.closeInfo]
  | num x => simp only [labelsOf, stringsOf]; decide
  | bool v => simp only [labelsOf, stringsOf]; decide
  | null => simp only [labelsOf, stringsOf]; decide

theorem labelsFields_count_str (fs : JsonFields) :
    (labelsOfFields fs).countP (fun x => x == NodeInfo.openInfo NodeType.stringT) =
      (stringsOfFields fs).length := by
  cases fs with
  | nil => simp [labelsOfFields, stringsOfFields]
  | cons k v rest =>
    have h1 := labels_count_str v
    have h2 := labelsFields_count_str rest
    have e1 : (NodeInfo.openInfo (NodeType.fieldT k) == NodeInfo.openInfo NodeType.stringT) = false := by
      simp [NodeInfo.openInfo]
    have e2 : (NodeInfo.closeInfo (NodeType.fieldT k) == NodeInfo.openInfo NodeType.stringT) = false := by
      simp [NodeInfo.closeInfo, NodeInfo.openInfo]
    simp only [labelsOfFields, stringsOfFields, List.countP_cons,
      List.countP_append, List.length_append]
    simp [e1, e2, h1, h2]

theorem labelsElems_count_str (es : JsonElems) :
    (labelsOfElems es).countP (fun x => x == NodeInfo.openInfo NodeType.stringT) =
      (stringsOfElems es).length := by
  cases es with
  | nil => simp [labelsOfElems, stringsOfElems]
  | cons v rest =>
    have h1 := labels_count_str v
    have h2 := labelsElems_count_str rest
    simp [labelsOfElems, stringsOfElems, List.countP_append, h1, h2]

end

mutual

theorem labels_count_num (j : Json) :
    (labelsOf j).countP (fun x => x == NodeInfo.openInfo NodeType.numberT) =
      (numbersOf j).length := by
  cases j with
  | obj fs =>
    have h2 := labelsFields_count_num fs
    have e1 : (NodeInfo.openInfo NodeType.objectT == NodeInfo.openInfo NodeType.numberT) = false := by
      decide
    have e2 : (NodeInfo.closeInfo NodeType.objectT == NodeInfo.openInfo NodeType.numberT) = false := by
      decide
    simp only [labelsOf, numbersOf, List.countP_cons, List.countP_append]
    simp [e1, e2, h2]
  | arr es =>
    have h2 := labelsElems_count_num es
    have e1 : (NodeInfo.openInfo NodeType.arrayT == NodeInfo.openInfo NodeType.numberT) = false := by
      decide
    have e2 : (NodeInfo.closeInfo NodeType.arrayT == NodeInfo.openInfo NodeType.numberT) = false := by
      decide
    simp only [labelsOf, numbersOf, List.countP_cons, List.countP_append]
    simp [e1, e2, h2]
  | str s => simp only [labelsOf, numbersOf]; decide
  | num x => simp [labelsOf, numbersOf, List.countP_cons, NodeInfo.openInfo, NodeInfo.closeInfo]
  | bool v => simp only [labelsOf, numbersOf]; decide
  | null => simp only [labelsOf, numbersOf]; decide

theorem labelsFields_count_num (fs : JsonFields) :
    (labelsOfFields fs).countP (fun x => x == NodeInfo.openInfo NodeType.numberT) =
      (numbersOfFields fs).length := by
  cases fs with
  | nil => simp [labelsOfFields, numbersOfFields]
  | cons k v rest =>
    have h1 := labels_count_num v
    have h2 := labelsFields_count_num rest
    have e1 : (NodeInfo.openInfo (NodeType.fieldT k) == NodeInfo.openInfo NodeType.numberT) = false := by
      simp [NodeInfo.openInfo]
    have e2 : (NodeInfo.closeInfo (NodeType.fieldT k) == NodeInfo.openInfo NodeType.numberT) = false := by
      simp [NodeInfo.closeInfo, NodeInfo.openInfo]
    simp only [labelsOfFields, numbersOfFields, List.countP_cons,
      List.countP_append, List.length_append]
    simp [e1, e2, h1, h2]

theorem labelsElems_count_num (es : JsonElems) :
    (labelsOfElems es).countP (fun x => x == NodeInfo.openInfo NodeType.numberT) =
      (numbersOfElems es).length := by
  cases es with
  | nil => simp [labelsOfElems, numbersOfElems]
  | cons v rest =>
    have h1 := labels_count_num v
    have h2 := labelsElems_count_num rest
    simp [labelsOfElems, numbersOfElems, List.countP_append, h1, h2]

end

mutual

theorem labels_count_bool (j : Json) :
    (labelsOf j).countP (fun x => x == NodeInfo.openInfo NodeType.booleanT) =
      (boolsOf j).length := by
  cases j with
  | obj fs =>
    have h2 := labelsFields_count_bool fs
    have e1 : (NodeInfo.openInfo NodeType.objectT == NodeInfo.openInfo NodeType.booleanT) = false := by
      decide
    have e2 : (NodeInfo.closeInfo NodeType.objectT == NodeInfo.openInfo NodeType.booleanT) = false := by
      decide
    simp only [labelsOf, boolsOf, List.countP_cons, List.countP_append]
    simp [e1, e2, h2]
  | arr es =>
    have h2 := labelsElems_count_bool es
    have e1 : (NodeInfo.openInfo NodeType.arrayT == NodeInfo.openInfo NodeType.booleanT) = false := by
      decide
    have e2 : (NodeInfo.closeInfo NodeType.arrayT == NodeInfo.openInfo NodeType.booleanT) = false := by
      decide
    simp only [labelsOf, boolsOf, List.countP_cons, List.countP_append]
    simp [e1, e2, h2]
  | str s => simp only [labelsOf, boolsOf]; decide
  | num x => simp only [labelsOf, boolsOf]; decide
  | bool v => simp [labelsOf, boolsOf, List.countP_cons, NodeInfo.openInfo, NodeInfo.closeInfo]
  | null => simp only [labelsOf, boolsOf]; decide

theorem labelsFields_count_bool (fs : JsonFields) :
    (labelsOfFields fs).countP (fun x => x == NodeInfo.openInfo NodeType.booleanT) =
      (boolsOfFields fs).length := by
  cases fs with
  | nil => simp [labelsOfFields, boolsOfFields]
  | cons k v rest =>
    have h1 := labels_count_bool v
    have h2 := labelsFields_count_bool rest
    have e1 : (NodeInfo.openInfo (NodeType.fieldT k) == NodeInfo.openInfo NodeType.booleanT) = false := by
      simp [NodeInfo.openInfo]
    have e2 : (NodeInfo.closeInfo (NodeType.fieldT k) == NodeInfo.openInfo NodeType.booleanT) = false := by
      simp [NodeInfo.closeInfo, NodeInfo.openInfo]
    simp only [labelsOfFields, boolsOfFields, List.countP_cons,
      List.countP_append, List.length_append]
    simp [e1, e2, h1, h2]

theorem labelsElems_count_bool (es : JsonElems) :
    (labelsOfElems es).countP (fun x => x == NodeInfo.openInfo NodeType.booleanT) =
      (boolsOfElems es).length := by
  cases es with
  | nil => simp [labelsOfElems, boolsOfElems]
  | cons v rest =>
    have h1 := labels_count_bool v
    have h2 := labelsElems_count_bool rest
    simp [labelsOfElems, boolsOfElems, List.countP_append, h1, h2]

end


theorem value_at (doc : Document) (T : List NodeInfo) (S : List (List Byte))
    (N : List Float) (BL : List Bool) (ctx : DocCtx doc T S N BL)
    (j : Json) (A B : List NodeInfo) (SA : List (List Byte))
    (SB : List (List Byte)) (NA NB : List Float) (BA BB : List Bool)
    (hT : T = A ++ labelsOf j ++ B)
    (hS : S = SA ++ (stringsOf j ++ SB))
    (hSA : SA.length = A.countP (fun x => x == NodeInfo.openInfo NodeType.stringT))
    (hN : N = NA ++ (numbersOf j ++ NB))
    (hNA : NA.length = A.countP (fun x => x == NodeInfo.openInfo NodeType.numberT))
    (hBL : BL = BA ++ (boolsOf j ++ BB))
    (hBA : BA.length = A.countP (fun x => x == NodeInfo.openInfo NodeType.booleanT)) :
    doc.value A.length = some (dvOf j A.length) := by
  cases j with
  | obj fs =>
    have hT' : T = A ++ NodeInfo.openInfo NodeType.objectT ::
        ((labelsOfFields fs ++ [NodeInfo.closeInfo NodeType.objectT]) ++ B) := by
      rw [hT]; simp [labelsOf]
    have hp : A.length < T.length := by
      rw [hT']; simp [List.length_append]
    have hget : ∀ (h2 : A.length < T.length),
        T.get ⟨A.length, h2⟩ = NodeInfo.openInfo NodeType.objectT := by
      rw [hT']
      intro h2
      exact get_at_len A _ _ h2
    have hnt := ctx.nt A.length hp
    rw [hget hp] at hnt
    unfold Document.value
    rw [hnt]
    rfl
  | arr es =>
    have hT' : T = A ++ NodeInfo.openInfo NodeType.arrayT ::
        ((labelsOfElems es ++ [NodeInfo.closeInfo NodeType.arrayT]) ++ B) := by
      rw [hT]; simp [labelsOf]
    have hp : A.length < T.length := by
      rw [hT']; simp [List.length_append]
    have hget : ∀ (h2 : A.length < T.length),
        T.get ⟨A.length, h2⟩ = NodeInfo.openInfo NodeType.arrayT := by
      rw [hT']
      intro h2
      exact get_at_len A _ _ h2
    have hnt := ctx.nt A.length hp
    rw [hget hp] at hnt
    unfold Document.value
    rw [hnt]
    rfl
  | str s =>
    have hT' : T = A ++ NodeInfo.openInfo NodeType.stringT ::
        ([NodeInfo.closeInfo NodeType.stringT] ++ B) := by
      rw [hT]; simp [labelsOf]
    have hp : A.length < T.length := by
      rw [hT']; simp [List.length_append]
    have hget : ∀ (h2 : A.length < T.length),
        T.get ⟨A.length, h2⟩ = NodeInfo.openInfo NodeType.stringT := by
      rw [hT']
      intro h2
      exact get_at_len A _ _ h2
    have hnt := ctx.nt A.length hp
    rw [hget hp] at hnt
    have hmem : NodeInfo.openInfo NodeType.stringT ∈ T := by
      rw [hT']
      exact List.mem_append.mpr (Or.inr (List.mem_cons_self _ _))
    have htake : T.take A.length = A := by
      rw [hT']
      exact List.take_left A _
    have htid := ctx.tid A.length (Nat.le_of_lt hp) hmem
    rw [htake, ← hSA] at htid
    have hSlen : SA.length < S.length := by
      rw [hS]
      simp [stringsOf, List.length_append]
    have hlook := ctx.text SA.length hSlen
    have hgetS : S.getD SA.length [] = s := by
      have hS' : S = SA ++ s :: SB := by
        rw [hS]; rfl
      rw [hS']
      exact getD_at_len SA s SB []
    rw [hgetS] at hlook
    unfold Document.value
    rw [hnt]
    show (doc.string_value A.length).map DocValue.stringV = some (DocValue.stringV s)
    unfold Document.string_value
    rw [htid]
    simp only [Option.some_bind]
    rw [hlook]
    rfl
  | num x =>
    have hT' : T = A ++ NodeInfo.openInfo NodeType.numberT ::
        ([NodeInfo.closeInfo NodeType.numberT] ++ B) := by
      rw [hT]; simp [labelsOf]
    have hp : A.length < T.length := by
      rw [hT']; simp [List.length_append]
    have hget : ∀ (h2 : A.length < T.length),
        T.get ⟨A.length, h2⟩ = NodeInfo.openInfo NodeType.numberT := by
      rw [hT']
      intro h2
      exact get_at_len A _ _ h2
    have hnt := ctx.nt A.length hp
    rw [hget hp] at hnt
    have hmem : NodeInfo.openInfo NodeType.numberT ∈ T := by
      rw [hT']
      exact List.mem_append.mpr (Or.inr (List.mem_cons_self _ _))
    have htake : T.take A.length = A := by
      rw [hT']
      exact List.take_left A _
    have hnid := ctx.nid A.length (Nat.le_of_lt hp) hmem
    rw [htake, ← hNA] at hnid
    have hN' : N = NA ++ x :: NB := by
      rw [hN]; rfl
    have hgetN : doc.numbers[NA.length]? = some x := by
      rw [ctx.numbers, hN']
      exact get?_at_len NA x NB
    unfold Document.value
    rw [hnt]
    show (doc.number_value A.length).map DocValue.numberV = some (DocValue.numberV x)
    unfold Document.number_value
    rw [hnid]
    simp only [Option.some_bind]
    rw [hgetN]
    rfl
  | bool v =>
    have hT' : T = A ++ NodeInfo.openInfo NodeType.booleanT ::
        ([NodeInfo.closeInfo NodeType.booleanT] ++ B) := by
      rw [hT]; simp [labelsOf]
    have hp : A.length < T.length := by
      rw [hT']; simp [List.length_append]
    have hget : ∀ (h2 : A.length < T.length),
        T.get ⟨A.length, h2⟩ = NodeInfo.openInfo NodeType.booleanT := by
      rw [hT']
      intro h2
      exact get_at_len A _ _ h2
    have hnt := ctx.nt A.length hp
    rw [hget hp] at hnt
    have hmem : NodeInfo.openInfo NodeType.booleanT ∈ T := by
      rw [hT']
      exact List.mem_append.mpr (Or.inr (List.mem_cons_self _ _))
    have htake : T.take A.length = A := by
      rw [hT']
      exact List.take_left A _
    have hbid := ctx.bid A.length (Nat.le_of_lt hp) hmem
    rw [htake, ← hBA] at hbid
    have hB' : BL = BA ++ v :: BB := by
      rw [hBL]; rfl
    have hgetB : doc.booleans[BA.length]? = some v := by
      rw [ctx.booleans, hB']
      exact get?_at_len BA v BB
    unfold Document.value
    rw [hnt]
    show (doc.boolean_value A.length).map DocValue.booleanV = some (DocValue.booleanV v)
    unfold Document.boolean_value
    rw [hbid]
    simp only [Option.some_bind]
    rw [hgetB]
    rfl
  | null =>
    have hT' : T = A ++ NodeInfo.openInfo NodeType.nullT ::
        ([NodeInfo.closeInfo NodeType.nullT] ++ B) := by
      rw [hT]; simp [labelsOf]
    have hp : A.length < T.length := by
      rw [hT']; simp [List.length_append]
    have hget : ∀ (h2 : A.length < T.length),
        T.get ⟨A.length, h2⟩ = NodeInfo.openInfo NodeType.nullT := by
      rw [hT']
      intro h2
      exact get_at_len A _ _ h2
    have hnt := ctx.nt A.length hp
    rw [hget hp] at hnt
    unfold Document.value
    rw [hnt]
    rfl

theorem labels_head (j : Json) :
    ∃ t tail, labelsOf j = NodeInfo.openInfo t :: tail := by
  cases j with
  | obj fs => exact ⟨NodeType.objectT, _, rfl⟩
  | arr es => exact ⟨NodeType.arrayT, _, rfl⟩
  | str s => exact ⟨NodeType.stringT, _, rfl⟩
  | num x => exact ⟨NodeType.numberT, _, rfl⟩
  | bool v => exact ⟨NodeType.booleanT, _, rfl⟩
  | null => exact ⟨NodeType.nullT, _, rfl⟩

theorem parens_get? (doc : Document) (T : List NodeInfo)
    (hpar : doc.parens = T.map NodeInfo.is_open_tag)
    (A : List NodeInfo) (x : NodeInfo) (R : List NodeInfo)
    (hT : T = A ++ x :: R) (q : Nat) (hq : q = A.length) :
    doc.parens[q]? = some x.is_open_tag := by
  subst hq
  rw [hpar, hT, List.map_append, List.map_cons]
  have := get?_at_len (A.map NodeInfo.is_open_tag) x.is_open_tag
    (R.map NodeInfo.is_open_tag)
  simpa [List.length_map] using this

theorem findClose_chunk (doc : Document) (T : List NodeInfo)
    (hpar : doc.parens = T.map NodeInfo.is_open_tag)
    (A : List NodeInfo) (M : List Bool) (R : List NodeInfo)
    (hsplit : T.map NodeInfo.is_open_tag =
      A.map NodeInfo.is_open_tag ++ (true :: M ++ [false]) ++
        R.map NodeInfo.is_open_tag)
    (hM : walk M 0 = some 0) (q : Nat) (hq : q = A.length) :
    findClose doc.parens q = some (A.length + M.length + 1) := by
  subst hq
  rw [hpar, hsplit]
  have := findClose_at (A.map NodeInfo.is_open_tag) M
    (R.map NodeInfo.is_open_tag) hM
  simpa [List.length_map] using this

mutual

theorem serializeValue_spec (j : Json) (doc : Document) (T : List NodeInfo)
    (S : List (List Byte)) (N : List Float) (BL : List Bool)
    (ctx : DocCtx doc T S N BL) (A B : List NodeInfo)
    (SA SB : List (List Byte)) (NA NB : List Float) (BA BB : List Bool)
    (fuel : Nat)
    (hT : T = A ++ labelsOf j ++ B)
    (hS : S = SA ++ (stringsOf j ++ SB))
    (hSA : SA.length = A.countP (fun x => x == NodeInfo.openInfo NodeType.stringT))
    (hN : N = NA ++ (numbersOf j ++ NB))
    (hNA : NA.length = A.countP (fun x => x == NodeInfo.openInfo NodeType.numberT))
    (hBL : BL = BA ++ (boolsOf j ++ BB))
    (hBA : BA.length = A.countP (fun x => x == NodeInfo.openInfo NodeType.booleanT))
    (hfuel : (labelsOf j).length ≤ fuel) :
    serializeValue fuel doc (dvOf j A.length) = some (eventsOf j) := by
  cases j with
  | obj fs =>
    cases fuel with
    | zero => simp [labelsOf] at hfuel
    | succ f =>
      have hfuel2 : (labelsOfFields fs).length + 1 ≤ f := by
        simp only [labelsOf, List.length_cons, List.length_append,
          List.length_nil] at hfuel
        omega
      have hfc : doc.first_child A.length = headPosF fs (A.length + 1) := by
        cases fs with
        | nil =>
          have hx := parens_get? doc T ctx.parens
            (A ++ [NodeInfo.openInfo NodeType.objectT])
            (NodeInfo.closeInfo NodeType.objectT) B
            (by rw [hT]; simp [labelsOf, labelsOfFields])
            (A.length + 1) (by simp)
          unfold Document.first_child
          rw [hx]
          rfl
        | cons k v rest =>
          have hx := parens_get? doc T ctx.parens
            (A ++ [NodeInfo.openInfo NodeType.objectT])
            (NodeInfo.openInfo (NodeType.fieldT k))
            ((labelsOf v ++ (NodeInfo.closeInfo (NodeType.fieldT k) ::
              labelsOfFields rest)) ++ ([NodeInfo.closeInfo NodeType.objectT] ++ B))
            (by rw [hT]; simp [labelsOf, labelsOfFields])
            (A.length + 1) (by simp)
          unfold Document.first_child
          rw [hx]
          rfl
      have hT2 : T = (A ++ [NodeInfo.openInfo NodeType.objectT]) ++
          labelsOfFields fs ++ (NodeInfo.closeInfo NodeType.objectT :: B) := by
        rw [hT]; simp [labelsOf]
      have hS2 : S = SA ++ (stringsOfFields fs ++ SB) := hS
      have hN2 : N = NA ++ (numbersOfFields fs ++ NB) := hN
      have hBL2 : BL = BA ++ (boolsOfFields fs ++ BB) := hBL
      have e1 : (NodeInfo.openInfo NodeType.objectT ==
          NodeInfo.openInfo NodeType.stringT) = false := by decide
      have e2 : (NodeInfo.openInfo NodeType.objectT ==
          NodeInfo.openInfo NodeType.numberT) = false := by decide
      have e3 : (NodeInfo.openInfo NodeType.objectT ==
          NodeInfo.openInfo NodeType.booleanT) = false := by decide
      have hSA2 : SA.length = (A ++ [NodeInfo.openInfo NodeType.objectT]).countP
          (fun x => x == NodeInfo.openInfo NodeType.stringT) := by
        rw [hSA]; simp [List.countP_append, List.countP_cons, e1]
      have hNA2 : NA.length = (A ++ [NodeInfo.openInfo NodeType.objectT]).countP
          (fun x => x == NodeInfo.openInfo NodeType.numberT) := by
        rw [hNA]; simp [List.countP_append, List.countP_cons, e2]
      have hBA2 : BA.length = (A ++ [NodeInfo.openInfo NodeType.objectT]).countP
          (fun x => x == NodeInfo.openInfo NodeType.booleanT) := by
        rw [hBA]; simp [List.countP_append, List.countP_cons, e3]
      have hSF := serializeFields_spec fs doc T S N BL ctx
        (A ++ [NodeInfo.openInfo NodeType.objectT])
        (NodeInfo.closeInfo NodeType.objectT :: B) SA SB NA NB BA BB f
        hT2 ⟨NodeInfo.closeInfo NodeType.objectT, B, rfl, rfl⟩
        hS2 hSA2 hN2 hNA2 hBL2 hBA2 hfuel2
      have hlen : (A ++ [NodeInfo.openInfo NodeType.objectT]).length =
          A.length + 1 := by simp
      rw [hlen] at hSF
      show serializeValue (f + 1) doc (DocValue.objectV A.length) =
        some (eventsOf (Json.obj fs))
      simp only [serializeValue, hfc, hSF]
      simp [eventsOf]
  | arr es =>
    cases fuel with
    | zero => simp [labelsOf] at hfuel
    | succ f =>
      have hfuel2 : (labelsOfElems es).length + 1 ≤ f := by
        simp only [labelsOf, List.length_cons, List.length_append,
          List.length_nil] at hfuel
        omega
      have hfc : doc.first_child A.length = headPosE es (A.length + 1) := by
        cases es with
        | nil =>
          have hx := parens_get? doc T ctx.parens
            (A ++ [NodeInfo.openInfo NodeType.arrayT])
            (NodeInfo.closeInfo NodeType.arrayT) B
            (by rw [hT]; simp [labelsOf, labelsOfElems])
            (A.length + 1) (by simp)
          unfold Document.first_child
          rw [hx]
          rfl
        | cons v rest =>
          obtain ⟨tv, tailv, htv⟩ := labels_head v
          have hx := parens_get? doc T ctx.parens
            (A ++ [NodeInfo.openInfo NodeType.arrayT])
            (NodeInfo.openInfo tv)
            ((tailv ++ labelsOfElems rest) ++
              ([NodeInfo.closeInfo NodeType.arrayT] ++ B))
            (by rw [hT]; simp [labelsOf, labelsOfElems, htv])
            (A.length + 1) (by simp)
          unfold Document.first_child
          rw [hx]
          rfl
      have hT2 : T = (A ++ [NodeInfo.openInfo NodeType.arrayT]) ++
          labelsOfElems es ++ (NodeInfo.closeInfo NodeType.arrayT :: B) := by
        rw [hT]; simp [labelsOf]
      have hS2 : S = SA ++ (stringsOfElems es ++ SB) := hS
      have hN2 : N = NA ++ (numbersOfElems es ++ NB) := hN
      have hBL2 : BL = BA ++ (boolsOfElems es ++ BB) := hBL
      have e1 : (NodeInfo.openInfo NodeType.arrayT ==
          NodeInfo.openInfo NodeType.stringT) = false := by decide
      have e2 : (NodeInfo.openInfo NodeType.arrayT ==
          NodeInfo.openInfo NodeType.numberT) = false := by decide
      have e3 : (NodeInfo.openInfo NodeType.arrayT ==
          NodeInfo.openInfo NodeType.booleanT) = false := by decide
      have hSA2 : SA.length = (A ++ [NodeInfo.openInfo NodeType.arrayT]).countP
          (fun x => x == NodeInfo.openInfo NodeType.stringT) := by
        rw [hSA]; simp [List.countP_append, List.countP_cons, e1]
      have hNA2 : NA.length = (A ++ [NodeInfo.openInfo NodeType.arrayT]).countP
          (fun x => x == NodeInfo.openInfo NodeType.numberT) := by
        rw [hNA]; simp [List.countP_append, List.countP_cons, e2]
      have hBA2 : BA.length = (A ++ [NodeInfo.openInfo NodeType.arrayT]).countP
          (fun x => x == NodeInfo.openInfo NodeType.booleanT) := by
        rw [hBA]; simp [List.countP_append, List.countP_cons, e3]
      have hSE := serializeElems_spec es doc T S N BL ctx
        (A ++ [NodeInfo.openInfo NodeType.arrayT])
        (NodeInfo.closeInfo NodeType.arrayT :: B) SA SB NA NB BA BB f
        hT2 ⟨NodeInfo.closeInfo NodeType.arrayT, B, rfl, rfl⟩
        hS2 hSA2 hN2 hNA2 hBL2 hBA2 hfuel2
      have hlen : (A ++ [NodeInfo.openInfo NodeType.arrayT]).length =
          A.length + 1 := by simp
      rw [hlen] at hSE
      show serializeValue (f + 1) doc (DocValue.arrayV A.length) =
        some (eventsOf (Json.arr es))
      simp only [serializeValue, hfc, hSE]
      simp [eventsOf]
  | str s =>
    cases fuel with
    | zero => simp [labelsOf] at hfuel
    | succ f => rfl
  | num x =>
    cases fuel with
    | zero => simp [labelsOf] at hfuel
    | succ f => rfl
  | bool v =>
    cases fuel with
    | zero => simp [labelsOf] at hfuel
    | succ f => rfl
  | null =>
    cases fuel with
    | zero => simp [labelsOf] at hfuel
    | succ f => rfl

theorem serializeFields_spec (fs : JsonFields) (doc : Document)
    (T : List NodeInfo) (S : List (List Byte)) (N : List Float) (BL : List Bool)
    (ctx : DocCtx doc T S N BL) (A B : List NodeInfo)
    (SA SB : List (List Byte)) (NA NB : List Float) (BA BB : List Bool)
    (fuel : Nat)
    (hT : T = A ++ labelsOfFields fs ++ B)
    (hBc : ∃ nb Bt, B = nb :: Bt ∧ nb.is_open_tag = false)
    (hS : S = SA ++ (stringsOfFields fs ++ SB))
    (hSA : SA.length = A.countP (fun x => x == NodeInfo.openInfo NodeType.stringT))
    (hN : N = NA ++ (numbersOfFields fs ++ NB))
    (hNA : NA.length = A.countP (fun x => x == NodeInfo.openInfo NodeType.numberT))
    (hBL : BL = BA ++ (boolsOfFields fs ++ BB))
    (hBA : BA.length = A.countP (fun x => x == NodeInfo.openInfo NodeType.booleanT))
    (hfuel : (labelsOfFields fs).length + 1 ≤ fuel) :
    serializeFields fuel doc (headPosF fs A.length) = some (eventsOfFields fs) := by
  cases fs with
  | nil =>
    cases fuel with
    | zero => omega
    | succ f => rfl
  | cons k v rest =>
    cases fuel with
    | zero => omega
    | succ fl =>
      obtain ⟨inner, hish, hiw, hilen⟩ := labels_shape v
      have hT' : T = A ++ NodeInfo.openInfo (NodeType.fieldT k) ::
          ((labelsOf v ++ (NodeInfo.closeInfo (NodeType.fieldT k) ::
            labelsOfFields rest)) ++ B) := by
        rw [hT]; simp [labelsOfFields]
      have hp : A.length < T.length := by
        rw [hT']
        simp only [List.length_append, List.length_cons]
        omega
      have hget : ∀ (h2 : A.length < T.length),
          T.get ⟨A.length, h2⟩ = NodeInfo.openInfo (NodeType.fieldT k) := by
        rw [hT']
        intro h2
        exact get_at_len A _ _ h2
      have hnt : doc.node_type A.length = some (NodeType.fieldT k) := by
        have := ctx.nt A.length hp
        rw [hget hp] at this
        exact this
      obtain ⟨tv, tailv, htv⟩ := labels_head v
      have hfc : doc.first_child A.length = some (A.length + 1) := by
        have hx := parens_get? doc T ctx.parens
          (A ++ [NodeInfo.openInfo (NodeType.fieldT k)])
          (NodeInfo.openInfo tv)
          ((tailv ++ (NodeInfo.closeInfo (NodeType.fieldT k) ::
            labelsOfFields rest)) ++ B)
          (by rw [hT', htv]; simp)
          (A.length + 1) (by simp)
        unfold Document.first_child
        rw [hx]
        rfl
      have e1 : (NodeInfo.openInfo (NodeType.fieldT k) ==
          NodeInfo.openInfo NodeType.stringT) = false := by
        simp [NodeInfo.openInfo]
      have e2 : (NodeInfo.openInfo (NodeType.fieldT k) ==
          NodeInfo.openInfo NodeType.numberT) = false := by
        simp [NodeInfo.openInfo]
      have e3 : (NodeInfo.openInfo (NodeType.fieldT k) ==
          NodeInfo.openInfo NodeType.booleanT) = false := by
        simp [NodeInfo.openInfo]
      have c1 : (NodeInfo.closeInfo (NodeType.fieldT k) ==
          NodeInfo.openInfo NodeType.stringT) = false := by
        simp [NodeInfo.closeInfo, NodeInfo.openInfo]
      have c2 : (NodeInfo.closeInfo (NodeType.fieldT k) ==
          NodeInfo.openInfo NodeType.numberT) = false := by
        simp [NodeInfo.closeInfo, NodeInfo.openInfo]
      have c3 : (NodeInfo.closeInfo (NodeType.fieldT k) ==
          NodeInfo.openInfo NodeType.booleanT) = false := by
        simp [NodeInfo.closeInfo, NodeInfo.openInfo]
      have hTv : T = (A ++ [NodeInfo.openInfo (NodeType.fieldT k)]) ++
          labelsOf v ++ ((NodeInfo.closeInfo (NodeType.fieldT k) ::
            labelsOfFields rest) ++ B) := by
        rw [hT]; simp [labelsOfFields]
      have hSv : S = SA ++ (stringsOf v ++ (stringsOfFields rest ++ SB)) := by
        rw [hS]; simp [stringsOfFields]
      have hNv : N = NA ++ (numbersOf v ++ (numbersOfFields rest ++ NB)) := by
        rw [hN]; simp [numbersOfFields]
      have hBLv : BL = BA ++ (boolsOf v ++ (boolsOfFields rest ++ BB)) := by
        rw [hBL]; simp [boolsOfFields]
      have hSAv : SA.length = (A ++ [NodeInfo.openInfo (NodeType.fieldT k)]).countP
          (fun x => x == NodeInfo.openInfo NodeType.stringT) := by
        rw [hSA]; simp [List.countP_append, List.countP_cons, e1]
      have hNAv : NA.length = (A ++ [NodeInfo.openInfo (NodeType.fieldT k)]).countP
          (fun x => x == NodeInfo.openInfo NodeType.numberT) := by
        rw [hNA]; simp [List.countP_append, List.countP_cons, e2]
      have hBAv : BA.length = (A ++ [NodeInfo.openInfo (NodeType.fieldT k)]).countP
          (fun x => x == NodeInfo.openInfo NodeType.booleanT) := by
        rw [hBA]; simp [List.countP_append, List.countP_cons, e3]
      have hval : doc.value (A.length + 1) = some (dvOf v (A.length + 1)) := by
        have := value_at doc T S N BL ctx v
          (A ++ [NodeInfo.openInfo (NodeType.fieldT k)])
          ((NodeInfo.closeInfo (NodeType.fieldT k) :: labelsOfFields rest) ++ B)
          SA (stringsOfFields rest ++ SB) NA (numbersOfFields rest ++ NB)
          BA (boolsOfFields rest ++ BB)
          hTv hSv hSAv hNv hNAv hBLv hBAv
        simpa using this
      have hfuelv : (labelsOf v).length ≤ fl := by
        simp only [labelsOfFields, List.length_cons, List.length_append] at hfuel
        omega
      have hsv : serializeValue fl doc (dvOf v (A.length + 1)) =
          some (eventsOf v) := by
        have := serializeValue_spec v doc T S N BL ctx
          (A ++ [NodeInfo.openInfo (NodeType.fieldT k)])
          ((NodeInfo.closeInfo (NodeType.fieldT k) :: labelsOfFields rest) ++ B)
          SA (stringsOfFields rest ++ SB) NA (numbersOfFields rest ++ NB)
          BA (boolsOfFields rest ++ BB) fl
          hTv hSv hSAv hNv hNAv hBLv hBAv hfuelv
        simpa using this
      have hsplit : T.map NodeInfo.is_open_tag =
          A.map NodeInfo.is_open_tag ++
            (true :: ((labelsOf v).map NodeInfo.is_open_tag) ++ [false]) ++
            (labelsOfFields rest ++ B).map NodeInfo.is_open_tag := by
        rw [hT]
        simp [labelsOfFields, NodeInfo.openInfo, NodeInfo.closeInfo,
          List.map_append]
      have hfcl := findClose_chunk doc T ctx.parens A
        ((labelsOf v).map NodeInfo.is_open_tag) (labelsOfFields rest ++ B)
        hsplit (labels_walk v) A.length rfl
      rw [List.length_map] at hfcl
      have hns : doc.next_sibling A.length =
          headPosF rest (A.length + (labelsOf v).length + 2) := by
        unfold Document.next_sibling
        simp only [hfcl]
        cases rest with
        | nil =>
          obtain ⟨nb, Bt, hBdec, hnb⟩ := hBc
          have hx2 := parens_get? doc T ctx.parens
            (A ++ (NodeInfo.openInfo (NodeType.fieldT k) ::
              (labelsOf v ++ [NodeInfo.closeInfo (NodeType.fieldT k)])))
            nb Bt
            (by rw [hT, hBdec]; simp [labelsOfFields])
            (A.length + (labelsOf v).length + 1 + 1)
            (by simp only [List.length_append, List.length_cons, List.length_nil]
                omega)
          simp only [hx2, hnb]
          rfl
        | cons k2 v2 rest2 =>
          have hx2 := parens_get? doc T ctx.parens
            (A ++ (NodeInfo.openInfo (NodeType.fieldT k) ::
              (labelsOf v ++ [NodeInfo.closeInfo (NodeType.fieldT k)])))
            (NodeInfo.openInfo (NodeType.fieldT k2))
            ((labelsOf v2 ++ (NodeInfo.closeInfo (NodeType.fieldT k2) ::
              labelsOfFields rest2)) ++ B)
            (by rw [hT]; simp [labelsOfFields])
            (A.length + (labelsOf v).length + 1 + 1)
            (by simp only [List.length_append, List.length_cons, List.length_nil]
                omega)
          simp only [hx2, NodeInfo.openInfo]
          rfl
      have hTr : T = (A ++ (NodeInfo.openInfo (NodeType.fieldT k) ::
          (labelsOf v ++ [NodeInfo.closeInfo (NodeType.fieldT k)]))) ++
          labelsOfFields rest ++ B := by
        rw [hT]; simp [labelsOfFields]
      have hSr : S = (SA ++ stringsOf v) ++ (stringsOfFields rest ++ SB) := by
        rw [hS]; simp [stringsOfFields]
      have hNr : N = (NA ++ numbersOf v) ++ (numbersOfFields rest ++ NB) := by
        rw [hN]; simp [numbersOfFields]
      have hBLr : BL = (BA ++ boolsOf v) ++ (boolsOfFields rest ++ BB) := by
        rw [hBL]; simp [boolsOfFields]
      have hSAr : (SA ++ stringsOf v).length =
          (A ++ (NodeInfo.openInfo (NodeType.fieldT k) ::
            (labelsOf v ++ [NodeInfo.closeInfo (NodeType.fieldT k)]))).countP
          (fun x => x == NodeInfo.openInfo NodeType.stringT) := by
        simp [List.length_append, List.countP_append, List.countP_cons, e1, c1,
          hSA, labels_count_str v]
      have hNAr : (NA ++ numbersOf v).length =
          (A ++ (NodeInfo.openInfo (NodeType.fieldT k) ::
            (labelsOf v ++ [NodeInfo.closeInfo (NodeType.fieldT k)]))).countP
          (fun x => x == NodeInfo.openInfo NodeType.numberT) := by
        simp [List.length_append, List.countP_append, List.countP_cons, e2, c2,
          hNA, labels_count_num v]
      have hBAr : (BA ++ boolsOf v).length =
          (A ++ (NodeInfo.openInfo (NodeType.fieldT k) ::
            (labelsOf v ++ [NodeInfo.closeInfo (NodeType.fieldT k)]))).countP
          (fun x => x == NodeInfo.openInfo NodeType.booleanT) := by
        simp [List.length_append, List.countP_append, List.countP_cons, e3, c3,
          hBA, labels_count_bool v]
      have hfuelr : (labelsOfFields rest).length + 1 ≤ fl := by
        simp only [labelsOfFields, List.length_cons, List.length_append] at hfuel
        omega
      have hSFr := serializeFields_spec rest doc T S N BL ctx
        (A ++ (NodeInfo.openInfo (NodeType.fieldT k) ::
          (labelsOf v ++ [NodeInfo.closeInfo (NodeType.fieldT k)]))) B
        (SA ++ stringsOf v) SB (NA ++ numbersOf v) NB
        (BA ++ boolsOf v) BB fl
        hTr hBc hSr hSAr hNr hNAr hBLr hBAr hfuelr
      have hlenr : (A ++ (NodeInfo.openInfo (NodeType.fieldT k) ::
          (labelsOf v ++ [NodeInfo.closeInfo (NodeType.fieldT k)]))).length =
          A.length + (labelsOf v).length + 2 := by
        simp only [List.length_append, List.length_cons, List.length_nil]
        omega
      rw [hlenr] at hSFr
      show serializeFields (fl + 1) doc (some A.length) =
        some (eventsOfFields (JsonFields.cons k v rest))
      simp only [serializeFields, hnt, hfc, hval, hsv, hns, hSFr]
      simp [eventsOfFields]

theorem serializeElems_spec (es : JsonElems) (doc : Document)
    (T : List NodeInfo) (S : List (List Byte)) (N : List Float) (BL : List Bool)
    (ctx : DocCtx doc T S N BL) (A B : List NodeInfo)
    (SA SB : List (List Byte)) (NA NB : List Float) (BA BB : List Bool)
    (fuel : Nat)
    (hT : T = A ++ labelsOfElems es ++ B)
    (hBc : ∃ nb Bt, B = nb :: Bt ∧ nb.is_open_tag = false)
    (hS : S = SA ++ (stringsOfElems es ++ SB))
    (hSA : SA.length = A.countP (fun x => x == NodeInfo.openInfo NodeType.stringT))
    (hN : N = NA ++ (numbersOfElems es ++ NB))
    (hNA : NA.length = A.countP (fun x => x == NodeInfo.openInfo NodeType.numberT))
    (hBL : BL = BA ++ (boolsOfElems es ++ BB))
    (hBA : BA.length = A.countP (fun x => x == NodeInfo.openInfo NodeType.booleanT))
    (hfuel : (labelsOfElems es).length + 1 ≤ fuel) :
    serializeElems fuel doc (headPosE es A.length) = some (eventsOfElems es) := by
  cases es with
  | nil =>
    cases fuel with
    | zero => omega
    | succ f => rfl
  | cons v rest =>
    cases fuel with
    | zero => omega
    | succ fl =>
      obtain ⟨inner, hish, hiw, hilen⟩ := labels_shape v
      have hTv : T = A ++ labelsOf v ++ (labelsOfElems rest ++ B) := by
        rw [hT]; simp [labelsOfElems]
      have hSv : S = SA ++ (stringsOf v ++ (stringsOfElems rest ++ SB)) := by
        rw [hS]; simp [stringsOfElems]
      have hNv : N = NA ++ (numbersOf v ++ (numbersOfElems rest ++ NB)) := by
        rw [hN]; simp [numbersOfElems]
      have hBLv : BL = BA ++ (boolsOf v ++ (boolsOfElems rest ++ BB)) := by
        rw [hBL]; simp [boolsOfElems]
      have hval : doc.value A.length = some (dvOf v A.length) :=
        value_at doc T S N BL ctx v A (labelsOfElems rest ++ B)
          SA (stringsOfElems rest ++ SB) NA (numbersOfElems rest ++ NB)
          BA (boolsOfElems rest ++ BB)
          hTv hSv hSA hNv hNA hBLv hBA
      have hfuelv : (labelsOf v).length ≤ fl := by
        simp only [labelsOfElems, List.length_append] at hfuel
        omega
      have hsv : serializeValue fl doc (dvOf v A.length) =
          some (eventsOf v) :=
        serializeValue_spec v doc T S N BL ctx A (labelsOfElems rest ++ B)
          SA (stringsOfElems rest ++ SB) NA (numbersOfElems rest ++ NB)
          BA (boolsOfElems rest ++ BB) fl
          hTv hSv hSA hNv hNA hBLv hBA hfuelv
      have hsplit : T.map NodeInfo.is_open_tag =
          A.map NodeInfo.is_open_tag ++ (true :: inner ++ [false]) ++
            (labelsOfElems rest ++ B).map NodeInfo.is_open_tag := by
        rw [hTv]
        simp only [List.map_append]
        rw [hish]
      have hfcl := findClose_chunk doc T ctx.parens A inner
        (labelsOfElems rest ++ B) hsplit hiw A.length rfl
      have hns : doc.next_sibling A.length =
          headPosE rest (A.length + (labelsOf v).length) := by
        unfold Document.next_sibling
        simp only [hfcl]
        cases rest with
        | nil =>
          obtain ⟨nb, Bt, hBdec, hnb⟩ := hBc
          have hx2 := parens_get? doc T ctx.parens
            (A ++ labelsOf v) nb Bt
            (by rw [hTv, hBdec]; simp [labelsOfElems])
            (A.length + inner.length + 1 + 1)
            (by simp only [List.length_append]
                omega)
          simp only [hx2, hnb]
          rfl
        | cons v2 rest2 =>
          obtain ⟨tv2, tailv2, htv2⟩ := labels_head v2
          have hx2 := parens_get? doc T ctx.parens
            (A ++ labelsOf v) (NodeInfo.openInfo tv2)
            ((tailv2 ++ labelsOfElems rest2) ++ B)
            (by rw [hT]; simp [labelsOfElems, htv2])
            (A.length + inner.length + 1 + 1)
            (by simp only [List.length_append]
                omega)
          simp only [hx2, NodeInfo.openInfo]
          show some (A.length + inner.length + 1 + 1) =
            headPosE (JsonElems.cons v2 rest2) (A.length + (labelsOf v).length)
          simp only [headPosE]
          congr 1
          omega
      have hTr : T = (A ++ labelsOf v) ++ labelsOfElems rest ++ B := by
        rw [hT]; simp [labelsOfElems]
      have hSr : S = (SA ++ stringsOf v) ++ (stringsOfElems rest ++ SB) := by
        rw [hS]; simp [stringsOfElems]
      have hNr : N = (NA ++ numbersOf v) ++ (numbersOfElems rest ++ NB) := by
        rw [hN]; simp [numbersOfElems]
      have hBLr : BL = (BA ++ boolsOf v) ++ (boolsOfElems rest ++ BB) := by
        rw [hBL]; simp [boolsOfElems]
      have hSAr : (SA ++ stringsOf v).length = (A ++ labelsOf v).countP
          (fun x => x == NodeInfo.openInfo NodeType.stringT) := by
        simp [List.length_append, List.countP_append, hSA, labels_count_str v]
      have hNAr : (NA ++ numbersOf v).length = (A ++ labelsOf v).countP
          (fun x => x == NodeInfo.openInfo NodeType.numberT) := by
        simp [List.length_append, List.countP_append, hNA, labels_count_num v]
      have hBAr : (BA ++ boolsOf v).length = (A ++ labelsOf v).countP
          (fun x => x == NodeInfo.openInfo NodeType.booleanT) := by
        simp [List.length_append, List.countP_append, hBA, labels_count_bool v]
      have hfuelr : (labelsOfElems rest).length + 1 ≤ fl := by
        simp only [labelsOfElems, List.length_append] at hfuel
        omega
      have hSEr := serializeElems_spec rest doc T S N BL ctx
        (A ++ labelsOf v) B (SA ++ stringsOf v) SB (NA ++ numbersOf v) NB
        (BA ++ boolsOf v) BB fl
        hTr hBc hSr hSAr hNr hNAr hBLr hBAr hfuelr
      have hlenr : (A ++ labelsOf v).length = A.length + (labelsOf v).length := by
        simp
      rw [hlenr] at hSEr
      show serializeElems (fl + 1) doc (some A.length) =
        some (eventsOfElems (JsonElems.cons v rest))
      simp only [serializeElems, hval, hsv, hns, hSEr]
      simp [eventsOfElems]

end

theorem docCtx_parse (J : Json) :
    DocCtx (Document.build (applyJson J Builder.new)) (labelsOf J)
      (stringsOf J) (numbersOf J) (boolsOf J) := by
  obtain ⟨hrep0, hpre, htext, hnum, hbool⟩ := applyJson_spec J Builder.new [] brep_new
  have hrep : BRep (applyJson J Builder.new) (labelsOf J) := by
    simpa using hrep0
  refine ⟨?_, ?_, ?_, ?_, ?_, ?_, ?_, ?_⟩
  · exact hrep.parens
  · intro p hp
    exact brep_node_type _ _ hrep p hp
  · intro p hp hs
    exact brep_text_id _ _ hrep p hp hs
  · intro p hp hs
    exact brep_number_id _ _ hrep p hp hs
  · intro p hp hs
    exact brep_boolean_id _ _ hrep p hp hs
  · intro t ht
    show ((applyJson J Builder.new).text_builder.build).lookup t =
      some ((stringsOf J).getD t [])
    rw [htext]
    exact (build_lookup TEXT_USAGE_BLOCK_SIZE TEXT_USAGE_CACHE_BLOCKS
      (stringsOf J)).2 t ht
  · show (applyJson J Builder.new).numbers = numbersOf J
    rw [hnum]
    rfl
  · show (applyJson J Builder.new).booleans = boolsOf J
    rw [hbool]
    rfl

theorem parsed_serialize (J : Json) :
    (Document.build (applyJson J Builder.new)).serialize = some (eventsOf J) := by
  have hctx := docCtx_parse J
  obtain ⟨inner, hish, hiw, hilen⟩ := labels_shape J
  have hplen : (Document.build (applyJson J Builder.new)).parens.length =
      (labelsOf J).length := by
    rw [hctx.parens, List.length_map]
  have hne : (Document.build (applyJson J Builder.new)).parens ≠ [] := by
    intro hc
    have := hplen
    rw [hc] at this
    simp at this
    omega
  have hroot : (Document.build (applyJson J Builder.new)).root = some 0 := by
    unfold Document.root
    rw [if_neg hne]
  have hval : (Document.build (applyJson J Builder.new)).value 0 =
      some (dvOf J 0) := by
    have := value_at (Document.build (applyJson J Builder.new)) (labelsOf J)
      (stringsOf J) (numbersOf J) (boolsOf J) hctx J [] [] [] [] [] [] [] []
      (by simp) (by simp) (by simp) (by simp) (by simp) (by simp) (by simp)
    simpa using this
  have hsv : serializeValue ((labelsOf J).length + 1)
      (Document.build (applyJson J Builder.new)) (dvOf J 0) =
      some (eventsOf J) := by
    have := serializeValue_spec J (Document.build (applyJson J Builder.new))
      (labelsOf J) (stringsOf J) (numbersOf J) (boolsOf J) hctx [] [] [] [] []
      [] [] [] ((labelsOf J).length + 1)
      (by simp) (by simp) (by simp) (by simp) (by simp) (by simp) (by simp)
      (by omega)
    simpa using this
  unfold Document.serialize
  rw [hroot]
  simp only [Option.some_bind]
  rw [hval]
  simp only [Option.some_bind]
  rw [hplen]
  exact hsv

/-- C1: parse-serialize-parse round trip.  Every event stream that
parses to a document serializes to a stream that parses back to the
same document (parse after serialize after parse equals parse). -/
theorem parse_serialize_roundtrip (es : List JsonEvent) (doc : Document)
    (h : parseJson es = some doc) :
    ∃ out, doc.serialize = some out ∧ parseJson out = some doc := by
  obtain ⟨b, rest, hpi, hdoc⟩ : ∃ b rest,
      parseItem (es.length + 1) es Builder.new = some (b, rest) ∧
      doc = Document.build b := by
    unfold parseJson at h
    cases hm : parseItem (es.length + 1) es Builder.new with
    | none => rw [hm] at h; cases h
    | some p =>
      rw [hm] at h
      cases h
      exact ⟨p.1, p.2, rfl, rfl⟩
  obtain ⟨J, hes, hb⟩ := (parse_complete (es.length + 1)).1 es Builder.new b rest hpi
  subst hb
  subst hdoc
  refine ⟨eventsOf J, parsed_serialize J, ?_⟩
  unfold parseJson
  have hps := parse_sound J ((eventsOf J).length + 1) Builder.new []
    (by omega)
  rw [List.append_nil] at hps
  rw [hps]

/-- C1 witness: the singleton null stream parses, and the round trip
closes on it. -/
theorem parse_serialize_roundtrip_witness :
    parseJson [JsonEvent.nullE] = some (Document.build Builder.new.addNullItem) ∧
    ∃ out, (Document.build Builder.new.addNullItem).serialize = some out ∧
      parseJson out = some (Document.build Builder.new.addNullItem) :=
  ⟨rfl, parse_serialize_roundtrip [JsonEvent.nullE]
    (Document.build Builder.new.addNullItem) rfl⟩

theorem objectGetGo_spec (fs : JsonFields) (doc : Document)
    (T : List NodeInfo) (S : List (List Byte)) (N : List Float) (BL : List Bool)
    (ctx : DocCtx doc T S N BL) (A B : List NodeInfo)
    (SA SB : List (List Byte)) (NA NB : List Float) (BA BB : List Bool)
    (fuel : Nat) (key : List Byte)
    (hT : T = A ++ labelsOfFields fs ++ B)
    (hBc : ∃ nb Bt, B = nb :: Bt ∧ nb.is_open_tag = false)
    (hS : S = SA ++ (stringsOfFields fs ++ SB))
    (hSA : SA.length = A.countP (fun x => x == NodeInfo.openInfo NodeType.stringT))
    (hN : N = NA ++ (numbersOfFields fs ++ NB))
    (hNA : NA.length = A.countP (fun x => x == NodeInfo.openInfo NodeType.numberT))
    (hBL : BL = BA ++ (boolsOfFields fs ++ BB))
    (hBA : BA.length = A.countP (fun x => x == NodeInfo.openInfo NodeType.booleanT))
    (hfuel : (labelsOfFields fs).length + 1 ≤ fuel) :
    objectGetGo fuel doc (headPosF fs A.length) key =
      match findFieldPos fs key A.length with
      | some (v, p) => some (dvOf v p)
      | none => none := by
  cases fs with
  | nil =>
    cases fuel with
    | zero => omega
    | succ f => rfl
  | cons k v rest =>
    cases fuel with
    | zero => omega
    | succ fl =>
      obtain ⟨inner, hish, hiw, hilen⟩ := labels_shape v
      have hT' : T = A ++ NodeInfo.openInfo (NodeType.fieldT k) ::
          ((labelsOf v ++ (NodeInfo.closeInfo (NodeType.fieldT k) ::
            labelsOfFields rest)) ++ B) := by
        rw [hT]; simp [labelsOfFields]
      have hp : A.length < T.length := by
        rw [hT']
        simp only [List.length_append, List.length_cons]
        omega
      have hget : ∀ (h2 : A.length < T.length),
          T.get ⟨A.length, h2⟩ = NodeInfo.openInfo (NodeType.fieldT k) := by
        rw [hT']
        intro h2
        exact get_at_len A _ _ h2
      have hnt : doc.node_type A.length = some (NodeType.fieldT k) := by
        have := ctx.nt A.length hp
        rw [hget hp] at this
        exact this
      obtain ⟨tv, tailv, htv⟩ := labels_head v
      have hfc : doc.first_child A.length = some (A.length + 1) := by
        have hx := parens_get? doc T ctx.parens
          (A ++ [NodeInfo.openInfo (NodeType.fieldT k)])
          (NodeInfo.openInfo tv)
          ((tailv ++ (NodeInfo.closeInfo (NodeType.fieldT k) ::
            labelsOfFields rest)) ++ B)
          (by rw [hT', htv]; simp)
          (A.length + 1) (by simp)
        unfold Document.first_child
        rw [hx]
        rfl
      have e1 : (NodeInfo.openInfo (NodeType.fieldT k) ==
          NodeInfo.openInfo NodeType.stringT) = false := by
        simp [NodeInfo.openInfo]
      have e2 : (NodeInfo.openInfo (NodeType.fieldT k) ==
          NodeInfo.openInfo NodeType.numberT) = false := by
        simp [NodeInfo.openInfo]
      have e3 : (NodeInfo.openInfo (NodeType.fieldT k) ==
          NodeInfo.openInfo NodeType.booleanT) = false := by
        simp [NodeInfo.openInfo]
      have c1 : (NodeInfo.closeInfo (NodeType.fieldT k) ==
          NodeInfo.openInfo NodeType.stringT) = false := by
        simp [NodeInfo.closeInfo, NodeInfo.openInfo]
      have c2 : (NodeInfo.closeInfo (NodeType.fieldT k) ==
          NodeInfo.openInfo NodeType.numberT) = false := by
        simp [NodeInfo.closeInfo, NodeInfo.openInfo]
      have c3 : (NodeInfo.closeInfo (NodeType.fieldT k) ==
          NodeInfo.openInfo NodeType.booleanT) = false := by
        simp [NodeInfo.closeInfo, NodeInfo.openInfo]
      have hTv : T = (A ++ [NodeInfo.openInfo (NodeType.fieldT k)]) ++
          labelsOf v ++ ((NodeInfo.closeInfo (NodeType.fieldT k) ::
            labelsOfFields rest) ++ B) := by
        rw [hT]; simp [labelsOfFields]
      have hSv : S = SA ++ (stringsOf v ++ (stringsOfFields rest ++ SB)) := by
        rw [hS]; simp [stringsOfFields]
      have hNv : N = NA ++ (numbersOf v ++ (numbersOfFields rest ++ NB)) := by
        rw [hN]; simp [numbersOfFields]
      have hBLv : BL = BA ++ (boolsOf v ++ (boolsOfFields rest ++ BB)) := by
        rw [hBL]; simp [boolsOfFields]
      have hSAv : SA.length = (A ++ [NodeInfo.openInfo (NodeType.fieldT k)]).countP
          (fun x => x == NodeInfo.openInfo NodeType.stringT) := by
        rw [hSA]; simp [List.countP_append, List.countP_cons, e1]
      have hNAv : NA.length = (A ++ [NodeInfo.openInfo (NodeType.fieldT k)]).countP
          (fun x => x == NodeInfo.openInfo NodeType.numberT) := by
        rw [hNA]; simp [List.countP_append, List.countP_cons, e2]
      have hBAv : BA.length = (A ++ [NodeInfo.openInfo (NodeType.fieldT k)]).countP
          (fun x => x == NodeInfo.openInfo NodeType.booleanT) := by
        rw [hBA]; simp [List.countP_append, List.countP_cons, e3]
      have hval : doc.value (A.length + 1) = some (dvOf v (A.length + 1)) := by
        have := value_at doc T S N BL ctx v
          (A ++ [NodeInfo.openInfo (NodeType.fieldT k)])
          ((NodeInfo.closeInfo (NodeType.fieldT k) :: labelsOfFields rest) ++ B)
          SA (stringsOfFields rest ++ SB) NA (numbersOfFields rest ++ NB)
          BA (boolsOfFields rest ++ BB)
          hTv hSv hSAv hNv hNAv hBLv hBAv
        simpa using this
      by_cases hk : k = key
      · show objectGetGo (fl + 1) doc (some A.length) key =
          match findFieldPos (JsonFields.cons k v rest) key A.length with
          | some (v2, p) => some (dvOf v2 p)
          | none => none
        simp only [objectGetGo, hnt, hfc, hval, if_pos hk, findFieldPos]
      · have hsplit : T.map NodeInfo.is_open_tag =
            A.map NodeInfo.is_open_tag ++
              (true :: ((labelsOf v).map NodeInfo.is_open_tag) ++ [false]) ++
              (labelsOfFields rest ++ B).map NodeInfo.is_open_tag := by
          rw [hT]
          simp [labelsOfFields, NodeInfo.openInfo, NodeInfo.closeInfo,
            List.map_append]
        have hfcl := findClose_chunk doc T ctx.parens A
          ((labelsOf v).map NodeInfo.is_open_tag) (labelsOfFields rest ++ B)
          hsplit (labels_walk v) A.length rfl
        rw [List.length_map] at hfcl
        have hns : doc.next_sibling A.length =
            headPosF rest (A.length + (labelsOf v).length + 2) := by
          unfold Document.next_sibling
          simp only [hfcl]
          cases rest with
          | nil =>
            obtain ⟨nb, Bt, hBdec, hnb⟩ := hBc
            have hx2 := parens_get? doc T ctx.parens
              (A ++ (NodeInfo.openInfo (NodeType.fieldT k) ::
                (labelsOf v ++ [NodeInfo.closeInfo (NodeType.fieldT k)])))
              nb Bt
              (by rw [hT, hBdec]; simp [labelsOfFields])
              (A.length + (labelsOf v).length + 1 + 1)
              (by simp only [List.length_append, List.length_cons, List.length_nil]
                  omega)
            simp only [hx2, hnb]
            rfl
          | cons k2 v2 rest2 =>
            have hx2 := parens_get? doc T ctx.parens
              (A ++ (NodeInfo.openInfo (NodeType.fieldT k) ::
                (labelsOf v ++ [NodeInfo.closeInfo (NodeType.fieldT k)])))
              (NodeInfo.openInfo (NodeType.fieldT k2))
              ((labelsOf v2 ++ (NodeInfo.closeInfo (NodeType.fieldT k2) ::
                labelsOfFields rest2)) ++ B)
              (by rw [hT]; simp [labelsOfFields])
              (A.length + (labelsOf v).length + 1 + 1)
              (by simp only [List.length_append, List.length_cons, List.length_nil]
                  omega)
            simp only [hx2, NodeInfo.openInfo]
            rfl
        have hTr : T = (A ++ (NodeInfo.openInfo (NodeType.fieldT k) ::
            (labelsOf v ++ [NodeInfo.closeInfo (NodeType.fieldT k)]))) ++
            labelsOfFields rest ++ B := by
          rw [hT]; simp [labelsOfFields]
        have hSr : S = (SA ++ stringsOf v) ++ (stringsOfFields rest ++ SB) := by
          rw [hS]; simp [stringsOfFields]
        have hNr : N = (NA ++ numbersOf v) ++ (numbersOfFields rest ++ NB) := by
          rw [hN]; simp [numbersOfFields]
        have hBLr : BL = (BA ++ boolsOf v) ++ (boolsOfFields rest ++ BB) := by
          rw [hBL]; simp [boolsOfFields]
        have hSAr : (SA ++ stringsOf v).length =
            (A ++ (NodeInfo.openInfo (NodeType.fieldT k) ::
              (labelsOf v ++ [NodeInfo.closeInfo (NodeType.fieldT k)]))).countP
            (fun x => x == NodeInfo.openInfo NodeType.stringT) := by
          simp [List.length_append, List.countP_append, List.countP_cons, e1, c1,
            hSA, labels_count_str v]
        have hNAr : (NA ++ numbersOf v).length =
            (A ++ (NodeInfo.openInfo (NodeType.fieldT k) ::
              (labelsOf v ++ [NodeInfo.closeInfo (NodeType.fieldT k)]))).countP
            (fun x => x == NodeInfo.openInfo NodeType.numberT) := by
          simp [List.length_append, List.countP_append, List.countP_cons, e2, c2,
            hNA, labels_count_num v]
        have hBAr : (BA ++ boolsOf v).length =
            (A ++ (NodeInfo.openInfo (NodeType.fieldT k) ::
              (labelsOf v ++ [NodeInfo.closeInfo (NodeType.fieldT k)]))).countP
            (fun x => x == NodeInfo.openInfo NodeType.booleanT) := by
          simp [List.length_append, List.countP_append, List.countP_cons, e3, c3,
            hBA, labels_count_bool v]
        have hfuelr : (labelsOfFields rest).length + 1 ≤ fl := by
          simp only [labelsOfFields, List.length_cons, List.length_append] at hfuel
          omega
        have hGr := objectGetGo_spec rest doc T S N BL ctx
          (A ++ (NodeInfo.openInfo (NodeType.fieldT k) ::
            (labelsOf v ++ [NodeInfo.closeInfo (NodeType.fieldT k)]))) B
          (SA ++ stringsOf v) SB (NA ++ numbersOf v) NB
          (BA ++ boolsOf v) BB fl key
          hTr hBc hSr hSAr hNr hNAr hBLr hBAr hfuelr
        have hlenr : (A ++ (NodeInfo.openInfo (NodeType.fieldT k) ::
            (labelsOf v ++ [NodeInfo.closeInfo (NodeType.fieldT k)]))).length =
            A.length + (labelsOf v).length + 2 := by
          simp only [List.length_append, List.length_cons, List.length_nil]
          omega
        rw [hlenr] at hGr
        show objectGetGo (fl + 1) doc (some A.length) key =
          match findFieldPos (JsonFields.cons k v rest) key A.length with
          | some (v2, p) => some (dvOf v2 p)
          | none => none
        have harith : A.length + 1 + (labelsOf v).length + 1 =
            A.length + (labelsOf v).length + 2 := by omega
        simp only [objectGetGo, hnt, hfc, hval, if_neg hk, hns, hGr,
          findFieldPos, harith]

/-- C4: ObjectValue::get returns the value of the first source-order
field whose name equals the key, as computed by findFieldPos on the
parsed field list (duplicate keys included). -/
theorem object_get_first (fs : JsonFields) (key : List Byte) (v : Json)
    (p : Nat) (hfind : findFieldPos fs key 1 = some (v, p)) :
    (Document.build (applyJson (Json.obj fs) Builder.new)).objectGet 0 key =
      some (dvOf v p) := by
  have hctx := docCtx_parse (Json.obj fs)
  have hplen : (Document.build (applyJson (Json.obj fs) Builder.new)).parens.length =
      (labelsOf (Json.obj fs)).length := by
    rw [hctx.parens, List.length_map]
  have hfc : (Document.build (applyJson (Json.obj fs) Builder.new)).first_child 0 =
      headPosF fs 1 := by
    cases fs with
    | nil =>
      have hx := parens_get? (Document.build (applyJson (Json.obj JsonFields.nil) Builder.new))
        (labelsOf (Json.obj JsonFields.nil)) hctx.parens
        [NodeInfo.openInfo NodeType.objectT]
        (NodeInfo.closeInfo NodeType.objectT) []
        (by simp [labelsOf, labelsOfFields]) 1 (by simp)
      unfold Document.first_child
      rw [hx]
      rfl
    | cons k v2 rest =>
      have hx := parens_get? (Document.build (applyJson (Json.obj (JsonFields.cons k v2 rest)) Builder.new))
        (labelsOf (Json.obj (JsonFields.cons k v2 rest))) hctx.parens
        [NodeInfo.openInfo NodeType.objectT]
        (NodeInfo.openInfo (NodeType.fieldT k))
        ((labelsOf v2 ++ (NodeInfo.closeInfo (NodeType.fieldT k) ::
          labelsOfFields rest)) ++ [NodeInfo.closeInfo NodeType.objectT])
        (by simp [labelsOf, labelsOfFields]) 1 (by simp)
      unfold Document.first_child
      rw [hx]
      rfl
  have hgo := objectGetGo_spec fs
    (Document.build (applyJson (Json.obj fs) Builder.new))
    (labelsOf (Json.obj fs)) (stringsOf (Json.obj fs))
    (numbersOf (Json.obj fs)) (boolsOf (Json.obj fs)) hctx
    [NodeInfo.openInfo NodeType.objectT] [NodeInfo.closeInfo NodeType.objectT]
    [] [] [] [] [] []
    ((Document.build (applyJson (Json.obj fs) Builder.new)).parens.length + 1) key
    (by simp [labelsOf])
    ⟨NodeInfo.closeInfo NodeType.objectT, [], rfl, rfl⟩
    (by simp [stringsOf])
    (by simp; decide)
    (by simp [numbersOf])
    (by simp; decide)
    (by simp [boolsOf])
    (by simp; decide)
    (by rw [hplen]; simp [labelsOf])
  unfold Document.objectGet
  rw [hfc]
  have h1 : ([NodeInfo.openInfo NodeType.objectT] : List NodeInfo).length = 1 := rfl
  rw [h1] at hgo
  rw [hgo, hfind]

/-- C4 witness: an object with a duplicated key; get returns the first
occurrence (the null), not the second (the boolean). -/
theorem object_get_first_witness :
    findFieldPos (JsonFields.cons [97] Json.null
      (JsonFields.cons [97] (Json.bool true) JsonFields.nil)) [97] 1 =
      some (Json.null, 2) ∧
    (Document.build (applyJson (Json.obj (JsonFields.cons [97] Json.null
      (JsonFields.cons [97] (Json.bool true) JsonFields.nil))) Builder.new)).objectGet
      0 [97] = some (dvOf Json.null 2) :=
  ⟨rfl, object_get_first _ [97] Json.null 2 rfl⟩

theorem string_value_q_heap (doc : Document) (n : Nat) :
    (doc.string_value_q n).2.heap_size = doc.heap_size := by
  unfold Document.string_value_q
  cases htid : doc.text_id n with
  | none => rfl
  | some tid =>
    show ({ doc with text := (doc.text.get_string tid).2 } : Document).heap_size =
      doc.heap_size
    obtain ⟨hb, ht, _⟩ := get_string_frame doc.text tid
    unfold Document.heap_size TextUsage.heap_size
    rw [hb, ht]

/-- C8: Document::heap_size is invariant under any sequence of queries.
The only state a query can change is the text-store LRU cache (the
string_value path through get_string); heap_size reads only the frozen
structure, registry, usage vectors, compressed blocks, text index, and
the number and boolean stores, none of which a query touches. -/
theorem heap_size_query_frame (doc : Document) (nodes : List Nat) :
    (applyStringQueries doc nodes).heap_size = doc.heap_size := by
  induction nodes generalizing doc with
  | nil => rfl
  | cons n ns ih =>
    show (applyStringQueries (doc.string_value_q n).2 ns).heap_size = doc.heap_size
    rw [ih]
    exact string_value_q_heap doc n
